import Mathlib

/-!
# Routing simulator (`routing_sim.cpp`): distance-vector and link-state engines

A shallow embedding of `simulateDVR`, `simulateLSR` and `printLSRTable`.

* `vector<vector<int>>` is `List (List Int)`, read with `get2` and written with `set2`;
  `vector<int>` is `List Int`, `vector<bool>` is `List Bool`.
* Every `int` addition of the source goes through `wrap32`, the two's-complement
  32-bit reading of the exact sum.
* The `do … while (updated)` loop of `simulateDVR` and the `while` loop of
  `printLSRTable` are not bounded by the source, so they take a fuel argument and
  return `none` when it runs out.
* `visitOrder`, `hopTrail` and `forwardTrail` observe a run without changing it: the
  order in which the search marks nodes, the values the variable `hop` takes, and the
  nodes a packet passes when it is forwarded with the final next-hop table.
-/

namespace RoutingSim

/-! ## Data model -/

/-- Sentinel cost, `const int INF = 9999`. -/
def INF : Int := 9999

/-- Largest value of a 32-bit `int`. -/
def INT_MAX : Int := 2147483647

/-- Value held by a 32-bit two's-complement `int` after computing the exact integer `x`. -/
def wrap32 (x : Int) : Int := (x + 2147483648) % 4294967296 - 2147483648

/-- Cost matrices and the two DVR tables, `vector<vector<int>>`. -/
abbrev Matrix := List (List Int)

/-- Read `m[i][j]`. -/
def get2 (m : Matrix) (i j : Nat) : Int := (m.getD i []).getD j 0

/-- Write `m[i][j] = v`. -/
def set2 (m : Matrix) (i j : Nat) (v : Int) : Matrix := m.set i ((m.getD i []).set j v)

/-- Shape produced by `readGraphFromFile`: `n` rows of `n` entries, `n = m.size()`. -/
def Square (m : Matrix) (n : Nat) : Prop := m.length = n ∧ ∀ i < n, (m.getD i []).length = n

instance (m : Matrix) (n : Nat) : Decidable (Square m n) := by
  unfold Square; exact inferInstance

/-- Every entry of the `n × n` matrix lies in `lo..hi`. -/
def EntriesIn (m : Matrix) (n : Nat) (lo hi : Int) : Prop :=
  ∀ i < n, ∀ j < n, lo ≤ get2 m i j ∧ get2 m i j ≤ hi

instance (m : Matrix) (n : Nat) (lo hi : Int) : Decidable (EntriesIn m n lo hi) := by
  unfold EntriesIn; exact inferInstance

/-- Every diagonal entry of the `n × n` matrix is 0. -/
def ZeroDiag (m : Matrix) (n : Nat) : Prop := ∀ i < n, get2 m i i = 0

instance (m : Matrix) (n : Nat) : Decidable (ZeroDiag m n) := by
  unfold ZeroDiag; exact inferInstance

/-! ## Distance-vector engine (`simulateDVR`) -/

/-- Local variables of `simulateDVR`: `dist`, `nextHop` and the flag `updated`. -/
structure DVRState where
  dist : Matrix
  nextHop : Matrix
  updated : Bool
deriving DecidableEq, Repr

/-- Initialisation loop of `simulateDVR`:
`nextHop[i][j] = (graph[i][j] != INF && i != j) ? j : -1`. -/
def initNextHop (graph : Matrix) (n : Nat) : Matrix :=
  (List.range n).map fun i => (List.range n).map fun j =>
    if get2 graph i j ≠ INF ∧ i ≠ j then (j : Int) else -1

/-- State of `simulateDVR` when the `do … while` loop is entered: `dist = graph`. -/
def dvrInit (graph : Matrix) : DVRState :=
  { dist := graph, nextHop := initNextHop graph graph.length, updated := false }

/-- Body of the innermost loop of `simulateDVR` for one triple `(i, j, k)`. -/
def relax (i j k : Nat) (s : DVRState) : DVRState :=
  if wrap32 (get2 s.dist i k + get2 s.dist k j) < get2 s.dist i j then
    { dist := set2 s.dist i j (wrap32 (get2 s.dist i k + get2 s.dist k j)),
      nextHop := set2 s.nextHop i j (get2 s.nextHop i k),
      updated := true }
  else s

/-- One pass of the `do` body: `updated = false`, then the three nested `for` loops. -/
def scan (n : Nat) (s : DVRState) : DVRState :=
  (List.range n).foldl (fun s i =>
    (List.range n).foldl (fun s j =>
      (List.range n).foldl (fun s k => relax i j k s) s) s) { s with updated := false }

/-- The `do … while (updated)` loop, at most `fuel` passes. -/
def dvrLoop (n : Nat) : Nat → DVRState → Option DVRState
  | 0, _ => none
  | fuel + 1, s =>
    if (scan n s).updated then dvrLoop n fuel (scan n s) else some (scan n s)

/-- Tables `simulateDVR` hands to `printDVRTable`, when the loop ends within `fuel` passes. -/
def simulateDVR (graph : Matrix) (fuel : Nat) : Option DVRState :=
  dvrLoop graph.length fuel (dvrInit graph)

/-- States the relaxation loop can be in: the initial one, and what `updated = false`
or one execution of the innermost body makes of such a state. -/
inductive DVRReach (graph : Matrix) : DVRState → Prop
  | init : DVRReach graph (dvrInit graph)
  | clear (s : DVRState) : DVRReach graph s → DVRReach graph { s with updated := false }
  | step (s : DVRState) (i j k : Nat) : DVRReach graph s →
      i < graph.length → j < graph.length → k < graph.length → DVRReach graph (relax i j k s)

/-- Sum of all entries of a table. -/
def tableSum (m : Matrix) : Int := (m.map List.sum).sum

/-! ## Link-state engine (`simulateLSR`, `printLSRTable`) -/

/-- Per-source local variables of `simulateLSR`: `dist`, `prev`, `visited`. -/
structure LSRState where
  dist : List Int
  prev : List Int
  visited : List Bool
deriving DecidableEq, Repr

/-- Fresh arrays for source `src`: `dist(n, INF)`, `prev(n, -1)`, `visited(n, false)`,
then `dist[src] = 0`. -/
def lsrInit (n src : Nat) : LSRState :=
  { dist := (List.replicate n INF).set src 0,
    prev := List.replicate n (-1),
    visited := List.replicate n false }

/-- Body of the selection loop: `if (!visited[j] && (u == -1 || dist[j] < dist[u])) u = j;`. -/
def selectStep (s : LSRState) (u : Int) (j : Nat) : Int :=
  if s.visited.getD j false = false ∧ (u = -1 ∨ s.dist.getD j 0 < s.dist.getD u.toNat 0)
  then (j : Int) else u

/-- Selection loop: `u = -1`, then scan `j = 0 .. n-1`. -/
def selectMin (n : Nat) (s : LSRState) : Int :=
  (List.range n).foldl (selectStep s) (-1)

/-- Body of the edge loop for the selected node `u` and one `v`. -/
def relaxEdge (graph : Matrix) (u : Nat) (s : LSRState) (v : Nat) : LSRState :=
  if s.visited.getD v false = false ∧ get2 graph u v ≠ INF then
    if wrap32 (s.dist.getD u 0 + get2 graph u v) < s.dist.getD v 0 then
      { s with dist := s.dist.set v (wrap32 (s.dist.getD u 0 + get2 graph u v)),
               prev := s.prev.set v (u : Int) }
    else s
  else s

/-- Statement `visited[u] = true`. -/
def markVisited (u : Nat) (s : LSRState) : LSRState :=
  { s with visited := s.visited.set u true }

/-- One iteration of the search loop after the `break` test: mark `u`, relax its edges. -/
def visit (graph : Matrix) (n u : Nat) (s : LSRState) : LSRState :=
  (List.range n).foldl (relaxEdge graph u) (markVisited u s)

/-- Search loop `for (iter = 0; iter < n; ++iter)` with `iters` iterations left;
it stops early at `if (u == -1 || dist[u] == INF) break;`. -/
def dijkstraLoop (graph : Matrix) (n : Nat) : Nat → LSRState → LSRState
  | 0, s => s
  | iters + 1, s =>
    if selectMin n s = -1 ∨ s.dist.getD (selectMin n s).toNat 0 = INF then s
    else dijkstraLoop graph n iters (visit graph n (selectMin n s).toNat s)

/-- Arrays `simulateLSR` passes to `printLSRTable` in the iteration of its outer loop
for source `src`. -/
def simulateLSR (graph : Matrix) (src : Nat) : LSRState :=
  dijkstraLoop graph graph.length graph.length (lsrInit graph.length src)

/-- Predecessor walk of `printLSRTable`:
`while (prev[hop] != src && prev[hop] != -1) hop = prev[hop];`, at most `fuel` tests. -/
def hopWalk (prev : List Int) (src : Int) : Nat → Int → Option Int
  | 0, _ => none
  | fuel + 1, hop =>
    if prev.getD hop.toNat 0 ≠ src ∧ prev.getD hop.toNat 0 ≠ -1 then
      hopWalk prev src fuel (prev.getD hop.toNat 0)
    else some hop

/-- Next-hop column `printLSRTable` prints in the row of destination `i` (the source
prints a row for every `i` other than `src`): `hop = i`, the walk, then
`prev[hop] == -1 ? -1 : hop`. -/
def printLSRTable (src : Nat) (prev : List Int) (fuel : Nat) (i : Nat) : Option Int :=
  (hopWalk prev src fuel i).map fun hop => if prev.getD hop.toNat 0 = -1 then -1 else hop

/-! ## Paths of direct edges -/

/-- Total cost of the walk that leaves `i` and visits the nodes of `p` in order. -/
def walkCost (g : Matrix) : Nat → List Nat → Int
  | _, [] => 0
  | i, v :: p => get2 g i v + walkCost g v p

/-- Last node of the walk that leaves `i` and visits the nodes of `p`. -/
def walkEnd : Nat → List Nat → Nat
  | i, [] => i
  | _, v :: p => walkEnd v p

/-- Every node of the walk is a node of the graph and every step is a direct edge
(its cost is not the sentinel). -/
def IsWalk (g : Matrix) : Nat → List Nat → Prop
  | _, [] => True
  | i, v :: p => v < g.length ∧ get2 g i v ≠ INF ∧ IsWalk g v p

instance instDecidableIsWalk (g : Matrix) : (i : Nat) → (p : List Nat) → Decidable (IsWalk g i p)
  | _, [] => isTrue trivial
  | i, v :: p =>
    have := instDecidableIsWalk g v p
    (inferInstance : Decidable (v < g.length ∧ get2 g i v ≠ INF ∧ IsWalk g v p))

/-- The list `p` is a path of direct edges from `i` to `j`. -/
def IsPath (g : Matrix) (i j : Nat) (p : List Nat) : Prop := IsWalk g i p ∧ walkEnd i p = j

instance (g : Matrix) (i j : Nat) (p : List Nat) : Decidable (IsPath g i j p) := by
  unfold IsPath; exact inferInstance

/-- Routing distance named by the specification: `d` is the least total cost of a path of
direct edges from `i` to `j` when that least cost is below the sentinel, and the sentinel
when there is no path or every path costs at least the sentinel. The least cost is
attained by a path that repeats no node and is not undercut by any path, whether it
repeats nodes or not. -/
def IsRouteDist (g : Matrix) (i j : Nat) (d : Int) : Prop :=
  (d < INF ∧ (∃ p, IsPath g i j p ∧ (i :: p).Nodup ∧ walkCost g i p = d) ∧
      ∀ q, IsPath g i j q → d ≤ walkCost g i q) ∨
  (d = INF ∧ ∀ q, IsPath g i j q → INF ≤ walkCost g i q)

/-! ## Invariants of the two engines -/

/-- Effect of loop steps on a DVR state: nothing changed, or `updated` is set and,
on an `n × n` table, the sum of all `dist` entries went down. -/
def Progress (n : Nat) (s t : DVRState) : Prop :=
  t = s ∨ (t.updated = true ∧
    (Square s.dist n → Square t.dist n ∧ tableSum t.dist < tableSum s.dist))

/-- Shape and range of the DVR tables while the loop runs: both tables are `n × n`
and every distance lies between 0 and the input cost of the same cell. -/
def DVRInv (graph : Matrix) (s : DVRState) : Prop :=
  Square s.dist graph.length ∧ Square s.nextHop graph.length ∧
  ∀ i < graph.length, ∀ j < graph.length,
    0 ≤ get2 s.dist i j ∧ get2 s.dist i j ≤ get2 graph i j

/-- States the search of `simulateLSR` for source `src` can be in: the fresh arrays,
the effect of `visited[u] = true` for the selected `u` once the `break` test has
failed, and the effect of the edge-loop body for a visited `u`. -/
inductive LSRReach (graph : Matrix) (src : Nat) : LSRState → Prop
  | init : LSRReach graph src (lsrInit graph.length src)
  | mark (s : LSRState) : LSRReach graph src s → selectMin graph.length s ≠ -1 →
      s.dist.getD (selectMin graph.length s).toNat 0 ≠ INF →
      LSRReach graph src (markVisited (selectMin graph.length s).toNat s)
  | edge (s : LSRState) (u v : Nat) : LSRReach graph src s → u < graph.length →
      v < graph.length → s.visited.getD u false = true →
      LSRReach graph src (relaxEdge graph u s v)

/-- Predecessor chain: following `prev` from `v` passes only visited nodes other than
`src` and arrives at `h`, the node whose predecessor is `src`. -/
inductive HopTo (prev : List Int) (visited : List Bool) (src h : Nat) : Nat → Prop
  | base : prev.getD h 0 = (src : Int) → HopTo prev visited src h h
  | step (v u : Nat) : prev.getD v 0 = (u : Int) → u ≠ src → visited.getD u false = true →
      HopTo prev visited src h u → HopTo prev visited src h v

/-- Structure of the three arrays of the search, for any cost matrix. -/
structure LSRInv (graph : Matrix) (src : Nat) (s : LSRState) : Prop where
  len_dist : s.dist.length = graph.length
  len_prev : s.prev.length = graph.length
  len_vis : s.visited.length = graph.length
  fresh : s.visited.getD src false = false → s = lsrInit graph.length src
  dist_le : ∀ v < graph.length, s.dist.getD v 0 ≤ INF
  vis_fin : ∀ v < graph.length, s.visited.getD v false = true → s.dist.getD v 0 ≠ INF
  prev_none : ∀ v < graph.length, s.prev.getD v 0 = -1 ↔ (v = src ∨ s.dist.getD v 0 = INF)
  prev_node : ∀ v < graph.length, s.prev.getD v 0 ≠ -1 →
    ∃ u < graph.length, s.prev.getD v 0 = (u : Int) ∧ s.visited.getD u false = true
  chain : ∀ v < graph.length, s.prev.getD v 0 ≠ -1 →
    ∃ h < graph.length, HopTo s.prev s.visited src h v

/-- Costs held by the arrays of the search when all input costs lie in `0..9999`. -/
structure LSRCost (graph : Matrix) (src : Nat) (s : LSRState) : Prop where
  src_zero : s.dist.getD src 0 = 0
  nonneg : ∀ v < graph.length, 0 ≤ s.dist.getD v 0
  path : ∀ v < graph.length, s.dist.getD v 0 < INF →
    ∃ p, IsPath graph src v p ∧ walkCost graph src p = s.dist.getD v 0
  prev_edge : ∀ v < graph.length, ∀ u < graph.length, s.prev.getD v 0 = (u : Int) →
    get2 graph u v ≠ INF ∧ s.dist.getD v 0 = s.dist.getD u 0 + get2 graph u v

/-- What the search has established after each whole iteration: the state is reachable,
visited nodes are no farther than unvisited ones, and every direct edge out of a
visited node is relaxed. -/
structure DijkInv (graph : Matrix) (src : Nat) (s : LSRState) : Prop where
  reach : LSRReach graph src s
  order : ∀ u < graph.length, ∀ v < graph.length, s.visited.getD u false = true →
    s.visited.getD v false = false → s.dist.getD u 0 ≤ s.dist.getD v 0
  edges : ∀ u < graph.length, ∀ v < graph.length, s.visited.getD u false = true →
    get2 graph u v ≠ INF → s.dist.getD v 0 ≤ s.dist.getD u 0 + get2 graph u v

/-! ## Input matrices: the two scenarios of the specification, and four more -/

/-- Four nodes in a line: 0–1 cost 1, 1–2 cost 2, 2–3 cost 1, no other edge. -/
def lineGraph : Matrix :=
  [[0, 1, 9999, 9999], [1, 0, 2, 9999], [9999, 2, 0, 1], [9999, 9999, 1, 0]]

/-- Three nodes, no edge at all. -/
def isolatedGraph : Matrix :=
  [[0, 9999, 9999], [9999, 0, 9999], [9999, 9999, 0]]

/-- One node whose self-cost is 5. -/
def selfCostGraph : Matrix := [[5]]

/-- Two nodes; the edge 0 → 1 costs 10000, more than the sentinel. -/
def dearEdgeGraph : Matrix := [[0, 10000], [0, 0]]

/-- Two nodes joined both ways by an edge of cost `2^30`. -/
def wrapPairGraph : Matrix := [[0, 1073741824], [1073741824, 0]]

/-- Three nodes: 0 and 2 joined both ways by an edge of cost `2^30`, node 1 with
zero-cost edges to 0 and 2, and no edge into node 1. -/
def wrapLoopGraph : Matrix := [[0, 9999, 1073741824], [0, 0, 0], [1073741824, 9999, 0]]

/-- Initialisation of `nextHop` statement by statement: the allocation
`nextHop(n, vector<int>(n))`, then the two nested `for` loops that assign every cell.
`initNextHop` is the table this produces (`initNextHopLoop_eq`). -/
def initNextHopLoop (graph : Matrix) (n : Nat) : Matrix :=
  (List.range n).foldl (fun nh i =>
    (List.range n).foldl (fun nh j =>
      set2 nh i j (if get2 graph i j ≠ INF ∧ i ≠ j then (j : Int) else -1)) nh)
    (List.replicate n (List.replicate n 0))

/-- Two nodes with costs 5 and 1: the self-cost of node 0 exceeds the cost of the
cycle 0 → 1 → 0. -/
def dearSelfGraph : Matrix := [[5, 1], [1, 0]]

/-- Four nodes: 0 and 1 joined both ways by an edge of cost 0, then 1 → 2 and 2 → 3 of
cost 1 each; zero diagonal, no other edge. -/
def zeroLinkGraph : Matrix :=
  [[0, 0, 9999, 9999], [0, 0, 1, 9999], [9999, 9999, 0, 1], [9999, 9999, 9999, 0]]

/-- Arrays of a search in progress on four nodes: node 0 is visited, nodes 1 and 2 are
unvisited with the same least `dist` 4, node 3 is unvisited with `dist` 7. -/
def tieState : LSRState :=
  { dist := [0, 4, 4, 7], prev := [-1, 0, 0, 0], visited := [true, false, false, false] }

/-- Nodes in the order in which the search loop executes `visited[u] = true`, for a loop
with `iters` iterations left that starts in state `s`. -/
def visitOrder (graph : Matrix) (n : Nat) : Nat → LSRState → List Nat
  | 0, _ => []
  | iters + 1, s =>
    if selectMin n s = -1 ∨ s.dist.getD (selectMin n s).toNat 0 = INF then []
    else (selectMin n s).toNat ::
      visitOrder graph n iters (visit graph n (selectMin n s).toNat s)

/-- In the marking order `order`, node `u` is marked at a point up to which `v` has not
been marked. -/
def MarkedBefore (order : List Nat) (u v : Nat) : Prop :=
  ∃ a b, order = a ++ u :: b ∧ v ∉ a ∧ v ≠ u

/-- The marking order `order` lists exactly the visited nodes of `s`, and every recorded
predecessor was marked before the node that records it. -/
def OrderInv (n : Nat) (s : LSRState) (order : List Nat) : Prop :=
  (∀ x, x ∈ order ↔ (x < n ∧ s.visited.getD x false = true)) ∧
  ∀ v < n, ∀ u : Nat, s.prev.getD v 0 = (u : Int) → MarkedBefore order u v

/-- Node reached from `v` by `k` steps along `prev`; `none` once a step meets `-1`. -/
def prevIter (prev : List Int) : Nat → Nat → Option Nat
  | 0, v => some v
  | k + 1, v =>
    if prev.getD v 0 = -1 then none else prevIter prev k (prev.getD v 0).toNat

/-- Successive values of the variable `hop` in the walk of `printLSRTable`, each of which
the loop test uses as an index into `prev`; at most `fuel` of them. -/
def hopTrail (prev : List Int) (src : Int) : Nat → Int → List Int
  | 0, _ => []
  | fuel + 1, hop =>
    hop :: (if prev.getD hop.toNat 0 ≠ src ∧ prev.getD hop.toNat 0 ≠ -1 then
      hopTrail prev src fuel (prev.getD hop.toNat 0) else [])

/-- Three nodes with negative costs on the edges 0 → 1, 1 → 2 and 2 → 0. -/
def negGraph : Matrix := [[0, -5, 2], [3, 0, -1], [-4, 9999, 0]]

/-- Hop-by-hop forwarding toward `j` with the next-hop table `nextHop`: the nodes a packet
is at, starting at `x`, moving from `x` to `nextHop[x][j]`, for at most `fuel` hops; it
stops at `j` and at a `-1` entry. -/
def forwardTrail (nextHop : Matrix) (j : Nat) : Nat → Int → List Int
  | 0, x => [x]
  | fuel + 1, x =>
    if x = (j : Int) ∨ x = -1 then [x]
    else x :: forwardTrail nextHop j fuel (get2 nextHop x.toNat j)

/-- Every step of the trail `x, p` is the hop the table `nextHop` prescribes toward `j`:
each node is left for `nextHop[·][j]`, and no node that is left is `j` itself. -/
def Forwards (nextHop : Matrix) (j : Nat) : Nat → List Nat → Prop
  | _, [] => True
  | x, v :: p => get2 nextHop x j = (v : Int) ∧ x ≠ j ∧ Forwards nextHop j v p

/-- No cycle of total cost 0: every closed path of direct edges
`x → v1 → … → vk → x` through pairwise different nodes `x, v1, …, vk` (`k ≥ 1`) costs
more than 0. -/
def NoZeroCycle (g : Matrix) : Prop :=
  ∀ x < g.length, ∀ p : List Nat, p ≠ [] → IsWalk g x (p ++ [x]) → (x :: p).Nodup →
    0 < walkCost g x (p ++ [x])

/-- Three nodes with the zero-cost link 0 → 1 and no cycle of cost 0: the way back
1 → 0 costs 7, and 1 → 2 costs 1. -/
def zeroEdgeGraph : Matrix := [[0, 0, 9999], [7, 0, 1], [9999, 9999, 0]]

/-- Next-hop table `simulateDVR` ends with on `zeroLinkGraph`. -/
def zeroLinkHops : Matrix :=
  [[-1, 1, 1, 1], [0, -1, 2, 0], [-1, -1, -1, 3], [-1, -1, -1, -1]]

/-! ## Arithmetic and table lemmas -/

theorem wrap32_of_range (x : Int) (h1 : -2147483648 ≤ x) (h2 : x ≤ 2147483647) :
    wrap32 x = x := by
  unfold wrap32; omega

theorem wrap32_lower (x : Int) : -2147483648 ≤ wrap32 x := by
  unfold wrap32; omega

theorem wrap32_upper (x : Int) : wrap32 x ≤ 2147483647 := by
  unfold wrap32; omega

theorem getD_set_int (l : List Int) (j b : Nat) (v : Int) (hj : j < l.length) :
    (l.set j v).getD b 0 = if b = j then v else l.getD b 0 := by
  simp only [List.getD_eq_getElem?_getD, List.getElem?_set]
  by_cases h : b = j
  · subst h; simp [hj]
  · have : ¬ j = b := fun e => h e.symm
    simp [h, this]

theorem getD_set_row (m : Matrix) (i a : Nat) (r : List Int) (hi : i < m.length) :
    (m.set i r).getD a [] = if a = i then r else m.getD a [] := by
  simp only [List.getD_eq_getElem?_getD, List.getElem?_set]
  by_cases h : a = i
  · subst h; simp [hi]
  · have : ¬ i = a := fun e => h e.symm
    simp [h, this]

theorem get2_set2 (m : Matrix) (n i j a b : Nat) (v : Int) (hm : Square m n)
    (hi : i < n) (hj : j < n) :
    get2 (set2 m i j v) a b = if a = i ∧ b = j then v else get2 m a b := by
  unfold get2 set2
  rw [getD_set_row m i a _ (by rw [hm.1]; exact hi)]
  by_cases ha : a = i
  · subst ha
    rw [if_pos rfl, getD_set_int _ _ _ _ (by rw [hm.2 a hi]; exact hj)]
    by_cases hb : b = j <;> simp [hb]
  · simp [ha]

theorem square_set2 (m : Matrix) (n i j : Nat) (v : Int) (hm : Square m n) :
    Square (set2 m i j v) n := by
  refine ⟨by simp [set2, hm.1], fun a ha => ?_⟩
  unfold set2
  by_cases hi : i < m.length
  · rw [getD_set_row m i a _ hi]
    by_cases h : a = i
    · subst h; rw [if_pos rfl, List.length_set]; exact hm.2 a ha
    · rw [if_neg h]; exact hm.2 a ha
  · rw [List.set_eq_of_length_le (by omega)]
    exact hm.2 a ha

/-! ## Folds over loop ranges -/

theorem foldl_rel {σ α : Type} (R : σ → σ → Prop) (hrefl : ∀ s, R s s)
    (htrans : ∀ a b c, R a b → R b c → R a c) (f : σ → α → σ) (l : List α)
    (hf : ∀ s, ∀ x ∈ l, R s (f s x)) (s : σ) : R s (l.foldl f s) := by
  induction l generalizing s with
  | nil => exact hrefl s
  | cons x xs ih =>
    simp only [List.foldl_cons]
    exact htrans _ _ _ (hf s x (List.mem_cons_self _ _))
      (ih (fun s y hy => hf s y (List.mem_cons_of_mem _ hy)) (f s x))

theorem foldl_inv {σ α : Type} (P : σ → Prop) (f : σ → α → σ) (l : List α)
    (hf : ∀ s, ∀ x ∈ l, P s → P (f s x)) (s : σ) (hs : P s) : P (l.foldl f s) := by
  induction l generalizing s with
  | nil => exact hs
  | cons x xs ih =>
    simp only [List.foldl_cons]
    exact ih (fun s y hy => hf s y (List.mem_cons_of_mem _ hy)) (f s x)
      (hf s x (List.mem_cons_self _ _) hs)

/-! ## Sum of a table -/

theorem sum_set_int (l : List Int) (j : Nat) (v : Int) (hj : j < l.length) :
    (l.set j v).sum = l.sum - l.getD j 0 + v := by
  induction l generalizing j with
  | nil => simp at hj
  | cons x xs ih =>
    cases j with
    | zero => simp; ring
    | succ j =>
      simp only [List.length_cons, Nat.succ_lt_succ_iff] at hj
      simp only [List.set_cons_succ, List.sum_cons, List.getD_cons_succ, ih j hj]
      ring

theorem getD_map_sum (m : Matrix) (i : Nat) : (m.map List.sum).getD i 0 = (m.getD i []).sum := by
  induction m generalizing i with
  | nil => simp
  | cons r rs ih =>
    cases i with
    | zero => simp
    | succ i => simpa using ih i

theorem tableSum_set2 (m : Matrix) (n i j : Nat) (v : Int) (hm : Square m n)
    (hi : i < n) (hj : j < n) :
    tableSum (set2 m i j v) = tableSum m - get2 m i j + v := by
  unfold tableSum set2 get2
  rw [List.map_set, sum_set_int _ _ _ (by simp [hm.1, hi]), getD_map_sum,
    sum_set_int _ _ _ (by rw [hm.2 i hi]; exact hj)]
  ring

theorem sum_lower (l : List Int) (L : Int) (h : ∀ j < l.length, L ≤ l.getD j 0) :
    (l.length : Int) * L ≤ l.sum := by
  induction l with
  | nil => simp
  | cons x xs ih =>
    have h0 : L ≤ x := by simpa using h 0 (by simp)
    have hs : ∀ j < xs.length, L ≤ xs.getD j 0 := fun j hj => by
      simpa using h (j + 1) (by simpa using hj)
    have := ih hs
    simp only [List.length_cons, List.sum_cons]
    push_cast
    linarith

theorem tableSum_lower_aux (m : Matrix) (n : Nat) (L : Int)
    (h : ∀ i < m.length, (n : Int) * L ≤ (m.getD i []).sum) :
    (m.length : Int) * ((n : Int) * L) ≤ tableSum m := by
  unfold tableSum
  have := sum_lower (m.map List.sum) ((n : Int) * L) (fun j hj => by
    rw [getD_map_sum]; exact h j (by simpa using hj))
  simpa using this

theorem tableSum_lower (m : Matrix) (n : Nat) (L : Int) (hm : Square m n)
    (h : ∀ i < n, ∀ j < n, L ≤ get2 m i j) : (n : Int) * ((n : Int) * L) ≤ tableSum m := by
  have := tableSum_lower_aux m n L (fun i hi => by
    have hi' : i < n := by rw [← hm.1]; exact hi
    have := sum_lower (m.getD i []) L (fun j hj => by
      rw [hm.2 i hi'] at hj; exact h i hi' j hj)
    rw [hm.2 i hi'] at this; exact this)
  rw [hm.1] at this; exact this

/-! ## The relaxation scan -/

theorem progress_refl (n : Nat) (s : DVRState) : Progress n s s := Or.inl rfl

theorem progress_trans (n : Nat) (a b c : DVRState) (h1 : Progress n a b)
    (h2 : Progress n b c) : Progress n a c := by
  rcases h1 with h1 | ⟨hu1, hd1⟩
  · rw [h1] at h2; exact h2
  · rcases h2 with h2 | ⟨hu2, hd2⟩
    · rw [h2]; exact Or.inr ⟨hu1, hd1⟩
    · refine Or.inr ⟨hu2, fun hsq => ?_⟩
      obtain ⟨hb, hlt⟩ := hd1 hsq
      obtain ⟨hc, hlt2⟩ := hd2 hb
      exact ⟨hc, lt_trans hlt2 hlt⟩

theorem relax_progress (n i j k : Nat) (s : DVRState) (hi : i < n) (hj : j < n) :
    Progress n s (relax i j k s) := by
  unfold relax
  split
  · rename_i hlt
    refine Or.inr ⟨rfl, fun hsq => ⟨square_set2 _ _ _ _ _ hsq, ?_⟩⟩
    simp only
    rw [tableSum_set2 _ n _ _ _ hsq hi hj]
    linarith
  · exact Or.inl rfl

theorem rowScan_progress (n i j : Nat) (s : DVRState) (hi : i < n) (hj : j < n) :
    Progress n s ((List.range n).foldl (fun s k => relax i j k s) s) :=
  foldl_rel (Progress n) (progress_refl n) (progress_trans n) _ _
    (fun s k _ => relax_progress n i j k s hi hj) s

theorem srcScan_progress (n i : Nat) (s : DVRState) (hi : i < n) :
    Progress n s ((List.range n).foldl (fun s j =>
      (List.range n).foldl (fun s k => relax i j k s) s) s) :=
  foldl_rel (Progress n) (progress_refl n) (progress_trans n) _ _
    (fun s j hj => rowScan_progress n i j s hi (List.mem_range.mp hj)) s

theorem scan_progress (n : Nat) (s : DVRState) :
    Progress n { s with updated := false } (scan n s) :=
  foldl_rel (Progress n) (progress_refl n) (progress_trans n) _ _
    (fun s i hi => srcScan_progress n i s (List.mem_range.mp hi)) _

/-- A fold of progress steps that ends with `updated = false` changed nothing at any step. -/
theorem foldl_stuck {α : Type} (n : Nat) (f : DVRState → α → DVRState) (l : List α)
    (hf : ∀ s, ∀ x ∈ l, Progress n s (f s x)) (s : DVRState)
    (hu : (l.foldl f s).updated = false) : ∀ x ∈ l, f s x = s := by
  induction l with
  | nil => intro x hx; simp at hx
  | cons y ys ih =>
    simp only [List.foldl_cons] at hu
    have hy : f s y = s := by
      rcases hf s y (List.mem_cons_self _ _) with h | ⟨h, _⟩
      · exact h
      · exfalso
        have := foldl_rel (Progress n) (progress_refl n) (progress_trans n) f ys
          (fun s x hx => hf s x (List.mem_cons_of_mem _ hx)) (f s y)
        rcases this with h2 | ⟨h2, _⟩
        · rw [h2, h] at hu; exact Bool.noConfusion hu
        · rw [h2] at hu; exact Bool.noConfusion hu
    rw [hy] at hu
    intro x hx
    rcases List.mem_cons.mp hx with rfl | hx
    · exact hy
    · exact ih (fun s x hx => hf s x (List.mem_cons_of_mem _ hx)) hu x hx

theorem foldl_fixed {σ α : Type} (f : σ → α → σ) (l : List α) (s : σ)
    (h : ∀ x ∈ l, f s x = s) : l.foldl f s = s := by
  induction l with
  | nil => rfl
  | cons y ys ih =>
    simp only [List.foldl_cons, h y (List.mem_cons_self _ _)]
    exact ih (fun x hx => h x (List.mem_cons_of_mem _ hx))

/-- A scan that reports no update left the tables as they were, and no triple
satisfies the relaxation test. -/
theorem scan_stuck (n : Nat) (s : DVRState) (hu : (scan n s).updated = false) :
    scan n s = { s with updated := false } ∧
    ∀ i < n, ∀ j < n, ∀ k < n,
      ¬ wrap32 (get2 s.dist i k + get2 s.dist k j) < get2 s.dist i j := by
  have h1 := foldl_stuck n _ (List.range n)
    (fun s i hi => srcScan_progress n i s (List.mem_range.mp hi)) _ hu
  refine ⟨foldl_fixed _ _ _ h1, fun i hi j hj k hk hlt => ?_⟩
  have e1 := h1 i (List.mem_range.mpr hi)
  have h2 := foldl_stuck n _ (List.range n)
    (fun s j hj => rowScan_progress n i j s hi (List.mem_range.mp hj)) _
    (by rw [e1])
  have e2 := h2 j (List.mem_range.mpr hj)
  have h3 := foldl_stuck n _ (List.range n)
    (fun s k _ => relax_progress n i j k s hi hj) _ (by rw [e2])
  have e3 := h3 k (List.mem_range.mpr hk)
  have : (relax i j k { s with updated := false }).updated = true := by
    unfold relax; rw [if_pos hlt]
  rw [e3] at this
  exact Bool.noConfusion this

/-- Reachable states stay reachable through a scan. -/
theorem scan_reach (graph : Matrix) (s : DVRState) (hs : DVRReach graph s) :
    DVRReach graph (scan graph.length s) := by
  unfold scan
  refine foldl_inv (DVRReach graph) _ _ (fun s i hi hs => ?_) _ (DVRReach.clear s hs)
  refine foldl_inv (DVRReach graph) _ _ (fun s j hj hs => ?_) _ hs
  refine foldl_inv (DVRReach graph) _ _ (fun s k hk hs => ?_) _ hs
  exact DVRReach.step s i j k hs (List.mem_range.mp hi) (List.mem_range.mp hj)
    (List.mem_range.mp hk)

theorem dvrLoop_reach (graph : Matrix) (fuel : Nat) (s t : DVRState) (hs : DVRReach graph s)
    (h : dvrLoop graph.length fuel s = some t) : DVRReach graph t := by
  induction fuel generalizing s with
  | zero => simp [dvrLoop] at h
  | succ f ih =>
    simp only [dvrLoop] at h
    split at h
    · exact ih _ (scan_reach graph s hs) h
    · cases h; exact scan_reach graph s hs

/-- The state the loop returns is a fixed point of the scan. -/
theorem dvrLoop_fixed (n fuel : Nat) (s t : DVRState) (h : dvrLoop n fuel s = some t) :
    t.updated = false ∧ ∀ i < n, ∀ j < n, ∀ k < n,
      ¬ wrap32 (get2 t.dist i k + get2 t.dist k j) < get2 t.dist i j := by
  induction fuel generalizing s with
  | zero => simp [dvrLoop] at h
  | succ f ih =>
    simp only [dvrLoop] at h
    split at h
    · exact ih _ h
    · rename_i hu
      cases h
      have hu' : (scan n s).updated = false := by simpa using hu
      obtain ⟨e, hfix⟩ := scan_stuck n s hu'
      refine ⟨hu', ?_⟩
      rw [e]; exact hfix

/-- A property kept by `updated = false` and by every execution of the innermost body
is kept by a whole scan. -/
theorem scan_inv (n : Nat) (P : DVRState → Prop)
    (hclear : ∀ s, P s → P { s with updated := false })
    (hstep : ∀ s, ∀ i < n, ∀ j < n, ∀ k < n, P s → P (relax i j k s))
    (s : DVRState) (hs : P s) : P (scan n s) := by
  unfold scan
  refine foldl_inv P _ _ (fun s i hi hs => ?_) _ (hclear s hs)
  refine foldl_inv P _ _ (fun s j hj hs => ?_) _ hs
  refine foldl_inv P _ _ (fun s k hk hs => ?_) _ hs
  exact hstep s i (List.mem_range.mp hi) j (List.mem_range.mp hj) k (List.mem_range.mp hk) hs

theorem dvrLoop_mono (n fuel extra : Nat) (s t : DVRState) (h : dvrLoop n fuel s = some t) :
    dvrLoop n (fuel + extra) s = some t := by
  induction fuel generalizing s with
  | zero => simp [dvrLoop] at h
  | succ f ih =>
    rw [Nat.add_right_comm]
    simp only [dvrLoop] at h ⊢
    split
    · rename_i hu; rw [if_pos hu] at h; exact ih _ h
    · rename_i hu; rw [if_neg hu] at h; exact h

/-- Every entry of an `n × n` table is a 32-bit `int` value. -/
theorem relax_int32 (n i j k : Nat) (s : DVRState) (hi : i < n) (hj : j < n)
    (hs : Square s.dist n ∧ ∀ a < n, ∀ b < n, -2147483648 ≤ get2 s.dist a b) :
    Square (relax i j k s).dist n ∧
      ∀ a < n, ∀ b < n, -2147483648 ≤ get2 (relax i j k s).dist a b := by
  unfold relax
  split
  · refine ⟨square_set2 _ _ _ _ _ hs.1, fun a ha b hb => ?_⟩
    simp only
    rw [get2_set2 _ n _ _ _ _ _ hs.1 hi hj]
    split
    · exact wrap32_lower _
    · exact hs.2 a ha b hb
  · exact hs

theorem scan_int32 (n : Nat) (s : DVRState)
    (hs : Square s.dist n ∧ ∀ a < n, ∀ b < n, -2147483648 ≤ get2 s.dist a b) :
    Square (scan n s).dist n ∧ ∀ a < n, ∀ b < n, -2147483648 ≤ get2 (scan n s).dist a b :=
  scan_inv n (fun s => Square s.dist n ∧ ∀ a < n, ∀ b < n, -2147483648 ≤ get2 s.dist a b)
    (fun _ h => h) (fun s i hi j hj k _ h => relax_int32 n i j k s hi hj h) s hs

/-- A scan that reports an update lowered the sum of all `dist` entries. -/
theorem scan_decreases (n : Nat) (s : DVRState) (hsq : Square s.dist n)
    (hu : (scan n s).updated = true) : tableSum (scan n s).dist < tableSum s.dist := by
  rcases scan_progress n s with h | ⟨_, h⟩
  · rw [h] at hu; exact Bool.noConfusion hu
  · exact (h hsq).2

theorem dvrLoop_total_aux (n N : Nat) : ∀ s : DVRState,
    (Square s.dist n ∧ ∀ a < n, ∀ b < n, -2147483648 ≤ get2 s.dist a b) →
    tableSum s.dist ≤ (n : Int) * ((n : Int) * (-2147483648)) + N →
    ∃ t, dvrLoop n (N + 1) s = some t := by
  induction N with
  | zero =>
    intro s hs hN
    by_cases hu : (scan n s).updated = true
    · exfalso
      have h1 := scan_decreases n s hs.1 hu
      have h2 := scan_int32 n s hs
      have h3 := tableSum_lower _ n (-2147483648) h2.1 h2.2
      simp only [Nat.cast_zero, add_zero] at hN
      linarith
    · exact ⟨scan n s, by simp [dvrLoop, hu]⟩
  | succ N ih =>
    intro s hs hN
    by_cases hu : (scan n s).updated = true
    · have h1 := scan_decreases n s hs.1 hu
      have h2 := scan_int32 n s hs
      obtain ⟨t, ht⟩ := ih (scan n s) h2 (by push_cast at hN; linarith)
      exact ⟨t, by rw [dvrLoop, if_pos hu]; exact ht⟩
    · exact ⟨scan n s, by simp [dvrLoop, hu]⟩

/-- The relaxation loop ends on every `n × n` table of 32-bit values. -/
theorem dvrLoop_total (n : Nat) (s : DVRState) (hsq : Square s.dist n)
    (hlo : ∀ a < n, ∀ b < n, -2147483648 ≤ get2 s.dist a b) :
    ∃ fuel t, dvrLoop n fuel s = some t := by
  have hlb := tableSum_lower _ n (-2147483648) hsq hlo
  obtain ⟨t, ht⟩ := dvrLoop_total_aux n
    (tableSum s.dist - (n : Int) * ((n : Int) * (-2147483648))).toNat s ⟨hsq, hlo⟩
    (by rw [Int.toNat_of_nonneg (by linarith)]; linarith)
  exact ⟨_, t, ht⟩

/-! ## Range invariant of the DVR tables -/

theorem getD_map_range {β : Type} (f : Nat → β) (n i : Nat) (d : β) (hi : i < n) :
    ((List.range n).map f).getD i d = f i := by
  simp [List.getD_eq_getElem?_getD, hi]

theorem square_initNextHop (graph : Matrix) (n : Nat) : Square (initNextHop graph n) n := by
  refine ⟨by simp [initNextHop], fun i hi => ?_⟩
  unfold initNextHop
  rw [getD_map_range _ _ _ _ hi]
  simp

theorem get2_initNextHop (graph : Matrix) (n i j : Nat) (hi : i < n) (hj : j < n) :
    get2 (initNextHop graph n) i j =
      if get2 graph i j ≠ INF ∧ i ≠ j then (j : Int) else -1 := by
  show ((initNextHop graph n).getD i []).getD j 0 = _
  unfold initNextHop
  rw [getD_map_range _ _ _ _ hi, getD_map_range _ _ _ _ hj]

/-- With costs in `0 .. 2^30 - 1` the sum formed by the relaxation test does not wrap. -/
theorem relax_sum_exact (graph : Matrix) (s : DVRState) (i j k : Nat)
    (hb : EntriesIn graph graph.length 0 1073741823) (hs : DVRInv graph s)
    (hi : i < graph.length) (hj : j < graph.length) (hk : k < graph.length) :
    wrap32 (get2 s.dist i k + get2 s.dist k j) = get2 s.dist i k + get2 s.dist k j := by
  have h1 := hs.2.2 i hi k hk
  have h2 := hs.2.2 k hk j hj
  have h3 := hb i hi k hk
  have h4 := hb k hk j hj
  exact wrap32_of_range _ (by linarith) (by linarith)

theorem dvrInv_relax (graph : Matrix) (s : DVRState) (i j k : Nat)
    (hb : EntriesIn graph graph.length 0 1073741823) (hs : DVRInv graph s)
    (hi : i < graph.length) (hj : j < graph.length) (hk : k < graph.length) :
    DVRInv graph (relax i j k s) := by
  have hex := relax_sum_exact graph s i j k hb hs hi hj hk
  unfold relax
  split
  · rename_i hlt
    refine ⟨square_set2 _ _ _ _ _ hs.1, square_set2 _ _ _ _ _ hs.2.1, fun a ha b hb' => ?_⟩
    simp only
    rw [get2_set2 _ _ _ _ _ _ _ hs.1 hi hj]
    split
    · rename_i hab
      obtain ⟨rfl, rfl⟩ := hab
      rw [hex] at hlt ⊢
      have h1 := hs.2.2 a hi k hk
      have h2 := hs.2.2 k hk b hj
      have h3 := hs.2.2 a hi b hj
      exact ⟨by linarith, by linarith⟩
    · exact hs.2.2 a ha b hb'
  · exact hs

theorem dvrInv_of_reach (graph : Matrix) (s : DVRState) (hsq : Square graph graph.length)
    (hb : EntriesIn graph graph.length 0 1073741823) (hs : DVRReach graph s) :
    DVRInv graph s := by
  induction hs with
  | init =>
    exact ⟨hsq, square_initNextHop _ _, fun i hi j hj => ⟨(hb i hi j hj).1, le_refl _⟩⟩
  | clear s _ ih => exact ih
  | step s i j k _ hi hj hk ih => exact dvrInv_relax graph s i j k hb ih hi hj hk

theorem entriesIn_mono (m : Matrix) (n : Nat) (lo hi lo' hi' : Int) (h : EntriesIn m n lo hi)
    (h1 : lo' ≤ lo) (h2 : hi ≤ hi') : EntriesIn m n lo' hi' :=
  fun i hi j hj => ⟨le_trans h1 (h i hi j hj).1, le_trans (h i hi j hj).2 h2⟩

/-- The loop of `simulateDVR` ends when the input is a square table of 32-bit values. -/
theorem simulateDVR_total (graph : Matrix) (hsq : Square graph graph.length)
    (hb : EntriesIn graph graph.length (-2147483648) 2147483647) :
    ∃ fuel t, simulateDVR graph fuel = some t :=
  dvrLoop_total graph.length (dvrInit graph) hsq (fun a ha b hb' => (hb a ha b hb').1)

theorem simulateDVR_reach (graph : Matrix) (fuel : Nat) (t : DVRState)
    (h : simulateDVR graph fuel = some t) : DVRReach graph t :=
  dvrLoop_reach graph fuel _ t DVRReach.init h

/-- At the end of the loop the distances obey the triangle inequality. -/
theorem simulateDVR_triangle (graph : Matrix) (fuel : Nat) (t : DVRState)
    (hsq : Square graph graph.length) (hb : EntriesIn graph graph.length 0 1073741823)
    (h : simulateDVR graph fuel = some t) (i j k : Nat)
    (hi : i < graph.length) (hj : j < graph.length) (hk : k < graph.length) :
    get2 t.dist i j ≤ get2 t.dist i k + get2 t.dist k j := by
  have hinv := dvrInv_of_reach graph t hsq hb (simulateDVR_reach graph fuel t h)
  have hfix := (dvrLoop_fixed _ _ _ _ h).2 i hi j hj k hk
  rw [relax_sum_exact graph t i j k hb hinv hi hj hk] at hfix
  exact not_lt.mp hfix

/-! ## Walks -/

theorem INF_eq : INF = 9999 := rfl

theorem walkCost_append (g : Matrix) (i : Nat) (p q : List Nat) :
    walkCost g i (p ++ q) = walkCost g i p + walkCost g (walkEnd i p) q := by
  induction p generalizing i with
  | nil => simp [walkCost, walkEnd]
  | cons v p ih =>
    show get2 g i v + walkCost g v (p ++ q) = get2 g i v + walkCost g v p + _
    rw [ih v]; simp only [walkEnd]; ring

theorem walkEnd_append (i : Nat) (p q : List Nat) :
    walkEnd i (p ++ q) = walkEnd (walkEnd i p) q := by
  induction p generalizing i with
  | nil => rfl
  | cons v p ih => exact ih v

theorem isWalk_append (g : Matrix) (i : Nat) (p q : List Nat) (hp : IsWalk g i p)
    (hq : IsWalk g (walkEnd i p) q) : IsWalk g i (p ++ q) := by
  induction p generalizing i with
  | nil => exact hq
  | cons v p ih =>
    obtain ⟨h1, h2, h3⟩ := hp
    exact ⟨h1, h2, ih v h3 hq⟩

theorem isPath_append (g : Matrix) (i k j : Nat) (p q : List Nat) (hp : IsPath g i k p)
    (hq : IsPath g k j q) : IsPath g i j (p ++ q) := by
  obtain ⟨hp1, hp2⟩ := hp
  obtain ⟨hq1, hq2⟩ := hq
  subst hp2
  exact ⟨isWalk_append g i p q hp1 hq1, by rw [walkEnd_append, hq2]⟩

theorem walkEnd_lt (g : Matrix) (i : Nat) (p : List Nat) (hi : i < g.length)
    (hp : IsWalk g i p) : walkEnd i p < g.length := by
  induction p generalizing i with
  | nil => exact hi
  | cons v p ih => exact ih v hp.1 hp.2.2

theorem walkCost_nonneg (g : Matrix) (i : Nat) (p : List Nat) (hi : i < g.length)
    (hg : ∀ a < g.length, ∀ b < g.length, 0 ≤ get2 g a b) (hp : IsWalk g i p) :
    0 ≤ walkCost g i p := by
  induction p generalizing i with
  | nil => exact le_refl _
  | cons v p ih =>
    have := ih v hp.1 hp.2.2
    have := hg i hi v hp.1
    simp only [walkCost]; linarith

theorem isWalk_of_append (g : Matrix) (i : Nat) (p q : List Nat) (h : IsWalk g i (p ++ q)) :
    IsWalk g i p ∧ IsWalk g (walkEnd i p) q := by
  induction p generalizing i with
  | nil => exact ⟨trivial, h⟩
  | cons v p ih =>
    obtain ⟨h1, h2, h3⟩ := h
    obtain ⟨h4, h5⟩ := ih v h3
    exact ⟨⟨h1, h2, h4⟩, h5⟩

/-- Dropping the part of a walk that comes before a visit of node `i` leaves a walk from
`i` to the same end that costs no more. -/
theorem walk_suffix (g : Matrix) (hg : ∀ a < g.length, ∀ b < g.length, 0 ≤ get2 g a b)
    (s i : Nat) (a b : List Nat) (hs : s < g.length) (hw : IsWalk g s (a ++ i :: b)) :
    IsWalk g i b ∧ walkEnd i b = walkEnd s (a ++ i :: b) ∧
      walkCost g i b ≤ walkCost g s (a ++ i :: b) := by
  obtain ⟨h1, h2⟩ := isWalk_of_append g s a (i :: b) hw
  obtain ⟨hi, _, h3⟩ := h2
  refine ⟨h3, by rw [walkEnd_append]; rfl, ?_⟩
  rw [walkCost_append]
  have c1 := walkCost_nonneg g s a hs hg h1
  have c2 := hg _ (walkEnd_lt g s a hs h1) i hi
  simp only [walkCost]
  linarith

/-- With non-negative costs every walk can be cut down to a path that repeats no node,
has the same ends and costs no more. -/
theorem simple_of_walk (g : Matrix) (hg : ∀ a < g.length, ∀ b < g.length, 0 ≤ get2 g a b)
    (p : List Nat) : ∀ i < g.length, IsWalk g i p →
      ∃ q, IsWalk g i q ∧ walkEnd i q = walkEnd i p ∧ (i :: q).Nodup ∧
        walkCost g i q ≤ walkCost g i p := by
  induction p with
  | nil => intro i _ _; exact ⟨[], trivial, rfl, by simp, le_refl _⟩
  | cons v p ih =>
    intro i hi hw
    obtain ⟨hv, hedge, hw'⟩ := hw
    obtain ⟨q, hq, hend, hnd, hcost⟩ := ih v hv hw'
    by_cases hmem : i ∈ v :: q
    · obtain ⟨a, b, hab⟩ := List.append_of_mem hmem
      have hwi : IsWalk g i (a ++ i :: b) := by rw [← hab]; exact ⟨hv, hedge, hq⟩
      obtain ⟨s1, s2, s3⟩ := walk_suffix g hg i i a b hi hwi
      refine ⟨b, s1, ?_, ?_, ?_⟩
      · rw [s2, ← hab]; exact hend
      · rw [hab] at hnd; exact hnd.of_append_right
      · rw [← hab] at s3
        simp only [walkCost] at s3 ⊢
        linarith
    · refine ⟨v :: q, ⟨hv, hedge, hq⟩, hend, List.nodup_cons.mpr ⟨hmem, hnd⟩, ?_⟩
      simp only [walkCost]
      linarith

/-! ## Distances and next hops are backed by paths -/

/-- While the loop runs, every distance below the sentinel is the cost of a path of
direct edges, and for `i ≠ j` the recorded next hop is the first node of such a path. -/
theorem dvr_paths_of_reach (graph : Matrix) (s : DVRState) (hsq : Square graph graph.length)
    (hb : EntriesIn graph graph.length 0 9999) (hs : DVRReach graph s) :
    (∀ i < graph.length, ∀ j < graph.length, get2 s.dist i j < INF →
      ∃ p, IsPath graph i j p ∧ walkCost graph i p = get2 s.dist i j) ∧
    (∀ i < graph.length, ∀ j < graph.length, i ≠ j → get2 s.dist i j < INF →
      ∃ h : Nat, get2 s.nextHop i j = (h : Int) ∧ h < graph.length ∧ h ≠ i ∧
        get2 graph i h ≠ INF ∧
        ∃ p, IsPath graph h j p ∧ get2 graph i h + walkCost graph h p = get2 s.dist i j) := by
  have hb' := entriesIn_mono graph _ 0 9999 0 1073741823 hb (le_refl _) (by norm_num)
  induction hs with
  | init =>
    refine ⟨fun i hi j hj hlt => ⟨[j], ⟨⟨hj, ne_of_lt hlt, trivial⟩, rfl⟩, ?_⟩,
      fun i hi j hj hne hlt => ⟨j, ?_, hj, fun e => hne e.symm, ne_of_lt hlt, [], ⟨trivial, rfl⟩, ?_⟩⟩
    · simp [walkCost, dvrInit]
    · show get2 (initNextHop graph graph.length) i j = _
      rw [get2_initNextHop _ _ _ _ hi hj, if_pos ⟨ne_of_lt hlt, hne⟩]
    · simp [walkCost, dvrInit]
  | clear s _ ih => exact ih
  | step s i j k hs' hi hj hk ih =>
    have hinv := dvrInv_of_reach graph s hsq hb' hs'
    have hex := relax_sum_exact graph s i j k hb' hinv hi hj hk
    unfold relax
    split
    · rename_i hlt
      rw [hex] at hlt ⊢
      have hik := hinv.2.2 i hi k hk
      have hkj := hinv.2.2 k hk j hj
      have hij := hinv.2.2 i hi j hj
      have hgij := (hb i hi j hj).2
      have hik' : get2 s.dist i k < INF := by rw [INF_eq]; linarith
      have hkj' : get2 s.dist k j < INF := by rw [INF_eq]; linarith
      obtain ⟨p2, hp2, hc2⟩ := ih.1 k hk j hj hkj'
      constructor
      · intro a ha b hb2 hab
        simp only at hab ⊢
        rw [get2_set2 _ _ _ _ _ _ _ hinv.1 hi hj] at hab ⊢
        split
        · rename_i e
          obtain ⟨rfl, rfl⟩ := e
          obtain ⟨p1, hp1, hc1⟩ := ih.1 a hi k hk hik'
          exact ⟨p1 ++ p2, isPath_append graph a k b p1 p2 hp1 hp2, by
            rw [walkCost_append, hp1.2, hc1, hc2]⟩
        · rename_i e
          rw [if_neg e] at hab
          exact ih.1 a ha b hb2 hab
      · intro a ha b hb2 hne hab
        simp only at hab ⊢
        rw [get2_set2 _ _ _ _ _ _ _ hinv.1 hi hj] at hab ⊢
        rw [get2_set2 _ _ _ _ _ _ _ hinv.2.1 hi hj]
        split
        · rename_i e
          obtain ⟨rfl, rfl⟩ := e
          have hak : a ≠ k := by
            rintro rfl
            linarith
          obtain ⟨h, hh, hlt', hha, hg, p1, hp1, hc1⟩ := ih.2 a hi k hk hak hik'
          exact ⟨h, hh, hlt', hha, hg, p1 ++ p2, isPath_append graph h k b p1 p2 hp1 hp2, by
            rw [walkCost_append, hp1.2, hc2, ← hc1]; ring⟩
        · rename_i e
          rw [if_neg e] at hab
          exact ih.2 a ha b hb2 hne hab
    · exact ih

/-! ## Final DVR tables -/

/-- At the end of the loop a distance is at most the cost of any non-empty walk. -/
theorem dvr_le_walk (graph : Matrix) (fuel : Nat) (t : DVRState)
    (hsq : Square graph graph.length) (hb : EntriesIn graph graph.length 0 1073741823)
    (h : simulateDVR graph fuel = some t) (p : List Nat) :
    ∀ i < graph.length, p ≠ [] → IsWalk graph i p →
      get2 t.dist i (walkEnd i p) ≤ walkCost graph i p := by
  have hinv := dvrInv_of_reach graph t hsq hb (simulateDVR_reach graph fuel t h)
  induction p with
  | nil => intro i _ hne; exact absurd rfl hne
  | cons v p ih =>
    intro i hi _ hw
    obtain ⟨hv, _, hw'⟩ := hw
    cases p with
    | nil =>
      simp only [walkEnd, walkCost, add_zero]
      exact (hinv.2.2 i hi v hv).2
    | cons w p =>
      have h1 := ih v hv (List.cons_ne_nil _ _) hw'
      have hend : walkEnd v (w :: p) < graph.length := walkEnd_lt graph v _ hv hw'
      have h2 := simulateDVR_triangle graph fuel t hsq hb h i (walkEnd v (w :: p)) v hi hend hv
      have h3 := (hinv.2.2 i hi v hv).2
      show get2 t.dist i (walkEnd v (w :: p)) ≤ get2 graph i v + walkCost graph v (w :: p)
      linarith

/-- At the end of the loop, for `i ≠ j`, the distance is the routing distance. -/
theorem dvr_routeDist (graph : Matrix) (fuel : Nat) (t : DVRState)
    (hsq : Square graph graph.length) (hb : EntriesIn graph graph.length 0 9999)
    (h : simulateDVR graph fuel = some t) (i j : Nat) (hi : i < graph.length)
    (hj : j < graph.length) (hne : i ≠ j) : IsRouteDist graph i j (get2 t.dist i j) := by
  have hb' := entriesIn_mono graph _ 0 9999 0 1073741823 hb (le_refl _) (by norm_num)
  have hreach := simulateDVR_reach graph fuel t h
  have hinv := dvrInv_of_reach graph t hsq hb' hreach
  have hmin : ∀ q, IsPath graph i j q → get2 t.dist i j ≤ walkCost graph i q := by
    intro q hq
    have hq0 : q ≠ [] := by
      rintro rfl
      exact hne hq.2
    have := dvr_le_walk graph fuel t hsq hb' h q i hi hq0 hq.1
    rw [hq.2] at this; exact this
  by_cases hlt : get2 t.dist i j < INF
  · obtain ⟨p, hp, hc⟩ := (dvr_paths_of_reach graph t hsq hb hreach).1 i hi j hj hlt
    obtain ⟨q, hq, hqe, hnd, hqc⟩ :=
      simple_of_walk graph (fun a ha b hb2 => (hb a ha b hb2).1) p i hi hp.1
    have hqp : IsPath graph i j q := ⟨hq, by rw [hqe]; exact hp.2⟩
    exact Or.inl ⟨hlt, ⟨q, hqp, hnd, le_antisymm (by rw [← hc]; exact hqc) (hmin q hqp)⟩, hmin⟩
  · have hle : get2 t.dist i j ≤ INF :=
      le_trans (hinv.2.2 i hi j hj).2 (hb i hi j hj).2
    have he : get2 t.dist i j = INF := le_antisymm hle (not_lt.mp hlt)
    exact Or.inr ⟨he, fun q hq => by rw [← he]; exact hmin q hq⟩

/-- With costs in `0 .. 2^30 - 1` and a zero diagonal, the diagonal cells never change. -/
theorem dvr_diag_of_reach (graph : Matrix) (s : DVRState) (hsq : Square graph graph.length)
    (hb : EntriesIn graph graph.length 0 1073741823) (hz : ZeroDiag graph graph.length)
    (hs : DVRReach graph s) :
    ∀ i < graph.length, get2 s.dist i i = 0 ∧ get2 s.nextHop i i = -1 := by
  induction hs with
  | init =>
    intro i hi
    refine ⟨hz i hi, ?_⟩
    show get2 (initNextHop graph graph.length) i i = _
    rw [get2_initNextHop _ _ _ _ hi hi, if_neg (fun h => h.2 rfl)]
  | clear s _ ih => exact ih
  | step s i j k hs' hi hj hk ih =>
    have hinv := dvrInv_of_reach graph s hsq hb hs'
    have hex := relax_sum_exact graph s i j k hb hinv hi hj hk
    intro a ha
    unfold relax
    split
    · rename_i hlt
      rw [hex] at hlt
      simp only
      rw [get2_set2 _ _ _ _ _ _ _ hinv.1 hi hj, get2_set2 _ _ _ _ _ _ _ hinv.2.1 hi hj]
      have hne : ¬ (a = i ∧ a = j) := by
        rintro ⟨rfl, rfl⟩
        have h1 := (hinv.2.2 a hi k hk).1
        have h2 := (hinv.2.2 k hk a hi).1
        have h3 := (ih a hi).1
        linarith
      rw [if_neg hne, if_neg hne]
      exact ih a ha
    · exact ih a ha

/-- Reachable states hold `n × n` tables of 32-bit values. -/
theorem dvr_int32_of_reach (graph : Matrix) (s : DVRState) (hsq : Square graph graph.length)
    (hb : EntriesIn graph graph.length (-2147483648) 2147483647) (hs : DVRReach graph s) :
    Square s.dist graph.length ∧
      ∀ a < graph.length, ∀ b < graph.length, -2147483648 ≤ get2 s.dist a b := by
  induction hs with
  | init => exact ⟨hsq, fun a ha b hb' => (hb a ha b hb').1⟩
  | clear s _ ih => exact ih
  | step s i j k _ hi hj _ ih => exact relax_int32 _ i j k s hi hj ih

/-! ## Selection scan of the link-state search -/

theorem getD_set_of_lt {α : Type} (l : List α) (j b : Nat) (v d : α) (hj : j < l.length) :
    (l.set j v).getD b d = if b = j then v else l.getD b d := by
  simp only [List.getD_eq_getElem?_getD, List.getElem?_set]
  by_cases h : b = j
  · subst h; simp [hj]
  · have : ¬ j = b := fun e => h e.symm
    simp [h, this]

theorem getD_set_ne {α : Type} (l : List α) (j b : Nat) (v d : α) (h : b ≠ j) :
    (l.set j v).getD b d = l.getD b d := by
  simp only [List.getD_eq_getElem?_getD, List.getElem?_set]
  have : ¬ j = b := fun e => h e.symm
  simp [this]

theorem getD_replicate {α : Type} (n i : Nat) (a d : α) (hi : i < n) :
    (List.replicate n a).getD i d = a := by
  simp [List.getD_eq_getElem?_getD, hi]

theorem selectMin_succ (m : Nat) (s : LSRState) :
    selectMin (m + 1) s = selectStep s (selectMin m s) m := by
  unfold selectMin
  rw [List.range_succ, List.foldl_append]
  rfl

/-- Result of the selection scan over nodes `0 .. m-1`: `-1` when all of them are visited,
otherwise the unvisited node of least `dist`, the lowest index among equals. -/
theorem selectMin_spec (s : LSRState) (m : Nat) :
    (selectMin m s = -1 ∧ ∀ j < m, s.visited.getD j false = true) ∨
    (∃ u : Nat, selectMin m s = (u : Int) ∧ u < m ∧ s.visited.getD u false = false ∧
      (∀ j < m, s.visited.getD j false = false → s.dist.getD u 0 ≤ s.dist.getD j 0) ∧
      (∀ j < u, s.visited.getD j false = false → s.dist.getD u 0 < s.dist.getD j 0)) := by
  induction m with
  | zero => exact Or.inl ⟨rfl, fun j hj => absurd hj (Nat.not_lt_zero j)⟩
  | succ m ih =>
    rw [selectMin_succ]
    rcases ih with ⟨he, hall⟩ | ⟨u, he, hu, huv, hmin, htie⟩
    · rw [he]
      by_cases hm : s.visited.getD m false = false
      · refine Or.inr ⟨m, ?_, Nat.lt_succ_self m, hm, fun j hj hjv => ?_, fun j hj hjv => ?_⟩
        · unfold selectStep; rw [if_pos ⟨hm, Or.inl rfl⟩]
        · rcases Nat.lt_succ_iff_lt_or_eq.mp hj with h | h
          · rw [hall j h] at hjv; exact Bool.noConfusion hjv
          · rw [h]
        · rw [hall j hj] at hjv; exact Bool.noConfusion hjv
      · refine Or.inl ⟨by unfold selectStep; rw [if_neg (fun h => hm h.1)], fun j hj => ?_⟩
        rcases Nat.lt_succ_iff_lt_or_eq.mp hj with h | h
        · exact hall j h
        · rw [h]; exact eq_true_of_ne_false hm
    · rw [he]
      have htn : ((u : Int)).toNat = u := Int.toNat_ofNat u
      by_cases hm : s.visited.getD m false = false ∧ s.dist.getD m 0 < s.dist.getD u 0
      · refine Or.inr ⟨m, ?_, Nat.lt_succ_self m, hm.1, fun j hj hjv => ?_, fun j hj hjv => ?_⟩
        · unfold selectStep; rw [if_pos ⟨hm.1, Or.inr (by rw [htn]; exact hm.2)⟩]
        · rcases Nat.lt_succ_iff_lt_or_eq.mp hj with h | h
          · exact le_of_lt (lt_of_lt_of_le hm.2 (hmin j h hjv))
          · rw [h]
        · exact lt_of_lt_of_le hm.2 (hmin j hj hjv)
      · refine Or.inr ⟨u, ?_, Nat.lt_succ_of_lt hu, huv, fun j hj hjv => ?_, htie⟩
        · unfold selectStep
          rw [if_neg]
          rintro ⟨h1, h2 | h2⟩
          · omega
          · exact hm ⟨h1, by rw [htn] at h2; exact h2⟩
        · rcases Nat.lt_succ_iff_lt_or_eq.mp hj with h | h
          · exact hmin j h hjv
          · rw [h]
            by_contra hc
            exact hm ⟨by rw [← h]; exact hjv, not_le.mp hc⟩

theorem lsrInit_dist (n src v : Nat) (hs : src < n) (hv : v < n) :
    (lsrInit n src).dist.getD v 0 = if v = src then 0 else INF := by
  unfold lsrInit
  simp only
  rw [getD_set_of_lt _ _ _ _ _ (by simpa using hs)]
  split
  · rfl
  · exact getD_replicate n v INF 0 hv

theorem lsrInit_visited (n src v : Nat) : (lsrInit n src).visited.getD v false = false := by
  unfold lsrInit
  by_cases hv : v < n
  · exact getD_replicate n v false false hv
  · exact List.getD_eq_default _ _ (by simp; omega)

theorem selectMin_init (n src : Nat) (hs : src < n) :
    selectMin n (lsrInit n src) = (src : Int) := by
  rcases selectMin_spec (lsrInit n src) n with ⟨_, hall⟩ | ⟨u, he, hu, _, hmin, _⟩
  · have := hall src hs
    rw [lsrInit_visited] at this
    exact Bool.noConfusion this
  · have h := hmin src hs (lsrInit_visited n src src)
    rw [lsrInit_dist n src u hs hu, lsrInit_dist n src src hs hs, if_pos rfl] at h
    by_cases hus : u = src
    · rw [he, hus]
    · rw [if_neg hus, INF_eq] at h
      omega

/-! ## Structure of the link-state arrays -/

theorem relaxEdge_visited (graph : Matrix) (u v : Nat) (s : LSRState) :
    (relaxEdge graph u s v).visited = s.visited := by
  unfold relaxEdge
  split
  · split <;> rfl
  · rfl

/-- The edge-loop body either leaves the state alone or, for an unvisited `v` behind a
direct edge whose candidate cost is lower, stores the candidate and the predecessor. -/
theorem relaxEdge_cases (graph : Matrix) (u v : Nat) (s : LSRState) :
    relaxEdge graph u s v = s ∨
    (s.visited.getD v false = false ∧ get2 graph u v ≠ INF ∧
      wrap32 (s.dist.getD u 0 + get2 graph u v) < s.dist.getD v 0 ∧
      relaxEdge graph u s v =
        { s with dist := s.dist.set v (wrap32 (s.dist.getD u 0 + get2 graph u v)),
                 prev := s.prev.set v (u : Int) }) := by
  unfold relaxEdge
  split
  · rename_i h
    split
    · rename_i hlt
      exact Or.inr ⟨h.1, h.2, hlt, rfl⟩
    · exact Or.inl rfl
  · exact Or.inl rfl

theorem natCast_ne_neg_one (u : Nat) : (u : Int) ≠ -1 := by omega

theorem hopTo_mono (prev : List Int) (vis vis' : List Bool) (src h v : Nat)
    (hsub : ∀ x, vis.getD x false = true → vis'.getD x false = true)
    (hc : HopTo prev vis src h v) : HopTo prev vis' src h v := by
  induction hc with
  | base hb => exact HopTo.base hb
  | step v u hp hne hv _ ih => exact HopTo.step v u hp hne (hsub u hv) ih

theorem hopTo_set (prev : List Int) (vis : List Bool) (src h w v : Nat) (x : Int)
    (hv : vis.getD v false = false) (hc : HopTo prev vis src h w) (hne : w ≠ v) :
    HopTo (prev.set v x) vis src h w := by
  induction hc with
  | base hb => exact HopTo.base (by rw [getD_set_ne _ _ _ _ _ hne]; exact hb)
  | step w u hp hus huv _ ih =>
    have huv' : u ≠ v := by
      rintro rfl
      rw [hv] at huv; exact Bool.noConfusion huv
    exact HopTo.step w u (by rw [getD_set_ne _ _ _ _ _ hne]; exact hp) hus huv (ih huv')

theorem getD_set_true (l : List Bool) (u x : Nat) (h : l.getD x false = true) :
    (l.set u true).getD x false = true := by
  by_cases hx : x = u
  · subst hx
    by_cases hl : x < l.length
    · rw [getD_set_of_lt _ _ _ _ _ hl, if_pos rfl]
    · rw [List.getD_eq_default _ _ (by omega)] at h
      exact Bool.noConfusion h
  · rw [getD_set_ne _ _ _ _ _ hx]; exact h

theorem lsrInv_init (graph : Matrix) (src : Nat) (hs : src < graph.length) :
    LSRInv graph src (lsrInit graph.length src) := by
  have hprev : ∀ v < graph.length, (lsrInit graph.length src).prev.getD v 0 = -1 :=
    fun v hv => getD_replicate _ _ _ _ hv
  refine ⟨by simp [lsrInit], by simp [lsrInit], by simp [lsrInit], fun _ => rfl, ?_, ?_, ?_,
    ?_, ?_⟩
  · intro v hv
    rw [lsrInit_dist _ _ _ hs hv]
    split
    · rw [INF_eq]; norm_num
    · exact le_refl _
  · intro v _ h
    rw [lsrInit_visited] at h
    exact Bool.noConfusion h
  · intro v hv
    refine ⟨fun _ => ?_, fun _ => hprev v hv⟩
    rw [lsrInit_dist _ _ _ hs hv]
    by_cases h : v = src
    · exact Or.inl h
    · exact Or.inr (if_neg h)
  · intro v hv h; exact absurd (hprev v hv) h
  · intro v hv h; exact absurd (hprev v hv) h

theorem lsrInv_mark (graph : Matrix) (src : Nat) (s : LSRState) (hs : src < graph.length)
    (hinv : LSRInv graph src s) (hsel : selectMin graph.length s ≠ -1)
    (hfin : s.dist.getD (selectMin graph.length s).toNat 0 ≠ INF) :
    LSRInv graph src (markVisited (selectMin graph.length s).toNat s) := by
  rcases selectMin_spec s graph.length with ⟨he, _⟩ | ⟨u, he, hu, huv, _, _⟩
  · exact absurd he hsel
  · rw [he, Int.toNat_ofNat] at hfin ⊢
    have hsub : ∀ x, s.visited.getD x false = true →
        (s.visited.set u true).getD x false = true := fun x hx => getD_set_true _ _ _ hx
    refine ⟨hinv.len_dist, hinv.len_prev, by simp [markVisited, hinv.len_vis], ?_,
      hinv.dist_le, ?_, hinv.prev_none, ?_, ?_⟩
    · intro hsv
      exfalso
      simp only [markVisited] at hsv
      by_cases hus : src = u
      · rw [hus, getD_set_of_lt _ _ _ _ _ (by rw [hinv.len_vis]; exact hu), if_pos rfl] at hsv
        exact Bool.noConfusion hsv
      · rw [getD_set_ne _ _ _ _ _ hus] at hsv
        have hinit := hinv.fresh hsv
        have := selectMin_init graph.length src hs
        rw [← hinit, he] at this
        exact hus (by exact_mod_cast this.symm)
    · intro v hv hvis
      simp only [markVisited] at hvis ⊢
      by_cases hvu : v = u
      · rw [hvu]; exact hfin
      · rw [getD_set_ne _ _ _ _ _ hvu] at hvis
        exact hinv.vis_fin v hv hvis
    · intro v hv hp
      obtain ⟨w, hw, hpw, hwv⟩ := hinv.prev_node v hv hp
      exact ⟨w, hw, hpw, hsub w hwv⟩
    · intro v hv hp
      obtain ⟨h, hh, hc⟩ := hinv.chain v hv hp
      exact ⟨h, hh, hopTo_mono _ _ _ _ _ _ hsub hc⟩

theorem lsrInv_edge (graph : Matrix) (src : Nat) (s : LSRState) (u v : Nat)
    (hinv : LSRInv graph src s) (hu : u < graph.length)
    (hv : v < graph.length) (huv : s.visited.getD u false = true) :
    LSRInv graph src (relaxEdge graph u s v) := by
  rcases relaxEdge_cases graph u v s with he | ⟨hvv, _, hlt, he⟩
  · rw [he]; exact hinv
  · rw [he]
    have hsrc : s.visited.getD src false = true := by
      by_contra hc
      have := hinv.fresh (by simpa using hc)
      rw [this, lsrInit_visited] at huv
      exact Bool.noConfusion huv
    have hvs : v ≠ src := by
      rintro rfl
      rw [hvv] at hsrc; exact Bool.noConfusion hsrc
    have hvu : u ≠ v := by
      rintro rfl
      rw [hvv] at huv; exact Bool.noConfusion huv
    have hdv := hinv.dist_le v hv
    have hld : v < s.dist.length := by rw [hinv.len_dist]; exact hv
    have hlp : v < s.prev.length := by rw [hinv.len_prev]; exact hv
    refine ⟨by simp [hinv.len_dist], by simp [hinv.len_prev], hinv.len_vis, ?_, ?_, ?_, ?_,
      ?_, ?_⟩
    · intro hc
      simp only at hc
      rw [hc] at hsrc; exact Bool.noConfusion hsrc
    · intro w hw
      simp only
      rw [getD_set_of_lt _ _ _ _ _ hld]
      split
      · linarith
      · exact hinv.dist_le w hw
    · intro w hw hwv
      simp only at hwv ⊢
      have hwne : w ≠ v := by
        rintro rfl
        rw [hvv] at hwv; exact Bool.noConfusion hwv
      rw [getD_set_ne _ _ _ _ _ hwne]
      exact hinv.vis_fin w hw hwv
    · intro w hw
      simp only
      by_cases hwv : w = v
      · subst hwv
        rw [getD_set_of_lt _ _ _ _ _ hlp, getD_set_of_lt _ _ _ _ _ hld, if_pos rfl, if_pos rfl]
        constructor
        · intro h; exact absurd h (natCast_ne_neg_one u)
        · rintro (h | h)
          · exact absurd h hvs
          · exfalso; rw [h] at hlt; linarith
      · rw [getD_set_ne _ _ _ _ _ hwv, getD_set_ne _ _ _ _ _ hwv]
        exact hinv.prev_none w hw
    · intro w hw hp
      simp only at hp ⊢
      by_cases hwv : w = v
      · subst hwv
        rw [getD_set_of_lt _ _ _ _ _ hlp, if_pos rfl]
        exact ⟨u, hu, rfl, huv⟩
      · rw [getD_set_ne _ _ _ _ _ hwv] at hp ⊢
        exact hinv.prev_node w hw hp
    · intro w hw hp
      simp only at hp ⊢
      by_cases hwv : w = v
      · subst hwv
        have hpw : (s.prev.set w (u : Int)).getD w 0 = (u : Int) := by
          rw [getD_set_of_lt _ _ _ _ _ hlp, if_pos rfl]
        by_cases hus : u = src
        · exact ⟨w, hw, HopTo.base (by rw [hpw, hus])⟩
        · have hpu : s.prev.getD u 0 ≠ -1 := by
            intro h
            rcases (hinv.prev_none u hu).mp h with h1 | h1
            · exact hus h1
            · exact hinv.vis_fin u hu huv h1
          obtain ⟨h, hh, hc⟩ := hinv.chain u hu hpu
          exact ⟨h, hh, HopTo.step w u hpw hus huv (hopTo_set _ _ _ _ _ _ _ hvv hc hvu)⟩
      · rw [getD_set_ne _ _ _ _ _ hwv] at hp
        obtain ⟨h, hh, hc⟩ := hinv.chain w hw hp
        exact ⟨h, hh, hopTo_set _ _ _ _ _ _ _ hvv hc hwv⟩

theorem lsrInv_of_reach (graph : Matrix) (src : Nat) (s : LSRState) (hs : src < graph.length)
    (hr : LSRReach graph src s) : LSRInv graph src s := by
  induction hr with
  | init => exact lsrInv_init graph src hs
  | mark s _ hsel hfin ih => exact lsrInv_mark graph src s hs ih hsel hfin
  | edge s u v _ hu hv huv ih => exact lsrInv_edge graph src s u v ih hu hv huv

/-! ## Costs held by the link-state arrays -/

theorem lsrCost_init (graph : Matrix) (src : Nat) (hs : src < graph.length) :
    LSRCost graph src (lsrInit graph.length src) := by
  have hprev : ∀ v < graph.length, (lsrInit graph.length src).prev.getD v 0 = -1 :=
    fun v hv => getD_replicate _ _ _ _ hv
  refine ⟨by rw [lsrInit_dist _ _ _ hs hs, if_pos rfl], fun v hv => ?_, fun v hv hlt => ?_,
    fun v hv u _ hp => ?_⟩
  · rw [lsrInit_dist _ _ _ hs hv]
    split
    · exact le_refl _
    · rw [INF_eq]; norm_num
  · rw [lsrInit_dist _ _ _ hs hv] at hlt ⊢
    by_cases h : v = src
    · rw [if_pos h]
      exact ⟨[], ⟨trivial, h.symm⟩, rfl⟩
    · rw [if_neg h] at hlt
      exact absurd hlt (lt_irrefl _)
  · rw [hprev v hv] at hp
    exact absurd hp.symm (natCast_ne_neg_one u)

theorem lsr_sum_exact (graph : Matrix) (src : Nat) (s : LSRState) (u v : Nat)
    (hb : EntriesIn graph graph.length 0 9999) (hinv : LSRInv graph src s)
    (hc : LSRCost graph src s) (hu : u < graph.length) (hv : v < graph.length) :
    wrap32 (s.dist.getD u 0 + get2 graph u v) = s.dist.getD u 0 + get2 graph u v := by
  have h1 := hc.nonneg u hu
  have h2 := hinv.dist_le u hu
  have h3 := hb u hu v hv
  rw [INF_eq] at h2
  exact wrap32_of_range _ (by linarith) (by linarith)

theorem lsrCost_edge (graph : Matrix) (src : Nat) (s : LSRState) (u v : Nat)
    (hb : EntriesIn graph graph.length 0 9999) (hinv : LSRInv graph src s)
    (hc : LSRCost graph src s) (hu : u < graph.length)
    (hv : v < graph.length) (huv : s.visited.getD u false = true) :
    LSRCost graph src (relaxEdge graph u s v) := by
  rcases relaxEdge_cases graph u v s with he | ⟨hvv, hedge, hlt, he⟩
  · rw [he]; exact hc
  · rw [he]
    have hex := lsr_sum_exact graph src s u v hb hinv hc hu hv
    rw [hex] at hlt ⊢
    have hvu : u ≠ v := by
      rintro rfl
      rw [hvv] at huv; exact Bool.noConfusion huv
    have hld : v < s.dist.length := by rw [hinv.len_dist]; exact hv
    have hlp : v < s.prev.length := by rw [hinv.len_prev]; exact hv
    have hdu := hc.nonneg u hu
    have hg := hb u hu v hv
    have hdv := hinv.dist_le v hv
    refine ⟨?_, fun w hw => ?_, fun w hw hlt' => ?_, fun w hw x hx hp => ?_⟩
    · simp only
      rw [getD_set_of_lt _ _ _ _ _ hld]
      split
      · rename_i e
        have := hc.src_zero
        rw [e] at this
        linarith
      · exact hc.src_zero
    · simp only
      rw [getD_set_of_lt _ _ _ _ _ hld]
      split
      · linarith
      · exact hc.nonneg w hw
    · simp only at hlt' ⊢
      rw [getD_set_of_lt _ _ _ _ _ hld] at hlt' ⊢
      by_cases hwv : w = v
      · subst hwv
        rw [if_pos rfl]
        have hul : s.dist.getD u 0 < INF := by rw [INF_eq] at hdv ⊢; linarith
        obtain ⟨p, hp, hcost⟩ := hc.path u hu hul
        refine ⟨p ++ [w], isPath_append graph src u w p [w] hp ⟨⟨hv, hedge, trivial⟩, rfl⟩, ?_⟩
        rw [walkCost_append, hp.2, hcost]
        simp [walkCost]
      · rw [if_neg hwv] at hlt' ⊢
        exact hc.path w hw hlt'
    · simp only at hp ⊢
      by_cases hwv : w = v
      · subst hwv
        rw [getD_set_of_lt _ _ _ _ _ hlp, if_pos rfl] at hp
        have hxu : x = u := by exact_mod_cast hp.symm
        subst hxu
        rw [getD_set_of_lt _ _ _ _ _ hld, if_pos rfl, getD_set_ne _ _ _ _ _ hvu]
        exact ⟨hedge, rfl⟩
      · rw [getD_set_ne _ _ _ _ _ hwv] at hp ⊢
        have hxv : x ≠ v := by
          rintro rfl
          obtain ⟨y, _, hy, hyv⟩ := hinv.prev_node w hw (by rw [hp]; exact natCast_ne_neg_one x)
          rw [hp] at hy
          have : x = y := by exact_mod_cast hy
          rw [← this, hvv] at hyv
          exact Bool.noConfusion hyv
        rw [getD_set_ne _ _ _ _ _ hxv]
        exact hc.prev_edge w hw x hx hp

theorem lsrCost_of_reach (graph : Matrix) (src : Nat) (s : LSRState) (hs : src < graph.length)
    (hb : EntriesIn graph graph.length 0 9999) (hr : LSRReach graph src s) :
    LSRCost graph src s := by
  induction hr with
  | init => exact lsrCost_init graph src hs
  | mark s _ _ _ ih => exact ⟨ih.src_zero, ih.nonneg, ih.path, ih.prev_edge⟩
  | edge s u v hr' hu hv huv ih =>
    exact lsrCost_edge graph src s u v hb (lsrInv_of_reach graph src s hs hr') ih hu hv huv

/-! ## One iteration of the link-state search -/

/-- Facts that hold throughout the edge loop of the selected node `u`. -/
theorem relaxEdge_dijk (graph : Matrix) (src : Nat) (t : LSRState) (u m : Nat)
    (hs : src < graph.length) (hb : EntriesIn graph graph.length 0 9999)
    (hu : u < graph.length) (hm : m < graph.length)
    (hr : LSRReach graph src t) (huv : t.visited.getD u false = true)
    (hord : ∀ w < graph.length, ∀ v < graph.length, t.visited.getD w false = true →
      t.visited.getD v false = false → t.dist.getD w 0 ≤ t.dist.getD v 0)
    (hle : ∀ w < graph.length, t.visited.getD w false = true →
      t.dist.getD w 0 ≤ t.dist.getD u 0)
    (hed : ∀ w < graph.length, ∀ v < graph.length, t.visited.getD w false = true → w ≠ u →
      get2 graph w v ≠ INF → t.dist.getD v 0 ≤ t.dist.getD w 0 + get2 graph w v) :
    (relaxEdge graph u t m).visited = t.visited ∧
    (∀ w < graph.length, ∀ v < graph.length, t.visited.getD w false = true →
      t.visited.getD v false = false →
      (relaxEdge graph u t m).dist.getD w 0 ≤ (relaxEdge graph u t m).dist.getD v 0) ∧
    (∀ w < graph.length, t.visited.getD w false = true →
      (relaxEdge graph u t m).dist.getD w 0 ≤ (relaxEdge graph u t m).dist.getD u 0) ∧
    (∀ w < graph.length, ∀ v < graph.length, t.visited.getD w false = true → w ≠ u →
      get2 graph w v ≠ INF →
      (relaxEdge graph u t m).dist.getD v 0 ≤
        (relaxEdge graph u t m).dist.getD w 0 + get2 graph w v) ∧
    (get2 graph u m ≠ INF →
      (relaxEdge graph u t m).dist.getD m 0 ≤
        (relaxEdge graph u t m).dist.getD u 0 + get2 graph u m) ∧
    (∀ v < graph.length, t.dist.getD v 0 ≤ t.dist.getD u 0 + get2 graph u v →
      (relaxEdge graph u t m).dist.getD v 0 ≤
        (relaxEdge graph u t m).dist.getD u 0 + get2 graph u v) := by
  have hinv := lsrInv_of_reach graph src t hs hr
  have hc := lsrCost_of_reach graph src t hs hb hr
  have hex := lsr_sum_exact graph src t u m hb hinv hc hu hm
  have hg := hb u hu m hm
  have hld : m < t.dist.length := by rw [hinv.len_dist]; exact hm
  refine ⟨relaxEdge_visited graph u m t, ?_⟩
  unfold relaxEdge
  by_cases c1 : t.visited.getD m false = false ∧ get2 graph u m ≠ INF
  · rw [if_pos c1]
    by_cases c2 : wrap32 (t.dist.getD u 0 + get2 graph u m) < t.dist.getD m 0
    · rw [if_pos c2]
      simp only
      rw [hex] at c2 ⊢
      have hum : u ≠ m := by
        rintro rfl
        rw [c1.1] at huv; exact Bool.noConfusion huv
      have hvis : ∀ w, t.visited.getD w false = true → w ≠ m := by
        rintro w hw rfl
        rw [c1.1] at hw; exact Bool.noConfusion hw
      refine ⟨fun w hw v hv hwv hvv => ?_, fun w hw hwv => ?_, fun w hw v hv hwv hwu hgw => ?_,
        fun _ => ?_, fun v hv hq => ?_⟩
      · rw [getD_set_ne _ _ _ _ _ (hvis w hwv), getD_set_of_lt _ _ _ _ _ hld]
        split
        · have := hle w hw hwv
          linarith
        · exact hord w hw v hv hwv hvv
      · rw [getD_set_ne _ _ _ _ _ (hvis w hwv), getD_set_ne _ _ _ _ _ hum]
        exact hle w hw hwv
      · rw [getD_set_ne _ _ _ _ _ (hvis w hwv), getD_set_of_lt _ _ _ _ _ hld]
        split
        · rename_i e
          have := hed w hw m hm hwv hwu (by rw [← e]; exact hgw)
          rw [e]; linarith
        · exact hed w hw v hv hwv hwu hgw
      · rw [getD_set_of_lt _ _ _ _ _ hld, if_pos rfl, getD_set_ne _ _ _ _ _ hum]
      · rw [getD_set_ne _ _ _ _ _ hum, getD_set_of_lt _ _ _ _ _ hld]
        split
        · rename_i e
          rw [e]
        · exact hq
    · rw [if_neg c2]
      rw [hex] at c2
      exact ⟨hord, hle, hed, fun _ => not_lt.mp c2, fun v _ hq => hq⟩
  · rw [if_neg c1]
    refine ⟨hord, hle, hed, fun hgm => ?_, fun v _ hq => hq⟩
    have hmv : t.visited.getD m false = true :=
      eq_true_of_ne_false (fun h => c1 ⟨h, hgm⟩)
    have := hle m hm hmv
    linarith

theorem foldl_range_succ {σ : Type} (f : σ → Nat → σ) (m : Nat) (s : σ) :
    (List.range (m + 1)).foldl f s = f ((List.range m).foldl f s) m := by
  rw [List.range_succ, List.foldl_append]
  rfl

/-- State of the edge loop of `u` after `v = 0 .. m-1`. -/
theorem relaxLoop_dijk (graph : Matrix) (src : Nat) (s1 : LSRState) (u : Nat)
    (hs : src < graph.length) (hb : EntriesIn graph graph.length 0 9999)
    (hu : u < graph.length)
    (hr : LSRReach graph src s1) (huv : s1.visited.getD u false = true)
    (hord : ∀ w < graph.length, ∀ v < graph.length, s1.visited.getD w false = true →
      s1.visited.getD v false = false → s1.dist.getD w 0 ≤ s1.dist.getD v 0)
    (hle : ∀ w < graph.length, s1.visited.getD w false = true →
      s1.dist.getD w 0 ≤ s1.dist.getD u 0)
    (hed : ∀ w < graph.length, ∀ v < graph.length, s1.visited.getD w false = true → w ≠ u →
      get2 graph w v ≠ INF → s1.dist.getD v 0 ≤ s1.dist.getD w 0 + get2 graph w v)
    (m : Nat) (hm : m ≤ graph.length) :
    LSRReach graph src ((List.range m).foldl (relaxEdge graph u) s1) ∧
    ((List.range m).foldl (relaxEdge graph u) s1).visited = s1.visited ∧
    (∀ w < graph.length, ∀ v < graph.length, s1.visited.getD w false = true →
      s1.visited.getD v false = false →
      ((List.range m).foldl (relaxEdge graph u) s1).dist.getD w 0 ≤
        ((List.range m).foldl (relaxEdge graph u) s1).dist.getD v 0) ∧
    (∀ w < graph.length, s1.visited.getD w false = true →
      ((List.range m).foldl (relaxEdge graph u) s1).dist.getD w 0 ≤
        ((List.range m).foldl (relaxEdge graph u) s1).dist.getD u 0) ∧
    (∀ w < graph.length, ∀ v < graph.length, s1.visited.getD w false = true → w ≠ u →
      get2 graph w v ≠ INF →
      ((List.range m).foldl (relaxEdge graph u) s1).dist.getD v 0 ≤
        ((List.range m).foldl (relaxEdge graph u) s1).dist.getD w 0 + get2 graph w v) ∧
    (∀ v < m, get2 graph u v ≠ INF →
      ((List.range m).foldl (relaxEdge graph u) s1).dist.getD v 0 ≤
        ((List.range m).foldl (relaxEdge graph u) s1).dist.getD u 0 + get2 graph u v) := by
  induction m with
  | zero => exact ⟨hr, rfl, hord, hle, hed, fun v hv => absurd hv (Nat.not_lt_zero v)⟩
  | succ m ih =>
    obtain ⟨r1, r2, r3, r4, r5, r6⟩ := ih (Nat.le_of_succ_le hm)
    have hm' : m < graph.length := hm
    rw [foldl_range_succ]
    generalize (List.range m).foldl (relaxEdge graph u) s1 = t at r1 r2 r3 r4 r5 r6 ⊢
    rw [← r2] at r3 r4 r5 huv
    obtain ⟨q1, q2, q3, q4, q5, q6⟩ :=
      relaxEdge_dijk graph src t u m hs hb hu hm' r1 huv r3 r4 r5
    rw [← r2]
    refine ⟨LSRReach.edge t u m r1 hu hm' huv, q1, q2, q3, q4, fun v hv hgv => ?_⟩
    rcases Nat.lt_succ_iff_lt_or_eq.mp hv with h | h
    · exact q6 v (lt_trans h hm') (r6 v h hgv)
    · rw [h]; rw [h] at hgv; exact q5 hgv

theorem getD_set_true_cases (l : List Bool) (u x : Nat)
    (h : (l.set u true).getD x false = true) : x = u ∨ l.getD x false = true := by
  by_cases hx : x = u
  · exact Or.inl hx
  · rw [getD_set_ne _ _ _ _ _ hx] at h; exact Or.inr h

theorem getD_set_false (l : List Bool) (u x : Nat)
    (h : (l.set u true).getD x false = false) : l.getD x false = false := by
  by_contra hc
  rw [getD_set_true l u x (eq_true_of_ne_false hc)] at h
  exact Bool.noConfusion h

/-- A whole iteration (mark the selected node, relax its edges) keeps `DijkInv`. -/
theorem visit_dijk (graph : Matrix) (src : Nat) (s : LSRState)
    (hs : src < graph.length) (hb : EntriesIn graph graph.length 0 9999)
    (hd : DijkInv graph src s) (hsel : selectMin graph.length s ≠ -1)
    (hfin : s.dist.getD (selectMin graph.length s).toNat 0 ≠ INF) :
    DijkInv graph src (visit graph graph.length (selectMin graph.length s).toNat s) ∧
    (visit graph graph.length (selectMin graph.length s).toNat s).visited =
      s.visited.set (selectMin graph.length s).toNat true := by
  have hreach1 := LSRReach.mark s hd.reach hsel hfin
  have hinv := lsrInv_of_reach graph src s hs hd.reach
  rcases selectMin_spec s graph.length with ⟨he, _⟩ | ⟨u, he, hu, huv, hmin, _⟩
  · exact absurd he hsel
  · rw [he, Int.toNat_ofNat] at hfin hreach1 ⊢
    have hlv : u < s.visited.length := by rw [hinv.len_vis]; exact hu
    have hu1 : (markVisited u s).visited.getD u false = true := by
      simp only [markVisited]
      rw [getD_set_of_lt _ _ _ _ _ hlv, if_pos rfl]
    obtain ⟨r1, r2, r3, r4, r5, r6⟩ := relaxLoop_dijk graph src (markVisited u s) u hs hb hu
      hreach1 hu1
      (fun w hw v hv hwv hvv => by
        have hvv' := getD_set_false _ _ _ hvv
        rcases getD_set_true_cases _ _ _ hwv with h | h
        · rw [h]; exact hmin v hv hvv'
        · exact hd.order w hw v hv h hvv')
      (fun w hw hwv => by
        rcases getD_set_true_cases _ _ _ hwv with h | h
        · rw [h]
        · exact hd.order w hw u hu h huv)
      (fun w hw v hv hwv hwu hg => by
        rcases getD_set_true_cases _ _ _ hwv with h | h
        · exact absurd h hwu
        · exact hd.edges w hw v hv h hg)
      graph.length (le_refl _)
    refine ⟨⟨r1, ?_, ?_⟩, r2⟩
    · intro w hw v hv hwv hvv
      unfold visit at hwv hvv ⊢
      rw [r2] at hwv hvv
      exact r3 w hw v hv hwv hvv
    · intro w hw v hv hwv hg
      unfold visit at hwv ⊢
      rw [r2] at hwv
      by_cases hwu : w = u
      · rw [hwu] at hg ⊢; exact r6 v hv hg
      · exact r5 w hw v hv hwv hwu hg

theorem count_false_set (l : List Bool) (u : Nat) (hu : u < l.length)
    (h : l.getD u false = false) : (l.set u true).count false + 1 = l.count false := by
  induction l generalizing u with
  | nil => simp at hu
  | cons b bs ih =>
    cases u with
    | zero =>
      have hb : b = false := by simpa using h
      subst hb
      simp
    | succ u =>
      have hu' : u < bs.length := by simpa using hu
      have h' : bs.getD u false = false := by simpa using h
      have := ih u hu' h'
      cases b <;> simp [List.count_cons] <;> omega

theorem all_visited_of_count (l : List Bool) (h : l.count false = 0) (v : Nat)
    (hv : v < l.length) : l.getD v false = true := by
  rw [List.count_eq_zero] at h
  by_contra hc
  apply h
  have : l.getD v false = l[v] := by
    rw [List.getD_eq_getElem?_getD, List.getElem?_eq_getElem hv]; rfl
  rw [this] at hc
  have hf : l[v] = false := by simpa using hc
  rw [← hf]
  exact List.getElem_mem hv

/-- When the search loop ends, every node still unvisited holds the sentinel. -/
theorem dijkstraLoop_done (graph : Matrix) (src : Nat) (hs : src < graph.length)
    (hb : EntriesIn graph graph.length 0 9999) (iters : Nat) :
    ∀ s, DijkInv graph src s → s.visited.count false ≤ iters →
      DijkInv graph src (dijkstraLoop graph graph.length iters s) ∧
      ∀ v < graph.length,
        (dijkstraLoop graph graph.length iters s).visited.getD v false = false →
        (dijkstraLoop graph graph.length iters s).dist.getD v 0 = INF := by
  induction iters with
  | zero =>
    intro s hd hc
    have hinv := lsrInv_of_reach graph src s hs hd.reach
    refine ⟨hd, fun v hv hvv => ?_⟩
    have := all_visited_of_count s.visited (Nat.le_zero.mp hc) v (by rw [hinv.len_vis]; exact hv)
    simp only [dijkstraLoop] at hvv
    rw [this] at hvv
    exact Bool.noConfusion hvv
  | succ iters ih =>
    intro s hd hc
    have hinv := lsrInv_of_reach graph src s hs hd.reach
    simp only [dijkstraLoop]
    split
    · rename_i hbrk
      refine ⟨hd, fun v hv hvv => ?_⟩
      rcases selectMin_spec s graph.length with ⟨_, hall⟩ | ⟨u, he, hu, _, hmin, _⟩
      · rw [hall v hv] at hvv; exact Bool.noConfusion hvv
      · rw [he, Int.toNat_ofNat] at hbrk
        rcases hbrk with h | h
        · exact absurd h (natCast_ne_neg_one u)
        · have h1 := hmin v hv hvv
          have h2 := hinv.dist_le v hv
          rw [h] at h1
          exact le_antisymm h2 h1
    · rename_i hbrk
      have hsel : selectMin graph.length s ≠ -1 := fun h => hbrk (Or.inl h)
      have hfin : s.dist.getD (selectMin graph.length s).toNat 0 ≠ INF :=
        fun h => hbrk (Or.inr h)
      obtain ⟨hd', hvis⟩ := visit_dijk graph src s hs hb hd hsel hfin
      refine ih _ hd' ?_
      rw [hvis]
      rcases selectMin_spec s graph.length with ⟨he, _⟩ | ⟨u, he, hu, huv, _, _⟩
      · exact absurd he hsel
      · rw [he, Int.toNat_ofNat]
        have := count_false_set s.visited u (by rw [hinv.len_vis]; exact hu) huv
        omega

theorem dijkInv_init (graph : Matrix) (src : Nat) :
    DijkInv graph src (lsrInit graph.length src) := by
  refine ⟨LSRReach.init, fun u _ v _ h => ?_, fun u _ v _ h => ?_⟩ <;>
  · rw [lsrInit_visited] at h
    exact Bool.noConfusion h

/-- Final arrays of `simulateLSR`: the iteration invariant holds and every unvisited
node holds the sentinel. -/
theorem simulateLSR_done (graph : Matrix) (src : Nat) (hs : src < graph.length)
    (hb : EntriesIn graph graph.length 0 9999) :
    DijkInv graph src (simulateLSR graph src) ∧
    ∀ v < graph.length, (simulateLSR graph src).visited.getD v false = false →
      (simulateLSR graph src).dist.getD v 0 = INF :=
  dijkstraLoop_done graph src hs hb graph.length _ (dijkInv_init graph src)
    (by simp [lsrInit, List.count_replicate])

/-! ## Final link-state arrays -/

/-- In the final arrays a walk that starts at a node of distance at most `c0` and stays
below the sentinel ends at a node whose distance is at most `c0` plus the walk's cost. -/
theorem lsr_le_walk (graph : Matrix) (src : Nat) (hs : src < graph.length)
    (hb : EntriesIn graph graph.length 0 9999) (p : List Nat) :
    ∀ u < graph.length, ∀ c0 : Int, (simulateLSR graph src).dist.getD u 0 ≤ c0 →
      IsWalk graph u p → c0 + walkCost graph u p < INF →
      (simulateLSR graph src).dist.getD (walkEnd u p) 0 ≤ c0 + walkCost graph u p := by
  obtain ⟨hd, hdone⟩ := simulateLSR_done graph src hs hb
  have hnn : ∀ a < graph.length, ∀ b < graph.length, 0 ≤ get2 graph a b :=
    fun a ha b hb' => (hb a ha b hb').1
  induction p with
  | nil =>
    intro u _ c0 h0 _ _
    simpa [walkEnd, walkCost] using h0
  | cons v p ih =>
    intro u hu c0 h0 hw hlt
    obtain ⟨hv, hg, hw'⟩ := hw
    have hcp := walkCost_nonneg graph v p hv hnn hw'
    have hguv := hnn u hu v hv
    simp only [walkCost] at hlt ⊢
    have huvis : (simulateLSR graph src).visited.getD u false = true := by
      by_contra hc
      have := hdone u hu (by simpa using hc)
      linarith
    have hedge := hd.edges u hu v hv huvis hg
    have := ih v hv (c0 + get2 graph u v) (by linarith) hw' (by linarith)
    simp only [walkEnd]
    linarith

/-- The final `dist[v]` of `simulateLSR` is the routing distance from the source. -/
theorem lsr_routeDist (graph : Matrix) (src v : Nat) (hs : src < graph.length)
    (hv : v < graph.length) (hb : EntriesIn graph graph.length 0 9999) :
    IsRouteDist graph src v ((simulateLSR graph src).dist.getD v 0) := by
  obtain ⟨hd, _⟩ := simulateLSR_done graph src hs hb
  have hinv := lsrInv_of_reach graph src _ hs hd.reach
  have hc := lsrCost_of_reach graph src _ hs hb hd.reach
  have hle := hinv.dist_le v hv
  have hmin : ∀ q, IsPath graph src v q →
      (simulateLSR graph src).dist.getD v 0 ≤ walkCost graph src q := by
    intro q hq
    by_cases hlt : walkCost graph src q < INF
    · have := lsr_le_walk graph src hs hb q src hs 0 (le_of_eq hc.src_zero) hq.1
        (by simpa using hlt)
      rw [hq.2] at this
      simpa using this
    · exact le_trans hle (not_lt.mp hlt)
  by_cases hlt : (simulateLSR graph src).dist.getD v 0 < INF
  · obtain ⟨p, hp, hpc⟩ := hc.path v hv hlt
    obtain ⟨q, hq, hqe, hnd, hqc⟩ :=
      simple_of_walk graph (fun a ha b hb2 => (hb a ha b hb2).1) p src hs hp.1
    have hqp : IsPath graph src v q := ⟨hq, by rw [hqe]; exact hp.2⟩
    exact Or.inl ⟨hlt, ⟨q, hqp, hnd, le_antisymm (by rw [← hpc]; exact hqc) (hmin q hqp)⟩, hmin⟩
  · have he := le_antisymm hle (not_lt.mp hlt)
    exact Or.inr ⟨he, fun q hq => by rw [← he]; exact hmin q hq⟩

theorem routeDist_unique (g : Matrix) (i j : Nat) (d1 d2 : Int) (h1 : IsRouteDist g i j d1)
    (h2 : IsRouteDist g i j d2) : d1 = d2 := by
  rcases h1 with ⟨hl1, ⟨p1, hp1, _, hc1⟩, hm1⟩ | ⟨he1, hm1⟩
  · rcases h2 with ⟨_, ⟨p2, hp2, _, hc2⟩, hm2⟩ | ⟨_, hm2⟩
    · have a := hm1 p2 hp2
      have b := hm2 p1 hp1
      linarith
    · have := hm2 p1 hp1
      linarith
  · rcases h2 with ⟨hl2, ⟨p2, hp2, _, hc2⟩, _⟩ | ⟨he2, _⟩
    · have := hm1 p2 hp2
      linarith
    · rw [he1, he2]

/-! ## Predecessor walk of `printLSRTable` -/

theorem hopWalk_mono (prev : List Int) (src : Int) (fuel extra : Nat) (hop r : Int)
    (h : hopWalk prev src fuel hop = some r) : hopWalk prev src (fuel + extra) hop = some r := by
  induction fuel generalizing hop with
  | zero => simp [hopWalk] at h
  | succ f ih =>
    rw [Nat.add_right_comm]
    simp only [hopWalk] at h ⊢
    split
    · rename_i hc; rw [if_pos hc] at h; exact ih _ h
    · rename_i hc; rw [if_neg hc] at h; exact h

theorem hopTo_prev (prev : List Int) (vis : List Bool) (src h v : Nat)
    (hc : HopTo prev vis src h v) : prev.getD h 0 = (src : Int) := by
  induction hc with
  | base hb => exact hb
  | step _ _ _ _ _ _ ih => exact ih

/-- The walk of `printLSRTable` follows a predecessor chain to its end. -/
theorem hopWalk_of_hopTo (prev : List Int) (vis : List Bool) (src h v : Nat)
    (hc : HopTo prev vis src h v) :
    ∃ fuel, hopWalk prev (src : Int) fuel (v : Int) = some (h : Int) := by
  induction hc with
  | base hb =>
    refine ⟨1, ?_⟩
    simp only [hopWalk, Int.toNat_ofNat]
    rw [if_neg (fun hc => hc.1 hb)]
  | step v u hp hus _ _ ih =>
    obtain ⟨fuel, hf⟩ := ih
    refine ⟨fuel + 1, ?_⟩
    simp only [hopWalk, Int.toNat_ofNat]
    rw [hp, if_pos ⟨fun e => hus (by exact_mod_cast e), natCast_ne_neg_one u⟩]
    exact hf

/-- Along a predecessor chain the distances add up edge by edge. -/
theorem hopTo_path (graph : Matrix) (src : Nat) (s : LSRState) (h v : Nat)
    (hinv : LSRInv graph src s) (hcost : LSRCost graph src s)
    (hc : HopTo s.prev s.visited src h v) (hv : v < graph.length) :
    h < graph.length ∧
    ∃ p, IsPath graph h v p ∧ s.dist.getD h 0 + walkCost graph h p = s.dist.getD v 0 := by
  induction hc with
  | base _ => exact ⟨hv, [], ⟨trivial, rfl⟩, by simp [walkCost]⟩
  | step v u hp _ _ _ ih =>
    obtain ⟨w, hw, hpw, _⟩ := hinv.prev_node v hv (by rw [hp]; exact natCast_ne_neg_one u)
    rw [hp] at hpw
    have huw : u = w := by exact_mod_cast hpw
    have hu : u < graph.length := by rw [huw]; exact hw
    obtain ⟨hh, p, hpath, hsum⟩ := ih hu
    obtain ⟨hg, hdv⟩ := hcost.prev_edge v hv u hu hp
    refine ⟨hh, p ++ [v], isPath_append graph h u v p [v] hpath ⟨⟨hv, hg, trivial⟩, rfl⟩, ?_⟩
    rw [walkCost_append, hpath.2, hdv, ← hsum]
    simp [walkCost]
    ring

/-! ## Unreachable destinations -/

/-- While the DVR loop runs, a cell with no non-empty path of direct edges behind it
keeps the sentinel and the `-1` marker. -/
theorem dvr_unreachable_of_reach (graph : Matrix) (s : DVRState)
    (hsq : Square graph graph.length) (hb : EntriesIn graph graph.length 0 1073741823)
    (hs : DVRReach graph s) :
    ∀ i < graph.length, ∀ j < graph.length, (∀ p, p ≠ [] → ¬ IsPath graph i j p) →
      get2 s.dist i j = INF ∧ get2 s.nextHop i j = -1 := by
  induction hs with
  | init =>
    intro i hi j hj hno
    have hg : get2 graph i j = INF := by
      by_contra hc
      exact hno [j] (List.cons_ne_nil _ _) ⟨⟨hj, hc, trivial⟩, rfl⟩
    refine ⟨hg, ?_⟩
    show get2 (initNextHop graph graph.length) i j = _
    rw [get2_initNextHop _ _ _ _ hi hj, if_neg (fun h => h.1 hg)]
  | clear s _ ih => exact ih
  | step s i j k hs' hi hj hk ih =>
    have hinv := dvrInv_of_reach graph s hsq hb hs'
    have hex := relax_sum_exact graph s i j k hb hinv hi hj hk
    intro a ha b hb' hno
    unfold relax
    split
    · rename_i hlt
      rw [hex] at hlt
      simp only
      rw [get2_set2 _ _ _ _ _ _ _ hinv.1 hi hj, get2_set2 _ _ _ _ _ _ _ hinv.2.1 hi hj]
      have hne : ¬ (a = i ∧ b = j) := by
        rintro ⟨rfl, rfl⟩
        have h3 := (ih a hi b hj hno).1
        have h1 := (hinv.2.2 a hi k hk).1
        have h2 := (hinv.2.2 k hk b hj).1
        by_cases hak : ∀ p, p ≠ [] → ¬ IsPath graph a k p
        · have := (ih a hi k hk hak).1
          linarith
        · by_cases hkb : ∀ p, p ≠ [] → ¬ IsPath graph k b p
          · have := (ih k hk b hj hkb).1
            linarith
          · push_neg at hak hkb
            obtain ⟨p, hp0, hp⟩ := hak
            obtain ⟨q, _, hq⟩ := hkb
            exact hno (p ++ q) (by simp [hp0]) (isPath_append graph a k b p q hp hq)
      rw [if_neg hne, if_neg hne]
      exact ih a ha b hb' hno
    · exact ih a ha b hb' hno

/-- The search marks the selected node and relaxes its edges through reachable states. -/
theorem visit_reach (graph : Matrix) (src : Nat) (s : LSRState) (hs : src < graph.length)
    (hr : LSRReach graph src s) (hsel : selectMin graph.length s ≠ -1)
    (hfin : s.dist.getD (selectMin graph.length s).toNat 0 ≠ INF) :
    LSRReach graph src (visit graph graph.length (selectMin graph.length s).toNat s) := by
  have hreach1 := LSRReach.mark s hr hsel hfin
  have hinv := lsrInv_of_reach graph src s hs hr
  rcases selectMin_spec s graph.length with ⟨he, _⟩ | ⟨u, he, hu, _, _, _⟩
  · exact absurd he hsel
  · rw [he, Int.toNat_ofNat] at hreach1 ⊢
    have hu1 : (markVisited u s).visited.getD u false = true := by
      simp only [markVisited]
      rw [getD_set_of_lt _ _ _ _ _ (by rw [hinv.len_vis]; exact hu), if_pos rfl]
    have := foldl_inv
      (fun t => LSRReach graph src t ∧ t.visited.getD u false = true)
      (relaxEdge graph u) (List.range graph.length)
      (fun t v hv ht => ⟨LSRReach.edge t u v ht.1 hu (List.mem_range.mp hv) ht.2, by
        rw [relaxEdge_visited]; exact ht.2⟩)
      (markVisited u s) ⟨hreach1, hu1⟩
    exact this.1

theorem dijkstraLoop_reach (graph : Matrix) (src : Nat) (hs : src < graph.length)
    (iters : Nat) : ∀ s, LSRReach graph src s →
      LSRReach graph src (dijkstraLoop graph graph.length iters s) := by
  induction iters with
  | zero => intro s hr; exact hr
  | succ iters ih =>
    intro s hr
    simp only [dijkstraLoop]
    split
    · exact hr
    · rename_i hbrk
      exact ih _ (visit_reach graph src s hs hr (fun h => hbrk (Or.inl h))
        (fun h => hbrk (Or.inr h)))

theorem simulateLSR_reach (graph : Matrix) (src : Nat) (hs : src < graph.length) :
    LSRReach graph src (simulateLSR graph src) :=
  dijkstraLoop_reach graph src hs graph.length _ LSRReach.init

/-- For any cost matrix, a node whose `dist` left the sentinel has a path of direct
edges from the source. -/
theorem lsr_path_of_reach (graph : Matrix) (src : Nat) (s : LSRState)
    (hs : src < graph.length) (hr : LSRReach graph src s) :
    ∀ v < graph.length, s.dist.getD v 0 ≠ INF → ∃ p, IsPath graph src v p := by
  induction hr with
  | init =>
    intro v hv hne
    rw [lsrInit_dist _ _ _ hs hv] at hne
    by_cases h : v = src
    · exact ⟨[], trivial, h.symm⟩
    · rw [if_neg h] at hne; exact absurd rfl hne
  | mark s _ _ _ ih => exact ih
  | edge s u v hr' hu hv huv ih =>
    have hinv := lsrInv_of_reach graph src s hs hr'
    rcases relaxEdge_cases graph u v s with he | ⟨_, hedge, _, he⟩
    · rw [he]; exact ih
    · rw [he]
      intro w hw hne
      simp only at hne
      by_cases hwv : w = v
      · obtain ⟨p, hp⟩ := ih u hu (hinv.vis_fin u hu huv)
        exact ⟨p ++ [w], isPath_append graph src u w p [w] hp
          ⟨⟨hw, by rw [hwv]; exact hedge, trivial⟩, rfl⟩⟩
      · rw [getD_set_ne _ _ _ _ _ hwv] at hne
        exact ih w hw hne

/-- With no predecessor recorded for `d`, `printLSRTable` reports `-1` for it. -/
theorem printLSRTable_none (src : Nat) (prev : List Int) (fuel d : Nat)
    (h : prev.getD d 0 = -1) : printLSRTable src prev (fuel + 1) d = some (-1) := by
  unfold printLSRTable
  simp only [hopWalk, Int.toNat_ofNat]
  rw [if_neg (fun hc => hc.2 h)]
  show some (if prev.getD ((d : Int)).toNat 0 = -1 then (-1 : Int) else (d : Int)) = some (-1)
  rw [Int.toNat_ofNat, if_pos h]

/-! ## Claims C1 – C4 -/

/-- C1 (DVR distance correctness). For every square cost matrix with entries in
`0..9999` the relaxation loop of `simulateDVR` ends, and in the tables it ends with,
for all `i ≠ j`, `dist[i][j]` is the least total cost of a path of direct (non-sentinel)
edges from `i` to `j` when that least cost is below 9999, and 9999 otherwise. -/
theorem dvr_distance_correct (graph : Matrix) (hsq : Square graph graph.length)
    (hb : EntriesIn graph graph.length 0 9999) :
    (∃ fuel t, simulateDVR graph fuel = some t) ∧
    ∀ fuel t, simulateDVR graph fuel = some t →
      ∀ i < graph.length, ∀ j < graph.length, i ≠ j →
        IsRouteDist graph i j (get2 t.dist i j) :=
  ⟨simulateDVR_total graph hsq
      (entriesIn_mono graph _ 0 9999 _ _ hb (by norm_num) (by norm_num)),
    fun fuel t h i hi j hj hne => dvr_routeDist graph fuel t hsq hb h i j hi hj hne⟩

set_option maxRecDepth 100000 in
/-- C1 on the four-node line: the route distance from node 0 to node 3 is 4. -/
theorem dvr_distance_correct_witness :
    Square lineGraph lineGraph.length ∧ EntriesIn lineGraph lineGraph.length 0 9999 ∧
    IsRouteDist lineGraph 0 3 4 :=
  ⟨by decide, by decide,
    (dvr_distance_correct lineGraph (by decide) (by decide)).2 3
      { dist := [[0, 1, 3, 4], [1, 0, 2, 3], [3, 2, 0, 1], [4, 3, 1, 0]],
        nextHop := [[-1, 1, 1, 1], [0, -1, 2, 2], [1, 1, -1, 3], [2, 2, 2, -1]],
        updated := false }
      (by decide) 0 (by decide) 3 (by decide) (by decide)⟩

/-- C2 (LSR distance correctness). For every square cost matrix with entries in
`0..9999` and every source `s`, the `dist` array `simulateLSR` passes to `printLSRTable`
has `dist[s] = 0` and, for every `v ≠ s`, `dist[v]` is the least total cost of a path of
direct edges from `s` to `v` when that least cost is below 9999, and 9999 otherwise. -/
theorem lsr_distance_correct (graph : Matrix) (_hsq : Square graph graph.length)
    (hb : EntriesIn graph graph.length 0 9999) (s : Nat) (hs : s < graph.length) :
    (simulateLSR graph s).dist.getD s 0 = 0 ∧
    ∀ v < graph.length, v ≠ s →
      IsRouteDist graph s v ((simulateLSR graph s).dist.getD v 0) :=
  ⟨(lsrCost_of_reach graph s _ hs hb (simulateLSR_reach graph s hs)).src_zero,
    fun v hv _ => lsr_routeDist graph s v hs hv hb⟩

set_option maxRecDepth 100000 in
/-- C2 on the four-node line with source 3: the route distance to node 0 is 4. -/
theorem lsr_distance_correct_witness :
    Square lineGraph lineGraph.length ∧ EntriesIn lineGraph lineGraph.length 0 9999 ∧
    IsRouteDist lineGraph 3 0 4 :=
  ⟨by decide, by decide,
    (lsr_distance_correct lineGraph (by decide) (by decide) 3 (by decide)).2 0
      (by decide) (by decide)⟩

/-- C3 (DVR next-hop correctness). For every square cost matrix with entries in `0..9999`
and zero diagonal the loop of `simulateDVR` ends, and in the tables it ends with, for all
`i ≠ j` with `dist[i][j] < 9999`, `h = nextHop[i][j]` is a node other than `i`, `i → h`
is a direct edge, `graph[i][h] + dist[h][j] = dist[i][j]`, and `h` is the first node of a
path of direct edges from `i` to `j` whose cost `dist[i][j]` no other path undercuts. -/
theorem dvr_nexthop_correct (graph : Matrix) (hsq : Square graph graph.length)
    (hb : EntriesIn graph graph.length 0 9999) (hz : ZeroDiag graph graph.length) :
    (∃ fuel t, simulateDVR graph fuel = some t) ∧
    ∀ fuel t, simulateDVR graph fuel = some t →
      ∀ i < graph.length, ∀ j < graph.length, i ≠ j → get2 t.dist i j < INF →
        ∃ h : Nat, get2 t.nextHop i j = (h : Int) ∧ h < graph.length ∧ h ≠ i ∧
          get2 graph i h ≠ INF ∧
          get2 graph i h + get2 t.dist h j = get2 t.dist i j ∧
          (∃ p, IsPath graph i j (h :: p) ∧ walkCost graph i (h :: p) = get2 t.dist i j) ∧
          ∀ q, IsPath graph i j q → get2 t.dist i j ≤ walkCost graph i q := by
  have hb' := entriesIn_mono graph _ 0 9999 0 1073741823 hb (le_refl _) (by norm_num)
  refine ⟨simulateDVR_total graph hsq
      (entriesIn_mono graph _ 0 9999 _ _ hb (by norm_num) (by norm_num)),
    fun fuel t h i hi j hj hne hlt => ?_⟩
  have hreach := simulateDVR_reach graph fuel t h
  have hinv := dvrInv_of_reach graph t hsq hb' hreach
  obtain ⟨x, hx, hxn, hxi, hg, p, hp, hc⟩ :=
    (dvr_paths_of_reach graph t hsq hb hreach).2 i hi j hj hne hlt
  have hmin : ∀ q, IsPath graph i j q → get2 t.dist i j ≤ walkCost graph i q := by
    intro q hq
    have hq0 : q ≠ [] := by
      rintro rfl
      exact hne hq.2
    have := dvr_le_walk graph fuel t hsq hb' h q i hi hq0 hq.1
    rw [hq.2] at this; exact this
  have hxj : get2 t.dist x j ≤ walkCost graph x p := by
    by_cases hp0 : p = []
    · subst hp0
      have hxe : x = j := hp.2
      rw [hxe, (dvr_diag_of_reach graph t hsq hb' hz hreach j hj).1]
      exact le_refl _
    · have := dvr_le_walk graph fuel t hsq hb' h p x hxn hp0 hp.1
      rw [hp.2] at this; exact this
  have htri := simulateDVR_triangle graph fuel t hsq hb' h i j x hi hj hxn
  have hix := (hinv.2.2 i hi x hxn).2
  exact ⟨x, hx, hxn, hxi, hg, by linarith, ⟨p, ⟨⟨hxn, hg, hp.1⟩, hp.2⟩, hc⟩, hmin⟩

set_option maxRecDepth 100000 in
/-- C3 on the four-node line: from node 0 towards node 3 the recorded next hop is a
neighbour of 0 that lies on a cheapest path. -/
theorem dvr_nexthop_correct_witness :
    Square lineGraph lineGraph.length ∧ EntriesIn lineGraph lineGraph.length 0 9999 ∧
    ZeroDiag lineGraph lineGraph.length ∧
    ∃ h : Nat, (1 : Int) = (h : Int) ∧ h < lineGraph.length ∧ h ≠ 0 ∧
      get2 lineGraph 0 h ≠ INF ∧ get2 lineGraph 0 h + 3 = 4 ∧
      (∃ p, IsPath lineGraph 0 3 (h :: p) ∧ walkCost lineGraph 0 (h :: p) = 4) ∧
      ∀ q, IsPath lineGraph 0 3 q → 4 ≤ walkCost lineGraph 0 q := by
  refine ⟨by decide, by decide, by decide, ?_⟩
  obtain ⟨h, h1, h2, h3, h4, h5, h6, h7⟩ :=
    (dvr_nexthop_correct lineGraph (by decide) (by decide) (by decide)).2 3
      { dist := [[0, 1, 3, 4], [1, 0, 2, 3], [3, 2, 0, 1], [4, 3, 1, 0]],
        nextHop := [[-1, 1, 1, 1], [0, -1, 2, 2], [1, 1, -1, 3], [2, 2, 2, -1]],
        updated := false }
      (by decide) 0 (by decide) 3 (by decide) (by decide) (by decide)
  have h1' : (1 : Int) = (h : Int) := h1
  have hh : h = 1 := by omega
  subst hh
  exact ⟨1, rfl, h2, h3, h4, h5, h6, h7⟩

theorem hopWalk_unique (prev : List Int) (src : Int) (f1 f2 : Nat) (hop r1 r2 : Int)
    (h1 : hopWalk prev src f1 hop = some r1) (h2 : hopWalk prev src f2 hop = some r2) :
    r1 = r2 := by
  have a := hopWalk_mono prev src f1 f2 hop r1 h1
  have b := hopWalk_mono prev src f2 f1 hop r2 h2
  rw [Nat.add_comm] at b
  rw [a] at b
  exact Option.some.inj b

/-- C4 (LSR first-hop reconstruction). For every square cost matrix with entries in
`0..9999`, every source `s` and every destination `d ≠ s` with final `dist[d] < 9999`,
the predecessor walk of `printLSRTable` ends, at a node `h` with `prev[h] = s`; the edge
`s → h` is a direct edge with `graph[s][h] = dist[h]`; `h` is the first node after `s`
on a path of direct edges from `s` to `d` of total cost `dist[d]`; and the value
printed as next hop is `h`. -/
theorem lsr_first_hop (graph : Matrix) (_hsq : Square graph graph.length)
    (hb : EntriesIn graph graph.length 0 9999) (s d : Nat) (hs : s < graph.length)
    (hd : d < graph.length) (hne : d ≠ s)
    (hlt : (simulateLSR graph s).dist.getD d 0 < INF) :
    ∃ h : Nat, h < graph.length ∧
      (∃ fuel, hopWalk (simulateLSR graph s).prev (s : Int) fuel (d : Int) = some (h : Int)) ∧
      (∀ fuel r, hopWalk (simulateLSR graph s).prev (s : Int) fuel (d : Int) = some r →
        r = (h : Int)) ∧
      (simulateLSR graph s).prev.getD h 0 = (s : Int) ∧
      get2 graph s h ≠ INF ∧
      get2 graph s h = (simulateLSR graph s).dist.getD h 0 ∧
      (∃ p, IsPath graph s d (h :: p) ∧
        walkCost graph s (h :: p) = (simulateLSR graph s).dist.getD d 0) ∧
      (∃ fuel, printLSRTable s (simulateLSR graph s).prev fuel d = some (h : Int)) ∧
      ∀ fuel r, printLSRTable s (simulateLSR graph s).prev fuel d = some r →
        r = (h : Int) := by
  have hr := simulateLSR_reach graph s hs
  have hinv := lsrInv_of_reach graph s _ hs hr
  have hcost := lsrCost_of_reach graph s _ hs hb hr
  have hpd : (simulateLSR graph s).prev.getD d 0 ≠ -1 := by
    intro h
    rcases (hinv.prev_none d hd).mp h with h1 | h1
    · exact hne h1
    · rw [h1] at hlt; exact lt_irrefl _ hlt
  obtain ⟨h, _, hc⟩ := hinv.chain d hd hpd
  obtain ⟨hh, p, hp, hsum⟩ := hopTo_path graph s _ h d hinv hcost hc hd
  have hprev := hopTo_prev _ _ _ _ _ hc
  obtain ⟨hg, hdh⟩ := hcost.prev_edge h hh s hs hprev
  rw [hcost.src_zero, zero_add] at hdh
  obtain ⟨fuel, hf⟩ := hopWalk_of_hopTo _ _ _ _ _ hc
  have hprint : ∀ fuel r, hopWalk (simulateLSR graph s).prev (s : Int) fuel (d : Int) = some r →
      printLSRTable s (simulateLSR graph s).prev fuel d = some (h : Int) := by
    intro fuel' r hr'
    have hrh := hopWalk_unique _ _ _ _ _ _ _ hr' hf
    unfold printLSRTable
    rw [hr', hrh]
    show some (if (simulateLSR graph s).prev.getD ((h : Int)).toNat 0 = -1 then (-1 : Int)
      else (h : Int)) = some (h : Int)
    rw [Int.toNat_ofNat, hprev, if_neg (natCast_ne_neg_one s)]
  refine ⟨h, hh, ⟨fuel, hf⟩, fun fuel' r hr' => hopWalk_unique _ _ _ _ _ _ _ hr' hf, hprev, hg,
    hdh.symm, ⟨p, ⟨⟨hh, hg, hp.1⟩, hp.2⟩, ?_⟩, ⟨fuel, hprint fuel _ hf⟩, fun fuel' r hr' => ?_⟩
  · show get2 graph s h + walkCost graph h p = _
    rw [← hsum, hdh]
  · unfold printLSRTable at hr'
    cases hw : hopWalk (simulateLSR graph s).prev (s : Int) fuel' (d : Int) with
    | none => rw [hw] at hr'; simp at hr'
    | some x =>
      have := hprint fuel' x hw
      unfold printLSRTable at this
      rw [this] at hr'
      exact (Option.some.inj hr').symm

set_option maxRecDepth 100000 in
/-- C4 on the four-node line with source 0 and destination 3: the walk ends at node 1. -/
theorem lsr_first_hop_witness :
    Square lineGraph lineGraph.length ∧ EntriesIn lineGraph lineGraph.length 0 9999 ∧
    (simulateLSR lineGraph 0).dist.getD 3 0 < INF ∧
    ∃ h : Nat, h < lineGraph.length ∧
      (∃ fuel, hopWalk (simulateLSR lineGraph 0).prev ((0 : Nat) : Int) fuel ((3 : Nat) : Int)
        = some (h : Int)) ∧
      (∀ fuel r, hopWalk (simulateLSR lineGraph 0).prev ((0 : Nat) : Int) fuel ((3 : Nat) : Int)
        = some r → r = (h : Int)) ∧
      (simulateLSR lineGraph 0).prev.getD h 0 = ((0 : Nat) : Int) ∧
      get2 lineGraph 0 h ≠ INF ∧
      get2 lineGraph 0 h = (simulateLSR lineGraph 0).dist.getD h 0 ∧
      (∃ p, IsPath lineGraph 0 3 (h :: p) ∧
        walkCost lineGraph 0 (h :: p) = (simulateLSR lineGraph 0).dist.getD 3 0) ∧
      (∃ fuel, printLSRTable 0 (simulateLSR lineGraph 0).prev fuel 3 = some (h : Int)) ∧
      ∀ fuel r, printLSRTable 0 (simulateLSR lineGraph 0).prev fuel 3 = some r →
        r = (h : Int) :=
  ⟨by decide, by decide, by decide,
    lsr_first_hop lineGraph (by decide) (by decide) 0 3 (by decide) (by decide) (by decide)
      (by decide)⟩

/-! ## Claims C5 – C6 -/

/-- C5 as stated fails: with a self-cost of 5 `simulateDVR` keeps `dist[0][0] = 5` while
`simulateLSR` sets `dist[0] = 0`; with an edge of cost 10000 `simulateDVR` keeps
`dist[0][1] = 10000` while `simulateLSR` leaves `dist[1]` at the sentinel 9999. -/
theorem dvr_lsr_agree_counterexample :
    (Square selfCostGraph 1 ∧ EntriesIn selfCostGraph 1 0 INT_MAX ∧
      simulateDVR selfCostGraph 1 =
        some { dist := [[5]], nextHop := [[-1]], updated := false } ∧
      (simulateLSR selfCostGraph 0).dist = [0]) ∧
    (Square dearEdgeGraph 2 ∧ EntriesIn dearEdgeGraph 2 0 INT_MAX ∧
      simulateDVR dearEdgeGraph 1 =
        some { dist := [[0, 10000], [0, 0]], nextHop := [[-1, 1], [0, -1]], updated := false } ∧
      (simulateLSR dearEdgeGraph 0).dist = [0, 9999]) := by
  decide

/-- C5, amended. For every square cost matrix with entries in `0..9999` the loop of
`simulateDVR` ends, and for all `i` and `j` with `j ≠ i`, or with `j = i` and
`graph[i][i] = 0`, the final DVR entry `dist[i][j]` equals `dist[j]` of the array
`simulateLSR` computes with source `i`. -/
theorem dvr_lsr_agree (graph : Matrix) (hsq : Square graph graph.length)
    (hb : EntriesIn graph graph.length 0 9999) :
    (∃ fuel t, simulateDVR graph fuel = some t) ∧
    ∀ fuel t, simulateDVR graph fuel = some t →
      ∀ i < graph.length, ∀ j < graph.length, (j ≠ i ∨ get2 graph i i = 0) →
        get2 t.dist i j = (simulateLSR graph i).dist.getD j 0 := by
  have hb' := entriesIn_mono graph _ 0 9999 0 1073741823 hb (le_refl _) (by norm_num)
  refine ⟨simulateDVR_total graph hsq
      (entriesIn_mono graph _ 0 9999 _ _ hb (by norm_num) (by norm_num)),
    fun fuel t h i hi j hj hcase => ?_⟩
  by_cases hij : i = j
  · subst hij
    have hz : get2 graph i i = 0 := by
      rcases hcase with h1 | h1
      · exact absurd rfl h1
      · exact h1
    have hinv := dvrInv_of_reach graph t hsq hb' (simulateDVR_reach graph fuel t h)
    have h1 := hinv.2.2 i hi i hi
    rw [hz] at h1
    rw [(lsrCost_of_reach graph i _ hi hb (simulateLSR_reach graph i hi)).src_zero]
    exact le_antisymm h1.2 h1.1
  · exact routeDist_unique graph i j _ _ (dvr_routeDist graph fuel t hsq hb h i j hi hj hij)
      (lsr_routeDist graph i j hi hj hb)

set_option maxRecDepth 100000 in
/-- C5, amended, on the four-node line: DVR's `dist[0][3]` and LSR's `dist[3]` from
source 0 agree. -/
theorem dvr_lsr_agree_witness :
    Square lineGraph lineGraph.length ∧ EntriesIn lineGraph lineGraph.length 0 9999 ∧
    (4 : Int) = (simulateLSR lineGraph 0).dist.getD 3 0 :=
  ⟨by decide, by decide,
    (dvr_lsr_agree lineGraph (by decide) (by decide)).2 3
      { dist := [[0, 1, 3, 4], [1, 0, 2, 3], [3, 2, 0, 1], [4, 3, 1, 0]],
        nextHop := [[-1, 1, 1, 1], [0, -1, 2, 2], [1, 1, -1, 3], [2, 2, 2, -1]],
        updated := false }
      (by decide) 0 (by decide) 3 (by decide) (Or.inl (by decide))⟩

/-- C6 (DVR termination). For every square cost matrix of non-negative `int` entries the
`do … while` loop of `simulateDVR` ends after finitely many scans, the last of which
makes no update; on every state of the loop a scan that makes an update lowers the sum of
all `dist` entries, and that sum is bounded below. -/
theorem dvr_terminates (graph : Matrix) (hsq : Square graph graph.length)
    (hb : EntriesIn graph graph.length 0 2147483647) :
    (∃ fuel t, simulateDVR graph fuel = some t ∧ t.updated = false) ∧
    (∀ s, DVRReach graph s → (scan graph.length s).updated = true →
      tableSum (scan graph.length s).dist < tableSum s.dist) ∧
    (∀ s, DVRReach graph s →
      (graph.length : Int) * ((graph.length : Int) * (-2147483648)) ≤ tableSum s.dist) := by
  have hb' := entriesIn_mono graph _ 0 2147483647 (-2147483648) 2147483647 hb (by norm_num)
    (le_refl _)
  refine ⟨?_, fun s hs hu => ?_, fun s hs => ?_⟩
  · obtain ⟨fuel, t, h⟩ := simulateDVR_total graph hsq hb'
    exact ⟨fuel, t, h, (dvrLoop_fixed _ _ _ _ h).1⟩
  · exact scan_decreases _ s (dvr_int32_of_reach graph s hsq hb' hs).1 hu
  · have := dvr_int32_of_reach graph s hsq hb' hs
    exact tableSum_lower _ _ _ this.1 this.2

set_option maxRecDepth 100000 in
/-- C6 on the four-node line: the loop ends, and the first scan lowers the sum. -/
theorem dvr_terminates_witness :
    Square lineGraph lineGraph.length ∧ EntriesIn lineGraph lineGraph.length 0 2147483647 ∧
    (∃ fuel t, simulateDVR lineGraph fuel = some t ∧ t.updated = false) ∧
    tableSum (scan lineGraph.length (dvrInit lineGraph)).dist <
      tableSum (dvrInit lineGraph).dist :=
  ⟨by decide, by decide,
    (dvr_terminates lineGraph (by decide) (by decide)).1,
    (dvr_terminates lineGraph (by decide) (by decide)).2.1 _ DVRReach.init (by decide)⟩

/-! ## Claims C7 – C10 -/

/-- In `wrapLoopGraph` walks that start at node 0 or node 2 never leave those two nodes. -/
theorem wrapLoop_walks (p : List Nat) : ∀ i, (i = 0 ∨ i = 2) → IsWalk wrapLoopGraph i p →
    (walkEnd i p = 0 ∨ walkEnd i p = 2) := by
  induction p with
  | nil => intro i hi _; exact hi
  | cons v p ih =>
    intro i hi hw
    obtain ⟨hv, hg, hw'⟩ := hw
    have hv3 : v < 3 := hv
    have hv1 : v ≠ 1 := by
      rintro rfl
      rcases hi with rfl | rfl <;> exact hg (by decide)
    exact ih v (by omega) hw'

/-- In `isolatedGraph` a walk never leaves the node it starts at. -/
theorem isolated_walks (p : List Nat) : ∀ i < 3, IsWalk isolatedGraph i p → walkEnd i p = i := by
  induction p with
  | nil => intro i _ _; rfl
  | cons v p ih =>
    intro i hi hw
    obtain ⟨hv, hg, hw'⟩ := hw
    have hv3 : v < 3 := hv
    have hvi : v = i := by
      by_contra hne
      interval_cases i <;> interval_cases v <;>
        first | exact hne rfl | exact hg (by decide)
    subst hvi
    exact ih v hv3 hw'

set_option maxRecDepth 100000 in
/-- C7 as stated fails: in `wrapLoopGraph`, whose entries are non-negative `int` values,
no path of direct edges leads from node 0 to node 1, yet `simulateDVR` ends with
`dist[0][1] = -2147473649` and `nextHop[0][1] = 2`, because `2^30 + 2^30` wraps. -/
theorem unreachable_counterexample :
    Square wrapLoopGraph 3 ∧ EntriesIn wrapLoopGraph 3 0 INT_MAX ∧
    (¬ ∃ p, IsPath wrapLoopGraph 0 1 p) ∧
    simulateDVR wrapLoopGraph 2 = some
      { dist := [[-2147483648, -2147473649, -2147473649], [-2147483648, 0, 0],
                 [-2147473649, 9999, 0]],
        nextHop := [[2, 2, 2], [0, -1, 2], [-1, -1, -1]],
        updated := false } := by
  refine ⟨by decide, by decide, ?_, by decide⟩
  rintro ⟨p, hp, he⟩
  rcases wrapLoop_walks p 0 (Or.inl rfl) hp with h | h <;> omega

set_option maxRecDepth 100000 in
/-- C7, amended. For every square cost matrix with entries in `0..1073741823` (so that
no sum of two distances exceeds `INT_MAX`) the loop of `simulateDVR` ends, and for all
`i ≠ j` such that no path of direct edges leads from `i` to `j`, it ends with
`dist[i][j] = 9999` and `nextHop[i][j] = -1`, `simulateLSR` with source `i` ends with
`dist[j] = 9999`, and `printLSRTable` reports next hop `-1` for `j`; on the three-node
matrix without edges both engines give 9999 and `-1` for every off-diagonal pair. -/
theorem unreachable_handling (graph : Matrix) (hsq : Square graph graph.length)
    (hb : EntriesIn graph graph.length 0 1073741823) :
    ((∃ fuel t, simulateDVR graph fuel = some t) ∧
      ∀ fuel t, simulateDVR graph fuel = some t →
        ∀ i < graph.length, ∀ j < graph.length, i ≠ j → (¬ ∃ p, IsPath graph i j p) →
          get2 t.dist i j = INF ∧ get2 t.nextHop i j = -1 ∧
          (simulateLSR graph i).dist.getD j 0 = INF ∧
          ∀ fuel', printLSRTable i (simulateLSR graph i).prev (fuel' + 1) j = some (-1)) ∧
    (simulateDVR isolatedGraph 1 = some
        { dist := [[0, 9999, 9999], [9999, 0, 9999], [9999, 9999, 0]],
          nextHop := [[-1, -1, -1], [-1, -1, -1], [-1, -1, -1]],
          updated := false } ∧
      ∀ i < 3, ∀ j < 3, i ≠ j →
        (simulateLSR isolatedGraph i).dist.getD j 0 = 9999 ∧
        printLSRTable i (simulateLSR isolatedGraph i).prev 1 j = some (-1)) := by
  refine ⟨⟨simulateDVR_total graph hsq
      (entriesIn_mono graph _ 0 1073741823 _ _ hb (by norm_num) (by norm_num)),
    fun fuel t h i hi j hj _ hno => ?_⟩, by decide, by decide⟩
  have hd := dvr_unreachable_of_reach graph t hsq hb (simulateDVR_reach graph fuel t h) i hi j hj
    (fun p _ hp => hno ⟨p, hp⟩)
  have hr := simulateLSR_reach graph i hi
  have hinv := lsrInv_of_reach graph i _ hi hr
  have hl : (simulateLSR graph i).dist.getD j 0 = INF := by
    by_contra hc
    exact hno (lsr_path_of_reach graph i _ hi hr j hj hc)
  exact ⟨hd.1, hd.2, hl, fun fuel' =>
    printLSRTable_none i _ fuel' j ((hinv.prev_none j hj).mpr (Or.inr hl))⟩

set_option maxRecDepth 100000 in
/-- C7, amended, on the three-node matrix without edges, for the pair (0, 1). -/
theorem unreachable_handling_witness :
    Square isolatedGraph isolatedGraph.length ∧
    EntriesIn isolatedGraph isolatedGraph.length 0 1073741823 ∧
    (¬ ∃ p, IsPath isolatedGraph 0 1 p) ∧
    ∀ fuel t, simulateDVR isolatedGraph fuel = some t →
      get2 t.dist 0 1 = INF ∧ get2 t.nextHop 0 1 = -1 ∧
      (simulateLSR isolatedGraph 0).dist.getD 1 0 = INF ∧
      ∀ fuel', printLSRTable 0 (simulateLSR isolatedGraph 0).prev (fuel' + 1) 1 = some (-1) := by
  have hno : ¬ ∃ p, IsPath isolatedGraph 0 1 p := by
    rintro ⟨p, hp, he⟩
    rw [isolated_walks p 0 (by decide) hp] at he
    exact absurd he (by decide)
  exact ⟨by decide, by decide, hno, fun fuel t h =>
    (unreachable_handling isolatedGraph (by decide) (by decide)).1.2 fuel t h
      0 (by decide) 1 (by decide) (by decide) hno⟩

set_option maxRecDepth 100000 in
/-- C8 as stated fails: `wrapPairGraph` has non-negative `int` entries and a zero
diagonal, yet `simulateDVR` ends with `dist[0][0] = -2147483648` and `nextHop[0][0] = 1`,
because `2^30 + 2^30` wraps below zero. -/
theorem self_cost_counterexample :
    Square wrapPairGraph 2 ∧ EntriesIn wrapPairGraph 2 0 INT_MAX ∧ ZeroDiag wrapPairGraph 2 ∧
    simulateDVR wrapPairGraph 2 = some
      { dist := [[-2147483648, -1073741824], [-1073741824, -2147483648]],
        nextHop := [[1, 1], [0, 0]],
        updated := false } := by
  decide

/-- C8, amended. For every square cost matrix with entries in `0..1073741823` (so that no
sum of two distances exceeds `INT_MAX`) whose diagonal entries are all 0, the loop of
`simulateDVR` ends, with `dist[i][i] = 0` and `nextHop[i][i] = -1` for every node `i`. -/
theorem self_cost_identity (graph : Matrix) (hsq : Square graph graph.length)
    (hb : EntriesIn graph graph.length 0 1073741823) (hz : ZeroDiag graph graph.length) :
    (∃ fuel t, simulateDVR graph fuel = some t) ∧
    ∀ fuel t, simulateDVR graph fuel = some t →
      ∀ i < graph.length, get2 t.dist i i = 0 ∧ get2 t.nextHop i i = -1 :=
  ⟨simulateDVR_total graph hsq
      (entriesIn_mono graph _ 0 1073741823 _ _ hb (by norm_num) (by norm_num)),
    fun fuel t h => dvr_diag_of_reach graph t hsq hb hz (simulateDVR_reach graph fuel t h)⟩

set_option maxRecDepth 100000 in
/-- C8, amended, on the four-node line. -/
theorem self_cost_identity_witness :
    Square lineGraph lineGraph.length ∧ EntriesIn lineGraph lineGraph.length 0 1073741823 ∧
    ZeroDiag lineGraph lineGraph.length ∧
    ((∃ fuel t, simulateDVR lineGraph fuel = some t) ∧
      ∀ fuel t, simulateDVR lineGraph fuel = some t →
        ∀ i < lineGraph.length, get2 t.dist i i = 0 ∧ get2 t.nextHop i i = -1) :=
  ⟨by decide, by decide, by decide,
    self_cost_identity lineGraph (by decide) (by decide) (by decide)⟩

/-- C9 (sentinel arithmetic does not overflow). For every square cost matrix with entries
in `0..9999`: in every state of the DVR loop each sum `dist[i][k] + dist[k][j]`, and in
every state of the LSR search each sum `dist[u] + graph[u][v]`, lies in `0..19998`, so
its 32-bit value is the exact sum; when an operand is the sentinel the sum is not below
any table entry and the relaxation step leaves the state unchanged; and
`9999 + 9999` is held as 19998. -/
theorem sentinel_sums_exact (graph : Matrix) (hsq : Square graph graph.length)
    (hb : EntriesIn graph graph.length 0 9999) :
    (∀ s, DVRReach graph s → ∀ i < graph.length, ∀ j < graph.length, ∀ k < graph.length,
      0 ≤ get2 s.dist i k + get2 s.dist k j ∧ get2 s.dist i k + get2 s.dist k j ≤ 19998 ∧
      wrap32 (get2 s.dist i k + get2 s.dist k j) = get2 s.dist i k + get2 s.dist k j ∧
      ((get2 s.dist i k = INF ∨ get2 s.dist k j = INF) →
        (∀ a < graph.length, ∀ b < graph.length,
          ¬ wrap32 (get2 s.dist i k + get2 s.dist k j) < get2 s.dist a b) ∧
        relax i j k s = s)) ∧
    (∀ src < graph.length, ∀ s, LSRReach graph src s →
      ∀ u < graph.length, ∀ v < graph.length,
      0 ≤ s.dist.getD u 0 + get2 graph u v ∧ s.dist.getD u 0 + get2 graph u v ≤ 19998 ∧
      wrap32 (s.dist.getD u 0 + get2 graph u v) = s.dist.getD u 0 + get2 graph u v ∧
      ((s.dist.getD u 0 = INF ∨ get2 graph u v = INF) →
        (∀ w < graph.length, ¬ wrap32 (s.dist.getD u 0 + get2 graph u v) < s.dist.getD w 0) ∧
        relaxEdge graph u s v = s)) ∧
    wrap32 (INF + INF) = 19998 := by
  have hb' := entriesIn_mono graph _ 0 9999 0 1073741823 hb (le_refl _) (by norm_num)
  refine ⟨fun s hs i hi j hj k hk => ?_, fun src hsrc s hs u hu v hv => ?_, by decide⟩
  · have hinv := dvrInv_of_reach graph s hsq hb' hs
    have hex := relax_sum_exact graph s i j k hb' hinv hi hj hk
    have h1 := hinv.2.2 i hi k hk
    have h2 := hinv.2.2 k hk j hj
    have g1 := hb i hi k hk
    have g2 := hb k hk j hj
    refine ⟨by linarith, by linarith, hex, fun hsent => ?_⟩
    have hall : ∀ a < graph.length, ∀ b < graph.length,
        ¬ wrap32 (get2 s.dist i k + get2 s.dist k j) < get2 s.dist a b := by
      intro a ha b hb2
      have h3 := hinv.2.2 a ha b hb2
      have g3 := hb a ha b hb2
      rw [hex, INF_eq] at *
      rcases hsent with h | h <;> rw [h] at * <;> linarith
    refine ⟨hall, ?_⟩
    unfold relax
    rw [if_neg (hall i hi j hj)]
  · have hinv := lsrInv_of_reach graph src s hsrc hs
    have hc := lsrCost_of_reach graph src s hsrc hb hs
    have hex := lsr_sum_exact graph src s u v hb hinv hc hu hv
    have h1 := hc.nonneg u hu
    have h2 := hinv.dist_le u hu
    have g1 := hb u hu v hv
    rw [INF_eq] at h2
    refine ⟨by linarith, by linarith, hex, fun hsent => ?_⟩
    have hall : ∀ w < graph.length,
        ¬ wrap32 (s.dist.getD u 0 + get2 graph u v) < s.dist.getD w 0 := by
      intro w hw
      have h3 := hinv.dist_le w hw
      rw [hex]
      rw [INF_eq] at h3 hsent
      rcases hsent with h | h <;> rw [h] at * <;> linarith
    refine ⟨hall, ?_⟩
    unfold relaxEdge
    split
    · rw [if_neg (hall v hv)]
    · rfl

set_option maxRecDepth 100000 in
/-- C9 on the three-node matrix without edges at the start of both engines: the sum
`dist[0][1] + dist[1][2]` is `9999 + 9999`, held exactly, and relaxes nothing. -/
theorem sentinel_sums_exact_witness :
    Square isolatedGraph isolatedGraph.length ∧
    EntriesIn isolatedGraph isolatedGraph.length 0 9999 ∧
    wrap32 (get2 isolatedGraph 0 1 + get2 isolatedGraph 1 2) = 19998 ∧
    relax 0 2 1 (dvrInit isolatedGraph) = dvrInit isolatedGraph ∧
    relaxEdge isolatedGraph 1 (lsrInit 3 0) 2 = lsrInit 3 0 := by
  have h := sentinel_sums_exact isolatedGraph (by decide) (by decide)
  have h1 := h.1 _ DVRReach.init 0 (by decide) 2 (by decide) 1 (by decide)
  have h2 := h.2.1 0 (by decide) _ LSRReach.init 1 (by decide) 2 (by decide)
  exact ⟨by decide, by decide, h1.2.2.1, (h1.2.2.2 (Or.inl (by decide))).2,
    (h2.2.2.2 (Or.inl (by decide))).2⟩

set_option maxRecDepth 100000 in
/-- C10 (concrete four-node scenario). On the line 0–1–2–3 with costs 1, 2, 1,
`simulateDVR` ends with `dist[0][3] = 4` and `nextHop[0][3] = 1`, and `simulateLSR` with
source 0 ends with `dist[3] = 4` while `printLSRTable` reports next hop 1 for
destination 3. -/
theorem line_scenario :
    simulateDVR lineGraph 3 = some
      { dist := [[0, 1, 3, 4], [1, 0, 2, 3], [3, 2, 0, 1], [4, 3, 1, 0]],
        nextHop := [[-1, 1, 1, 1], [0, -1, 2, 2], [1, 1, -1, 3], [2, 2, 2, -1]],
        updated := false } ∧
    get2 [[0, 1, 3, 4], [1, 0, 2, 3], [3, 2, 0, 1], [4, 3, 1, 0]] 0 3 = 4 ∧
    get2 [[-1, 1, 1, 1], [0, -1, 2, 2], [1, 1, -1, 3], [2, 2, 2, -1]] 0 3 = 1 ∧
    simulateLSR lineGraph 0 =
      { dist := [0, 1, 3, 4], prev := [-1, 0, 1, 2], visited := [true, true, true, true] } ∧
    (simulateLSR lineGraph 0).dist.getD 3 0 = 4 ∧
    printLSRTable 0 (simulateLSR lineGraph 0).prev 3 3 = some 1 := by
  decide

/-! ## Claim C11 -/

/-- When no triple satisfies the relaxation test, a scan only clears the flag. -/
theorem scan_of_fixed (n : Nat) (s : DVRState)
    (h : ∀ i < n, ∀ j < n, ∀ k < n,
      ¬ wrap32 (get2 s.dist i k + get2 s.dist k j) < get2 s.dist i j) :
    scan n s = { s with updated := false } := by
  unfold scan
  refine foldl_fixed _ _ _ (fun i hi => ?_)
  refine foldl_fixed _ _ _ (fun j hj => ?_)
  refine foldl_fixed _ _ _ (fun k hk => ?_)
  unfold relax
  rw [if_neg (h i (List.mem_range.mp hi) j (List.mem_range.mp hj) k (List.mem_range.mp hk))]

/-- C11 (idempotence of DVR convergence). For every square cost matrix of non-negative
`int` entries the loop of `simulateDVR` ends, and one more full relaxation scan applied
to the state it ends with makes no update: the scan returns the same `dist` table, the
same `nextHop` table and `updated = false`. -/
theorem dvr_idempotent (graph : Matrix) (hsq : Square graph graph.length)
    (hb : EntriesIn graph graph.length 0 2147483647) :
    (∃ fuel t, simulateDVR graph fuel = some t) ∧
    ∀ fuel t, simulateDVR graph fuel = some t →
      (scan graph.length t).dist = t.dist ∧ (scan graph.length t).nextHop = t.nextHop ∧
      (scan graph.length t).updated = false ∧ scan graph.length t = t := by
  refine ⟨simulateDVR_total graph hsq
      (entriesIn_mono graph _ 0 2147483647 _ _ hb (by norm_num) (le_refl _)),
    fun fuel t h => ?_⟩
  obtain ⟨hu, hfix⟩ := dvrLoop_fixed _ _ _ _ h
  have e := scan_of_fixed graph.length t hfix
  have et : ({ t with updated := false } : DVRState) = t := by
    cases t
    simp only at hu
    simp [hu]
  rw [e, et]
  exact ⟨rfl, rfl, hu, rfl⟩

set_option maxRecDepth 100000 in
/-- C11 on the four-node line: a further scan of the final tables changes nothing. -/
theorem dvr_idempotent_witness :
    Square lineGraph lineGraph.length ∧ EntriesIn lineGraph lineGraph.length 0 2147483647 ∧
    scan lineGraph.length
      { dist := [[0, 1, 3, 4], [1, 0, 2, 3], [3, 2, 0, 1], [4, 3, 1, 0]],
        nextHop := [[-1, 1, 1, 1], [0, -1, 2, 2], [1, 1, -1, 3], [2, 2, 2, -1]],
        updated := false } =
      { dist := [[0, 1, 3, 4], [1, 0, 2, 3], [3, 2, 0, 1], [4, 3, 1, 0]],
        nextHop := [[-1, 1, 1, 1], [0, -1, 2, 2], [1, 1, -1, 3], [2, 2, 2, -1]],
        updated := false } :=
  ⟨by decide, by decide,
    ((dvr_idempotent lineGraph (by decide) (by decide)).2 3 _ (by decide)).2.2.2⟩

/-! ## Claim C12 -/

/-- In the final DVR tables, for `i ≠ j` with a distance below the sentinel, the next hop
`h` is a neighbour of `i` with `graph[i][h] + dist[h][j] = dist[i][j]`. -/
theorem dvr_hop_step (graph : Matrix) (fuel : Nat) (t : DVRState)
    (hsq : Square graph graph.length) (hb : EntriesIn graph graph.length 0 9999)
    (hz : ZeroDiag graph graph.length) (h : simulateDVR graph fuel = some t)
    (i j : Nat) (hi : i < graph.length) (hj : j < graph.length) (hne : i ≠ j)
    (hlt : get2 t.dist i j < INF) :
    ∃ x : Nat, get2 t.nextHop i j = (x : Int) ∧ x < graph.length ∧ x ≠ i ∧
      get2 graph i x ≠ INF ∧ get2 graph i x + get2 t.dist x j = get2 t.dist i j := by
  have hb' := entriesIn_mono graph _ 0 9999 0 1073741823 hb (le_refl _) (by norm_num)
  have hreach := simulateDVR_reach graph fuel t h
  have hinv := dvrInv_of_reach graph t hsq hb' hreach
  obtain ⟨x, hx, hxn, hxi, hg, p, hp, hc⟩ :=
    (dvr_paths_of_reach graph t hsq hb hreach).2 i hi j hj hne hlt
  have hxj : get2 t.dist x j ≤ walkCost graph x p := by
    by_cases hp0 : p = []
    · subst hp0
      have hxe : x = j := hp.2
      rw [hxe, (dvr_diag_of_reach graph t hsq hb' hz hreach j hj).1]
      exact le_refl _
    · have := dvr_le_walk graph fuel t hsq hb' h p x hxn hp0 hp.1
      rw [hp.2] at this; exact this
  have htri := simulateDVR_triangle graph fuel t hsq hb' h i j x hi hj hxn
  have hix := (hinv.2.2 i hi x hxn).2
  exact ⟨x, hx, hxn, hxi, hg, by linarith⟩

theorem forwardTrail_length (nextHop : Matrix) (j fuel : Nat) :
    ∀ x, (forwardTrail nextHop j fuel x).length ≤ fuel + 1 := by
  induction fuel with
  | zero => intro x; simp [forwardTrail]
  | succ fuel ih =>
    intro x
    simp only [forwardTrail]
    split
    · simp
    · simp only [List.length_cons]
      exact Nat.succ_le_succ (ih _)

theorem walkEnd_mem (x : Nat) (p : List Nat) : walkEnd x p ∈ x :: p := by
  induction p generalizing x with
  | nil => simp [walkEnd]
  | cons v p ih =>
    simp only [walkEnd]
    exact List.mem_cons_of_mem _ (ih v)

/-- The part of a forwarding trail from any of its nodes on is a forwarding trail with the
same end. -/
theorem forwards_suffix (nextHop : Matrix) (j : Nat) (a : List Nat) :
    ∀ x p h b, Forwards nextHop j x p → x :: p = a ++ h :: b →
      Forwards nextHop j h b ∧ walkEnd h b = walkEnd x p := by
  induction a with
  | nil =>
    intro x p h b hf he
    simp only [List.nil_append] at he
    obtain ⟨rfl, rfl⟩ := List.cons.inj he
    exact ⟨hf, rfl⟩
  | cons y a ih =>
    intro x p h b hf he
    simp only [List.cons_append] at he
    obtain ⟨_, hp⟩ := List.cons.inj he
    cases p with
    | nil => exact absurd hp (by simp)
    | cons v p =>
      obtain ⟨_, _, hf'⟩ := hf
      exact ih v p h b hf' hp

theorem forwards_snoc (nextHop : Matrix) (j : Nat) (p : List Nat) :
    ∀ (x h : Nat), Forwards nextHop j x p → get2 nextHop (walkEnd x p) j = (h : Int) →
      walkEnd x p ≠ j → Forwards nextHop j x (p ++ [h]) := by
  induction p with
  | nil => intro x h _ hn hne; exact ⟨hn, hne, trivial⟩
  | cons v p ih =>
    intro x h hf hn hne
    obtain ⟨h1, h2, h3⟩ := hf
    exact ⟨h1, h2, ih v h h3 hn hne⟩

/-- Along a forwarding trail with the final tables every step is a direct edge, and the
cost of the trail plus the distance left at its end is the distance at its start. -/
theorem forwards_facts (graph : Matrix) (fuel : Nat) (t : DVRState)
    (hsq : Square graph graph.length) (hb : EntriesIn graph graph.length 0 9999)
    (hz : ZeroDiag graph graph.length) (h : simulateDVR graph fuel = some t)
    (j : Nat) (hj : j < graph.length) (p : List Nat) :
    ∀ x < graph.length, get2 t.dist x j < INF → Forwards t.nextHop j x p →
      IsWalk graph x p ∧ walkEnd x p < graph.length ∧ get2 t.dist (walkEnd x p) j < INF ∧
      walkCost graph x p + get2 t.dist (walkEnd x p) j = get2 t.dist x j := by
  induction p with
  | nil =>
    intro x hx hlt _
    exact ⟨trivial, hx, hlt, by simp [walkCost, walkEnd]⟩
  | cons v p ih =>
    intro x hx hlt hf
    obtain ⟨hn, hxj, hf'⟩ := hf
    obtain ⟨y, hy, hyn, _, hg, hsum⟩ := dvr_hop_step graph fuel t hsq hb hz h x j hx hj hxj hlt
    rw [hn] at hy
    have hvy : v = y := by exact_mod_cast hy
    subst hvy
    have hgn := (hb x hx v hyn).1
    have hvlt : get2 t.dist v j < INF := by linarith
    obtain ⟨h1, h2, h3, h4⟩ := ih v hyn hvlt hf'
    refine ⟨⟨hyn, hg, h1⟩, h2, h3, ?_⟩
    simp only [walkCost, walkEnd]
    linarith

/-- A list of `n` or more pairwise different nodes contains every node. -/
theorem mem_of_nodup_full (l : List Nat) (n : Nat) (hnd : l.Nodup) (hlt : ∀ y ∈ l, y < n)
    (hlen : n ≤ l.length) : ∀ m < n, m ∈ l := by
  have hsub : l ⊆ List.range n := fun y hy => List.mem_range.mpr (hlt y hy)
  have hsp : l.Subperm (List.range n) := List.subperm_of_subset hnd hsub
  have hperm : l.Perm (List.range n) :=
    hsp.perm_of_length_le (by rw [List.length_range]; exact hlen)
  intro m hm
  exact hperm.mem_iff.mpr (List.mem_range.mpr hm)


theorem isWalk_mem_lt (g : Matrix) (p : List Nat) :
    ∀ x, IsWalk g x p → ∀ y ∈ p, y < g.length := by
  induction p with
  | nil => intro x _ y hy; simp at hy
  | cons v p ih =>
    intro x hw y hy
    rcases List.mem_cons.mp hy with h | h
    · rw [h]; exact hw.1
    · exact ih v hw.2.2 y h

/-- A forwarding trail that contains the destination ends there. -/
theorem forwards_end_of_mem (nextHop : Matrix) (j : Nat) (p : List Nat) :
    ∀ x, Forwards nextHop j x p → j ∈ x :: p → walkEnd x p = j := by
  induction p with
  | nil =>
    intro x _ hm
    simp only [List.mem_singleton] at hm
    exact hm.symm
  | cons v p ih =>
    intro x hf hm
    obtain ⟨_, hxj, hf'⟩ := hf
    rcases List.mem_cons.mp hm with h | h
    · exact absurd h.symm hxj
    · exact ih v hf' h

/-- Without a zero-cost cycle the next hop of the last node of a forwarding trail is a node
the trail has not visited: a revisit would close a cycle of total cost 0. -/
theorem forward_fresh (graph : Matrix) (fuel : Nat) (t : DVRState)
    (hsq : Square graph graph.length) (hb : EntriesIn graph graph.length 0 9999)
    (hz : ZeroDiag graph graph.length) (hnz : NoZeroCycle graph)
    (h : simulateDVR graph fuel = some t)
    (j : Nat) (hj : j < graph.length) (x0 : Nat) (hx0 : x0 < graph.length)
    (hlt : get2 t.dist x0 j < INF) (l : List Nat) (hf : Forwards t.nextHop j x0 l)
    (hnd : (x0 :: l).Nodup) (hne : walkEnd x0 l ≠ j) :
    ∃ y : Nat, get2 t.nextHop (walkEnd x0 l) j = (y : Int) ∧ y < graph.length ∧
      y ≠ walkEnd x0 l ∧ y ∉ x0 :: l := by
  obtain ⟨_, hxn, hxlt, hxc⟩ := forwards_facts graph fuel t hsq hb hz h j hj l x0 hx0 hlt hf
  obtain ⟨y, hy, hyn, hyx, hg, hsum⟩ :=
    dvr_hop_step graph fuel t hsq hb hz h (walkEnd x0 l) j hxn hj hne hxlt
  refine ⟨y, hy, hyn, hyx, fun hmem => ?_⟩
  obtain ⟨a, b, hab⟩ := List.append_of_mem hmem
  obtain ⟨hfb, hend⟩ := forwards_suffix t.nextHop j a x0 l y b hf hab
  have hg0 := (hb (walkEnd x0 l) hxn y hyn).1
  have hylt : get2 t.dist y j < INF := by linarith
  obtain ⟨hwb, _, _, hbc⟩ := forwards_facts graph fuel t hsq hb hz h j hj b y hyn hylt hfb
  have hb0 : b ≠ [] := by
    intro hb0
    rw [hb0] at hend
    exact hyx hend
  have hwalk : IsWalk graph y (b ++ [y]) := by
    refine isWalk_append graph y b [y] hwb ?_
    rw [hend]
    exact ⟨hyn, hg, trivial⟩
  have hnd' : (y :: b).Nodup := by
    rw [hab] at hnd
    exact (List.nodup_append.mp hnd).2.1
  have hpos := hnz y hyn b hb0 hwalk hnd'
  rw [walkCost_append, hend] at hpos
  rw [hend] at hbc
  simp only [walkCost] at hpos
  linarith

/-- Forwarding on from the end of a loop-free forwarding trail reaches the destination
within the nodes that are left, visiting only new nodes. -/
theorem forward_run (graph : Matrix) (fuel0 : Nat) (t : DVRState)
    (hsq : Square graph graph.length) (hb : EntriesIn graph graph.length 0 9999)
    (hz : ZeroDiag graph graph.length) (hnz : NoZeroCycle graph)
    (h : simulateDVR graph fuel0 = some t)
    (j : Nat) (hj : j < graph.length) (x0 : Nat) (hx0 : x0 < graph.length)
    (hlt : get2 t.dist x0 j < INF) (fuel : Nat) :
    ∀ l : List Nat, Forwards t.nextHop j x0 l → (x0 :: l).Nodup →
      graph.length ≤ l.length + 1 + fuel →
      (forwardTrail t.nextHop j fuel ((walkEnd x0 l : Nat) : Int)).getLast? = some (j : Int) ∧
      (forwardTrail t.nextHop j fuel ((walkEnd x0 l : Nat) : Int)).Nodup ∧
      ∀ y ∈ forwardTrail t.nextHop j fuel ((walkEnd x0 l : Nat) : Int),
        ∃ m : Nat, y = (m : Int) ∧ m < graph.length ∧ (m = walkEnd x0 l ∨ m ∉ x0 :: l) := by
  induction fuel with
  | zero =>
    intro l hf hnd hlen
    obtain ⟨hw, hxn, _, _⟩ := forwards_facts graph fuel0 t hsq hb hz h j hj l x0 hx0 hlt hf
    have hall : ∀ y ∈ x0 :: l, y < graph.length := by
      intro y hy
      rcases List.mem_cons.mp hy with h1 | h1
      · rw [h1]; exact hx0
      · exact isWalk_mem_lt graph l x0 hw y h1
    have hjm := mem_of_nodup_full (x0 :: l) graph.length hnd hall
      (by simp only [List.length_cons]; omega) j hj
    have hend := forwards_end_of_mem t.nextHop j l x0 hf hjm
    simp only [forwardTrail]
    refine ⟨by rw [hend]; rfl, List.nodup_singleton _, ?_⟩
    intro y hy
    exact ⟨walkEnd x0 l, List.mem_singleton.mp hy, hxn, Or.inl rfl⟩
  | succ fuel ih =>
    intro l hf hnd hlen
    obtain ⟨hw, hxn, _, _⟩ := forwards_facts graph fuel0 t hsq hb hz h j hj l x0 hx0 hlt hf
    by_cases hxj : walkEnd x0 l = j
    · have hc : ((walkEnd x0 l : Nat) : Int) = (j : Int) ∨ ((walkEnd x0 l : Nat) : Int) = -1 :=
        Or.inl (by rw [hxj])
      simp only [forwardTrail, if_pos hc]
      refine ⟨by rw [hxj]; rfl, List.nodup_singleton _, ?_⟩
      intro y hy
      exact ⟨walkEnd x0 l, List.mem_singleton.mp hy, hxn, Or.inl rfl⟩
    · have hc : ¬ (((walkEnd x0 l : Nat) : Int) = (j : Int) ∨
          ((walkEnd x0 l : Nat) : Int) = -1) := by
        intro hc
        rcases hc with h1 | h1
        · exact hxj (by exact_mod_cast h1)
        · exact natCast_ne_neg_one _ h1
      obtain ⟨y, hy, hyn, hyx, hfresh⟩ :=
        forward_fresh graph fuel0 t hsq hb hz hnz h j hj x0 hx0 hlt l hf hnd hxj
      have hf' := forwards_snoc t.nextHop j l x0 y hf hy hxj
      have hnd' : (x0 :: (l ++ [y])).Nodup := by
        rw [← List.cons_append]
        refine List.nodup_append.mpr ⟨hnd, List.nodup_singleton _, ?_⟩
        intro a ha hb'
        rw [List.mem_singleton.mp hb'] at ha
        exact hfresh ha
      have hlen' : graph.length ≤ (l ++ [y]).length + 1 + fuel := by
        simp only [List.length_append, List.length_singleton]; omega
      have hend : walkEnd x0 (l ++ [y]) = y := by rw [walkEnd_append]; rfl
      obtain ⟨h1, h2, h3⟩ := ih (l ++ [y]) hf' hnd' hlen'
      rw [hend] at h1 h2 h3
      simp only [forwardTrail, if_neg hc, Int.toNat_ofNat, hy]
      refine ⟨?_, ?_, ?_⟩
      · cases hl : forwardTrail t.nextHop j fuel (y : Int) with
        | nil => rw [hl] at h1; simp at h1
        | cons a as => rw [hl] at h1; rw [List.getLast?_cons_cons]; exact h1
      · refine List.nodup_cons.mpr ⟨fun hmem => ?_, h2⟩
        obtain ⟨m, hm, _, hm2⟩ := h3 _ hmem
        have hmx : walkEnd x0 l = m := by exact_mod_cast hm
        rcases hm2 with h4 | h4
        · exact hyx (by rw [← h4, hmx])
        · apply h4
          rw [← hmx, ← List.cons_append]
          exact List.mem_append_left _ (walkEnd_mem x0 l)
      · intro z hz'
        rcases List.mem_cons.mp hz' with h4 | h4
        · exact ⟨walkEnd x0 l, h4, hxn, Or.inl rfl⟩
        · obtain ⟨m, hm, hmn, hm2⟩ := h3 z h4
          refine ⟨m, hm, hmn, Or.inr ?_⟩
          rcases hm2 with h5 | h5
          · rw [h5]; exact hfresh
          · intro h6
            apply h5
            rw [← List.cons_append]
            exact List.mem_append_left _ h6

theorem zeroLink_trail (fuel : Nat) : ∀ x : Int, (x = 0 ∨ x = 1) →
    ∀ y ∈ forwardTrail zeroLinkHops 3 fuel x, y = 0 ∨ y = 1 := by
  induction fuel with
  | zero =>
    intro x hx y hy
    simp only [forwardTrail, List.mem_singleton] at hy
    rw [hy]; exact hx
  | succ fuel ih =>
    intro x hx y hy
    simp only [forwardTrail] at hy
    split at hy
    · rw [List.mem_singleton.mp hy]; exact hx
    · rcases List.mem_cons.mp hy with h | h
      · rw [h]; exact hx
      · refine ih _ ?_ y h
        rcases hx with rfl | rfl
        · exact Or.inr (by decide)
        · exact Or.inl (by decide)

/-- In `zeroEdgeGraph` the only zero-cost link is 0 → 1 and every way back from 1 costs at
least 1, so no cycle has total cost 0. -/
theorem zeroEdge_noZeroCycle : NoZeroCycle zeroEdgeGraph := by
  intro x hx p hp hw hnd
  have hnn : ∀ a < zeroEdgeGraph.length, ∀ b < zeroEdgeGraph.length,
      0 ≤ get2 zeroEdgeGraph a b := by decide
  have hzero : ∀ a : Nat, a < 3 → ∀ b : Nat, b < 3 → (a = b ∨ get2 zeroEdgeGraph a b = INF ∨
      get2 zeroEdgeGraph a b ≠ 0 ∨ (a = 0 ∧ b = 1)) := by decide
  have hone : ∀ b < 3, 1 ≠ b → 0 < get2 zeroEdgeGraph 1 b := by decide
  cases p with
  | nil => exact absurd rfl hp
  | cons v q =>
    obtain ⟨hv, hg, hw'⟩ := hw
    have hxv : x ≠ v := by
      intro h
      rw [h] at hnd
      exact (List.nodup_cons.mp hnd).1 (List.mem_cons_self _ _)
    have hrest := walkCost_nonneg zeroEdgeGraph v (q ++ [x]) hv hnn hw'
    have hge := hnn x hx v hv
    show 0 < get2 zeroEdgeGraph x v + walkCost zeroEdgeGraph v (q ++ [x])
    by_cases h0 : get2 zeroEdgeGraph x v = 0
    · obtain ⟨rfl, rfl⟩ : x = 0 ∧ v = 1 := by
        rcases hzero x hx v hv with h1 | h1 | h1 | h1
        · exact absurd h1 hxv
        · exact absurd h1 hg
        · exact absurd h0 h1
        · exact h1
      rw [h0, zero_add]
      cases q with
      | nil =>
        show 0 < get2 zeroEdgeGraph 1 0 + 0
        decide
      | cons w r =>
        obtain ⟨hw1, _, hw2⟩ := hw'
        have h1w : 1 ≠ w := by
          intro h
          rw [← h] at hnd
          exact (List.nodup_cons.mp (List.nodup_cons.mp hnd).2).1 (List.mem_cons_self _ _)
        have hr := walkCost_nonneg zeroEdgeGraph w (r ++ [0]) hw1 hnn hw2
        have := hone w hw1 h1w
        show 0 < get2 zeroEdgeGraph 1 w + walkCost zeroEdgeGraph w (r ++ [0])
        linarith
    · have : 0 < get2 zeroEdgeGraph x v := lt_of_le_of_ne hge (Ne.symm h0)
      linarith

set_option maxRecDepth 100000 in
/-- C12 as stated fails: the claim's domain allows zero-cost links, and a zero-cost cycle
makes distance-vector forwarding loop. In `zeroLinkGraph` (entries in 0..9999, zero
diagonal) nodes 0 and 1 are joined by zero-cost links in both directions, which is a cycle
of total cost 0; the final tables have `dist[0][3] = 2 < INF`, yet `nextHop[0][3] = 1`
and `nextHop[1][3] = 0`, so forwarding from 0 toward 3 alternates 0, 1, 0, 1, ... and never
reaches 3, whatever the number of hops. -/
theorem dvr_forwarding_counterexample :
    Square zeroLinkGraph 4 ∧ EntriesIn zeroLinkGraph 4 0 9999 ∧ ZeroDiag zeroLinkGraph 4 ∧
    ¬ NoZeroCycle zeroLinkGraph ∧
    simulateDVR zeroLinkGraph 2 = some
      { dist := [[0, 0, 1, 2], [0, 0, 1, 2], [9999, 9999, 0, 1], [9999, 9999, 9999, 0]],
        nextHop := zeroLinkHops, updated := false } ∧
    forwardTrail zeroLinkHops 3 3 0 = [0, 1, 0, 1] ∧
    ∀ fuel, (3 : Int) ∉ forwardTrail zeroLinkHops 3 fuel 0 := by
  refine ⟨by decide, by decide, by decide, fun hnz => ?_, by decide, by decide,
    fun fuel hmem => ?_⟩
  · exact absurd (hnz 0 (by decide) [1] (by decide) (by decide) (by decide)) (by decide)
  · rcases zeroLink_trail fuel 0 (Or.inl rfl) 3 hmem with h | h <;> omega

/-- C12, amended: for an `n × n` cost matrix with entries in 0..9999 and a zero diagonal in
which no cycle of direct edges through two or more different nodes has total cost 0,
`simulateDVR` returns, and for all `i ≠ j` with final `dist[i][j] < INF` forwarding hop by
hop with the final tables (`x0 = i`, then `nextHop[x][j]` from each node `x`) reaches `j`
after at most `n - 1` hops, never meets the entry -1 and never visits a node twice. -/
theorem dvr_forwarding_loop_free (graph : Matrix)
    (hsq : Square graph graph.length) (hb : EntriesIn graph graph.length 0 9999)
    (hz : ZeroDiag graph graph.length) (hnz : NoZeroCycle graph) :
    (∃ fuel t, simulateDVR graph fuel = some t) ∧
    ∀ fuel t, simulateDVR graph fuel = some t →
      ∀ i < graph.length, ∀ j < graph.length, i ≠ j → get2 t.dist i j < INF →
        (forwardTrail t.nextHop j (graph.length - 1) (i : Int)).getLast? = some (j : Int) ∧
        (forwardTrail t.nextHop j (graph.length - 1) (i : Int)).length ≤ graph.length ∧
        (-1 : Int) ∉ forwardTrail t.nextHop j (graph.length - 1) (i : Int) ∧
        (forwardTrail t.nextHop j (graph.length - 1) (i : Int)).Nodup ∧
        ∀ y ∈ forwardTrail t.nextHop j (graph.length - 1) (i : Int),
          ∃ m : Nat, y = (m : Int) ∧ m < graph.length := by
  refine ⟨simulateDVR_total graph hsq
    (entriesIn_mono graph _ 0 9999 _ _ hb (by norm_num) (by norm_num)), ?_⟩
  intro fuel t h i hi j hj hne hlt
  obtain ⟨h1, h2, h3⟩ := forward_run graph fuel t hsq hb hz hnz h j hj i hi hlt
    (graph.length - 1) [] trivial (List.nodup_singleton _)
    (by simp only [List.length_nil]; omega)
  refine ⟨h1, ?_, ?_, h2, ?_⟩
  · have := forwardTrail_length t.nextHop j (graph.length - 1) (i : Int)
    omega
  · intro hmem
    obtain ⟨m, hm, _, _⟩ := h3 _ hmem
    exact natCast_ne_neg_one m hm.symm
  · intro y hy
    obtain ⟨m, hm, hmn, _⟩ := h3 y hy
    exact ⟨m, hm, hmn⟩

set_option maxRecDepth 100000 in
/-- Witness for C12 on `zeroEdgeGraph`, which has a zero-cost link 0 → 1 but no zero-cost
cycle: the run returns and forwarding from 0 toward 2 visits 0, 1, 2. -/
theorem dvr_forwarding_loop_free_witness :
    (Square zeroEdgeGraph zeroEdgeGraph.length ∧
      EntriesIn zeroEdgeGraph zeroEdgeGraph.length 0 9999 ∧
      ZeroDiag zeroEdgeGraph zeroEdgeGraph.length ∧ NoZeroCycle zeroEdgeGraph ∧
      get2 zeroEdgeGraph 0 1 = 0) ∧
    simulateDVR zeroEdgeGraph 2 = some
      { dist := [[0, 0, 1], [7, 0, 1], [9999, 9999, 0]],
        nextHop := [[-1, 1, 1], [0, -1, 2], [-1, -1, -1]], updated := false } ∧
    forwardTrail [[-1, 1, 1], [0, -1, 2], [-1, -1, -1]] 2 2 0 = [0, 1, 2] ∧
    ((∃ fuel t, simulateDVR zeroEdgeGraph fuel = some t) ∧
    ∀ fuel t, simulateDVR zeroEdgeGraph fuel = some t →
      ∀ i < zeroEdgeGraph.length, ∀ j < zeroEdgeGraph.length, i ≠ j →
        get2 t.dist i j < INF →
        (forwardTrail t.nextHop j (zeroEdgeGraph.length - 1) (i : Int)).getLast?
          = some (j : Int) ∧
        (forwardTrail t.nextHop j (zeroEdgeGraph.length - 1) (i : Int)).length
          ≤ zeroEdgeGraph.length ∧
        (-1 : Int) ∉ forwardTrail t.nextHop j (zeroEdgeGraph.length - 1) (i : Int) ∧
        (forwardTrail t.nextHop j (zeroEdgeGraph.length - 1) (i : Int)).Nodup ∧
        ∀ y ∈ forwardTrail t.nextHop j (zeroEdgeGraph.length - 1) (i : Int),
          ∃ m : Nat, y = (m : Int) ∧ m < zeroEdgeGraph.length) :=
  ⟨⟨by decide, by decide, by decide, zeroEdge_noZeroCycle, by decide⟩, by decide, by decide,
    dvr_forwarding_loop_free zeroEdgeGraph (by decide) (by decide) (by decide)
      zeroEdge_noZeroCycle⟩

/-! ## Claim C13 -/

/-- An update of cell `(i, j)` happens off the diagonal, through a `k ≠ i` whose
distance from `i` is below the sentinel. -/
theorem dvr_update_facts (graph : Matrix) (s : DVRState) (i j k : Nat)
    (hsq : Square graph graph.length) (hb : EntriesIn graph graph.length 0 9999)
    (hz : ZeroDiag graph graph.length) (hs : DVRReach graph s)
    (hi : i < graph.length) (hj : j < graph.length) (hk : k < graph.length)
    (hlt : wrap32 (get2 s.dist i k + get2 s.dist k j) < get2 s.dist i j) :
    i ≠ j ∧ i ≠ k ∧ get2 s.dist i k < INF ∧
      get2 s.dist i k + get2 s.dist k j < INF := by
  have hb' := entriesIn_mono graph _ 0 9999 0 1073741823 hb (le_refl _) (by norm_num)
  have hinv := dvrInv_of_reach graph s hsq hb' hs
  have hd := dvr_diag_of_reach graph s hsq hb' hz hs
  rw [relax_sum_exact graph s i j k hb' hinv hi hj hk] at hlt
  have h1 := hinv.2.2 i hi k hk
  have h2 := hinv.2.2 k hk j hj
  have h3 := hinv.2.2 i hi j hj
  have g3 := hb i hi j hj
  refine ⟨?_, ?_, ?_, ?_⟩
  · rintro rfl
    have := (hd i hi).1
    linarith
  · rintro rfl
    have := (hd i hi).1
    linarith
  · rw [INF_eq]; linarith
  · rw [INF_eq]; linarith

/-- While the loop runs, `nextHop[i][j]` is `-1` exactly on the diagonal and where
`dist[i][j]` is the sentinel. -/
theorem dvr_consistent_of_reach (graph : Matrix) (s : DVRState)
    (hsq : Square graph graph.length) (hb : EntriesIn graph graph.length 0 9999)
    (hz : ZeroDiag graph graph.length) (hs : DVRReach graph s) :
    ∀ i < graph.length, ∀ j < graph.length,
      (get2 s.nextHop i j = -1 ↔ (i = j ∨ get2 s.dist i j = INF)) := by
  have hb' := entriesIn_mono graph _ 0 9999 0 1073741823 hb (le_refl _) (by norm_num)
  induction hs with
  | init =>
    intro i hi j hj
    show get2 (initNextHop graph graph.length) i j = -1 ↔ (i = j ∨ get2 graph i j = INF)
    rw [get2_initNextHop _ _ _ _ hi hj]
    by_cases hc : get2 graph i j ≠ INF ∧ i ≠ j
    · rw [if_pos hc]
      constructor
      · intro h; exact absurd h (natCast_ne_neg_one j)
      · rintro (h | h)
        · exact absurd h hc.2
        · exact absurd h hc.1
    · rw [if_neg hc]
      refine ⟨fun _ => ?_, fun _ => rfl⟩
      by_cases hij : i = j
      · exact Or.inl hij
      · exact Or.inr (by_contra fun hg => hc ⟨hg, hij⟩)
  | clear s _ ih => exact ih
  | step s i j k hs' hi hj hk ih =>
    have hinv := dvrInv_of_reach graph s hsq hb' hs'
    intro a ha b hb2
    unfold relax
    split
    · rename_i hlt
      obtain ⟨hij, hik, hdik, hsum⟩ :=
        dvr_update_facts graph s i j k hsq hb hz hs' hi hj hk hlt
      simp only
      rw [get2_set2 _ _ _ _ _ _ _ hinv.1 hi hj, get2_set2 _ _ _ _ _ _ _ hinv.2.1 hi hj]
      by_cases hab : a = i ∧ b = j
      · rw [if_pos hab, if_pos hab, relax_sum_exact graph s i j k hb' hinv hi hj hk]
        obtain ⟨rfl, rfl⟩ := hab
        constructor
        · intro h
          rcases (ih a hi k hk).mp h with h1 | h1
          · exact absurd h1 hik
          · rw [h1] at hdik; exact absurd hdik (lt_irrefl _)
        · rintro (h | h)
          · exact absurd h hij
          · rw [h] at hsum; exact absurd hsum (lt_irrefl _)
      · rw [if_neg hab, if_neg hab]
        exact ih a ha b hb2
    · exact ih a ha b hb2

/-- C13 (DVR table consistency). For every square cost matrix with entries in `0..9999`
and zero diagonal, in every state of the loop of `simulateDVR` (after initialisation and
after every single relaxation update, hence also at the end), for all `i`, `j`:
`nextHop[i][j] = -1` if and only if `i = j` or `dist[i][j] = 9999`; and every update that
lowers `dist[i][j]` stores in `nextHop[i][j]` a value different from `-1`. -/
theorem dvr_tables_consistent (graph : Matrix) (hsq : Square graph graph.length)
    (hb : EntriesIn graph graph.length 0 9999) (hz : ZeroDiag graph graph.length) :
    (∀ s, DVRReach graph s → ∀ i < graph.length, ∀ j < graph.length,
      (get2 s.nextHop i j = -1 ↔ (i = j ∨ get2 s.dist i j = INF))) ∧
    (∀ s, DVRReach graph s → ∀ i < graph.length, ∀ j < graph.length, ∀ k < graph.length,
      wrap32 (get2 s.dist i k + get2 s.dist k j) < get2 s.dist i j →
        get2 (relax i j k s).dist i j < get2 s.dist i j ∧
        get2 (relax i j k s).nextHop i j = get2 s.nextHop i k ∧
        get2 (relax i j k s).nextHop i j ≠ -1) ∧
    (∃ fuel t, simulateDVR graph fuel = some t) ∧
    (∀ fuel t, simulateDVR graph fuel = some t → ∀ i < graph.length, ∀ j < graph.length,
      (get2 t.nextHop i j = -1 ↔ (i = j ∨ get2 t.dist i j = INF))) := by
  have hb' := entriesIn_mono graph _ 0 9999 0 1073741823 hb (le_refl _) (by norm_num)
  refine ⟨fun s hs => dvr_consistent_of_reach graph s hsq hb hz hs,
    fun s hs i hi j hj k hk hlt => ?_,
    simulateDVR_total graph hsq
      (entriesIn_mono graph _ 0 9999 _ _ hb (by norm_num) (by norm_num)),
    fun fuel t h => dvr_consistent_of_reach graph t hsq hb hz (simulateDVR_reach graph fuel t h)⟩
  have hinv := dvrInv_of_reach graph s hsq hb' hs
  obtain ⟨_, hik, hdik, _⟩ := dvr_update_facts graph s i j k hsq hb hz hs hi hj hk hlt
  have hne : get2 s.nextHop i k ≠ -1 := by
    intro h
    rcases (dvr_consistent_of_reach graph s hsq hb hz hs i hi k hk).mp h with h1 | h1
    · exact hik h1
    · rw [h1] at hdik; exact lt_irrefl _ hdik
  have e : relax i j k s =
      { dist := set2 s.dist i j (wrap32 (get2 s.dist i k + get2 s.dist k j)),
        nextHop := set2 s.nextHop i j (get2 s.nextHop i k), updated := true } := by
    unfold relax; rw [if_pos hlt]
  rw [e]
  simp only
  rw [get2_set2 _ _ _ _ _ _ _ hinv.1 hi hj, get2_set2 _ _ _ _ _ _ _ hinv.2.1 hi hj,
    if_pos ⟨rfl, rfl⟩, if_pos ⟨rfl, rfl⟩]
  exact ⟨hlt, rfl, hne⟩

set_option maxRecDepth 100000 in
/-- C13 on the four-node line, for the first update of the first scan (cell (0, 2)
through node 1). -/
theorem dvr_tables_consistent_witness :
    Square lineGraph lineGraph.length ∧ EntriesIn lineGraph lineGraph.length 0 9999 ∧
    ZeroDiag lineGraph lineGraph.length ∧
    wrap32 (get2 (dvrInit lineGraph).dist 0 1 + get2 (dvrInit lineGraph).dist 1 2) <
      get2 (dvrInit lineGraph).dist 0 2 ∧
    get2 (relax 0 2 1 (dvrInit lineGraph)).nextHop 0 2 ≠ -1 ∧
    (get2 (dvrInit lineGraph).nextHop 0 3 = -1 ↔
      ((0 : Nat) = 3 ∨ get2 (dvrInit lineGraph).dist 0 3 = INF)) := by
  have h := dvr_tables_consistent lineGraph (by decide) (by decide) (by decide)
  exact ⟨by decide, by decide, by decide, by decide,
    (h.2.1 _ DVRReach.init 0 (by decide) 2 (by decide) 1 (by decide) (by decide)).2.2,
    h.1 _ DVRReach.init 0 (by decide) 3 (by decide)⟩

/-! ## Claim C14 -/

theorem getD_eq_getElem_of_lt {α : Type} (l : List α) (i : Nat) (d : α) (h : i < l.length) :
    l.getD i d = l[i] := by
  rw [List.getD_eq_getElem?_getD, List.getElem?_eq_getElem h]; rfl

/-- Two `n × n` tables with the same cells are the same table. -/
theorem matrix_ext (a b : Matrix) (n : Nat) (ha : Square a n) (hb : Square b n)
    (h : ∀ i < n, ∀ j < n, get2 a i j = get2 b i j) : a = b := by
  apply List.ext_getElem (by rw [ha.1, hb.1])
  intro i h1 h2
  have hi : i < n := by rw [← ha.1]; exact h1
  have la := ha.2 i hi
  have lb := hb.2 i hi
  rw [getD_eq_getElem_of_lt a i [] h1] at la
  rw [getD_eq_getElem_of_lt b i [] h2] at lb
  apply List.ext_getElem (by rw [la, lb])
  intro j h3 h4
  have hj : j < n := by rw [← la]; exact h3
  have := h i hi j hj
  unfold get2 at this
  rw [getD_eq_getElem_of_lt a i [] h1, getD_eq_getElem_of_lt b i [] h2,
    getD_eq_getElem_of_lt _ j 0 h3, getD_eq_getElem_of_lt _ j 0 h4] at this
  exact this

theorem square_replicate (n : Nat) : Square (List.replicate n (List.replicate n (0 : Int))) n := by
  refine ⟨by simp, fun i hi => ?_⟩
  rw [getD_replicate n i _ _ hi]
  simp

/-- Row `i` of the initialisation loop after columns `0 .. m-1`. -/
theorem initRow_spec (f : Nat → Nat → Int) (n i : Nat) (hi : i < n) (nh : Matrix)
    (hnh : Square nh n) (m : Nat) (hm : m ≤ n) :
    Square ((List.range m).foldl (fun nh j => set2 nh i j (f i j)) nh) n ∧
    ∀ a < n, ∀ b < n, get2 ((List.range m).foldl (fun nh j => set2 nh i j (f i j)) nh) a b =
      if a = i ∧ b < m then f i b else get2 nh a b := by
  induction m with
  | zero =>
    refine ⟨hnh, fun a _ b _ => ?_⟩
    rw [if_neg (fun h => Nat.not_lt_zero b h.2)]
    rfl
  | succ m ih =>
    obtain ⟨h1, h2⟩ := ih (Nat.le_of_succ_le hm)
    rw [foldl_range_succ]
    refine ⟨square_set2 _ _ _ _ _ h1, fun a ha b hb => ?_⟩
    rw [get2_set2 _ n _ _ _ _ _ h1 hi hm, h2 a ha b hb]
    by_cases hab : a = i ∧ b = m
    · rw [if_pos hab, if_pos ⟨hab.1, by omega⟩, hab.2]
    · rw [if_neg hab]
      by_cases hc : a = i ∧ b < m
      · rw [if_pos hc, if_pos ⟨hc.1, by omega⟩]
      · rw [if_neg hc, if_neg]
        rintro ⟨h3, h4⟩
        rcases Nat.lt_succ_iff_lt_or_eq.mp h4 with h5 | h5
        · exact hc ⟨h3, h5⟩
        · exact hab ⟨h3, h5⟩

/-- The initialisation loop after rows `0 .. m-1`. -/
theorem initRows_spec (f : Nat → Nat → Int) (n : Nat) (nh : Matrix) (hnh : Square nh n)
    (m : Nat) (hm : m ≤ n) :
    Square ((List.range m).foldl (fun nh i =>
      (List.range n).foldl (fun nh j => set2 nh i j (f i j)) nh) nh) n ∧
    ∀ a < n, ∀ b < n, get2 ((List.range m).foldl (fun nh i =>
      (List.range n).foldl (fun nh j => set2 nh i j (f i j)) nh) nh) a b =
      if a < m then f a b else get2 nh a b := by
  induction m with
  | zero =>
    refine ⟨hnh, fun a _ b _ => ?_⟩
    rw [if_neg (Nat.not_lt_zero a)]
    rfl
  | succ m ih =>
    obtain ⟨h1, h2⟩ := ih (Nat.le_of_succ_le hm)
    rw [foldl_range_succ]
    obtain ⟨h3, h4⟩ := initRow_spec f n m hm _ h1 n (le_refl _)
    refine ⟨h3, fun a ha b hb => ?_⟩
    rw [h4 a ha b hb, h2 a ha b hb]
    by_cases ham : a = m
    · rw [if_pos ⟨ham, hb⟩, if_pos (by omega), ham]
    · rw [if_neg (fun h => ham h.1)]
      by_cases hc : a < m
      · rw [if_pos hc, if_pos (by omega)]
      · rw [if_neg hc, if_neg (by omega)]

/-- The nested initialisation loops of `simulateDVR` produce the table `initNextHop`. -/
theorem initNextHopLoop_eq (graph : Matrix) (n : Nat) :
    initNextHopLoop graph n = initNextHop graph n := by
  obtain ⟨h1, h2⟩ := initRows_spec
    (fun i j => if get2 graph i j ≠ INF ∧ i ≠ j then (j : Int) else -1) n _
    (square_replicate n) n (le_refl _)
  refine matrix_ext _ _ n h1 (square_initNextHop graph n) (fun i hi j hj => ?_)
  rw [get2_initNextHop _ _ _ _ hi hj]
  unfold initNextHopLoop
  rw [h2 i hi j hj, if_pos hi]

/-- C14 as stated fails: in `dearEdgeGraph` the entry `graph[0][1] = 10000` is a
non-negative integer that is not strictly less than 9999, yet before the first scan
`nextHop[0][1] = 1`, not `-1`. -/
theorem dvr_init_counterexample :
    Square dearEdgeGraph 2 ∧ EntriesIn dearEdgeGraph 2 0 INT_MAX ∧
    ¬ get2 dearEdgeGraph 0 1 < INF ∧
    initNextHopLoop dearEdgeGraph 2 = [[-1, 1], [0, -1]] ∧
    dvrInit dearEdgeGraph =
      { dist := [[0, 10000], [0, 0]], nextHop := [[-1, 1], [0, -1]], updated := false } := by
  decide

/-- C14, amended. For every square cost matrix of non-negative `int` entries, before the
first relaxation scan of `simulateDVR`, `dist` equals the input matrix and, for all `i`,
`j`, `nextHop[i][j] = j` if `graph[i][j]` is different from the sentinel 9999 and
`i ≠ j`, and `nextHop[i][j] = -1` otherwise. -/
theorem dvr_init_rule (graph : Matrix) (_hsq : Square graph graph.length)
    (_hb : EntriesIn graph graph.length 0 2147483647) :
    (dvrInit graph).dist = graph ∧
    (dvrInit graph).nextHop = initNextHopLoop graph graph.length ∧
    ∀ i < graph.length, ∀ j < graph.length,
      (get2 graph i j ≠ INF ∧ i ≠ j → get2 (dvrInit graph).nextHop i j = (j : Int)) ∧
      (¬ (get2 graph i j ≠ INF ∧ i ≠ j) → get2 (dvrInit graph).nextHop i j = -1) := by
  refine ⟨rfl, (initNextHopLoop_eq graph graph.length).symm, fun i hi j hj => ?_⟩
  have h : get2 (dvrInit graph).nextHop i j =
      if get2 graph i j ≠ INF ∧ i ≠ j then (j : Int) else -1 :=
    get2_initNextHop graph graph.length i j hi hj
  exact ⟨fun hc => by rw [h, if_pos hc], fun hc => by rw [h, if_neg hc]⟩

/-- C14, amended, on the matrix with an edge of cost 10000: the edge 0 → 1 gets next
hop 1. -/
theorem dvr_init_rule_witness :
    Square dearEdgeGraph dearEdgeGraph.length ∧
    EntriesIn dearEdgeGraph dearEdgeGraph.length 0 2147483647 ∧
    (get2 dearEdgeGraph 0 1 ≠ INF ∧ (0 : Nat) ≠ 1) ∧
    get2 (dvrInit dearEdgeGraph).nextHop 0 1 = ((1 : Nat) : Int) :=
  ⟨by decide, by decide, by decide,
    ((dvr_init_rule dearEdgeGraph (by decide) (by decide)).2.2 0 (by decide) 1
      (by decide)).1 (by decide)⟩

/-! ## Claim C15 -/

set_option maxRecDepth 100000 in
/-- C15 as stated fails: in `dearSelfGraph` the self-cost 5 of node 0 exceeds the cost 2
of the cycle 0 → 1 → 0, and `simulateDVR` ends with `dist[0][0] = 2`, not 5; in
`wrapPairGraph` the diagonal is 0 and `simulateDVR` ends with `dist[0][0] = -2147483648`,
because `2^30 + 2^30` wraps. -/
theorem dvr_diagonal_counterexample :
    (Square dearSelfGraph 2 ∧ EntriesIn dearSelfGraph 2 0 INT_MAX ∧
      get2 dearSelfGraph 0 0 = 5 ∧
      simulateDVR dearSelfGraph 2 = some
        { dist := [[2, 1], [1, 0]], nextHop := [[1, 1], [0, -1]], updated := false }) ∧
    (Square wrapPairGraph 2 ∧ EntriesIn wrapPairGraph 2 0 INT_MAX ∧
      get2 wrapPairGraph 0 0 = 0 ∧
      (simulateDVR wrapPairGraph 2).map (fun t => get2 t.dist 0 0) = some (-2147483648)) := by
  decide

/-- C15, amended. For every square cost matrix with entries in `0..1073741823` the loop of
`simulateDVR` ends with `dist[i][i] ≤ graph[i][i]` for every node `i`, and with
`dist[i][i]` equal to the input entry `graph[i][i]` for every node `i` whose input
diagonal entry is 0. -/
theorem dvr_diagonal_kept (graph : Matrix) (hsq : Square graph graph.length)
    (hb : EntriesIn graph graph.length 0 1073741823) :
    (∃ fuel t, simulateDVR graph fuel = some t) ∧
    ∀ fuel t, simulateDVR graph fuel = some t → ∀ i < graph.length,
      get2 t.dist i i ≤ get2 graph i i ∧
      (get2 graph i i = 0 → get2 t.dist i i = get2 graph i i) := by
  refine ⟨simulateDVR_total graph hsq
      (entriesIn_mono graph _ 0 1073741823 _ _ hb (by norm_num) (by norm_num)),
    fun fuel t h i hi => ?_⟩
  have hinv := dvrInv_of_reach graph t hsq hb (simulateDVR_reach graph fuel t h)
  have h1 := hinv.2.2 i hi i hi
  exact ⟨h1.2, fun hz => le_antisymm h1.2 (by rw [hz]; exact h1.1)⟩

set_option maxRecDepth 100000 in
/-- C15, amended, on the matrix whose node 0 has self-cost 5 and whose node 1 has
self-cost 0. -/
theorem dvr_diagonal_kept_witness :
    Square dearSelfGraph dearSelfGraph.length ∧
    EntriesIn dearSelfGraph dearSelfGraph.length 0 1073741823 ∧
    get2 dearSelfGraph 1 1 = 0 ∧
    ∀ fuel t, simulateDVR dearSelfGraph fuel = some t →
      get2 t.dist 1 1 = get2 dearSelfGraph 1 1 :=
  ⟨by decide, by decide, by decide, fun fuel t h =>
    ((dvr_diagonal_kept dearSelfGraph (by decide) (by decide)).2 fuel t h 1 (by decide)).2
      (by decide)⟩

/-! ## Visited marks -/

theorem visit_visited (graph : Matrix) (n u : Nat) (s : LSRState) :
    (visit graph n u s).visited = s.visited.set u true := by
  unfold visit
  exact foldl_inv (fun t => t.visited = s.visited.set u true) (relaxEdge graph u)
    (List.range n) (fun t v _ ht => by
      show (relaxEdge graph u t v).visited = _
      rw [relaxEdge_visited]; exact ht) (markVisited u s) rfl

/-- Nodes marked visited stay marked through the rest of the search loop. -/
theorem dijkstraLoop_visited_mono (graph : Matrix) (n iters : Nat) :
    ∀ s : LSRState, ∀ x, s.visited.getD x false = true →
      (dijkstraLoop graph n iters s).visited.getD x false = true := by
  induction iters with
  | zero => intro s x h; exact h
  | succ iters ih =>
    intro s x h
    simp only [dijkstraLoop]
    split
    · exact h
    · exact ih _ x (by rw [visit_visited]; exact getD_set_true _ _ _ h)

/-! ## Order in which the search marks nodes -/

theorem markedBefore_append (order : List Nat) (u v x : Nat) (h : MarkedBefore order u v) :
    MarkedBefore (order ++ [x]) u v := by
  obtain ⟨a, b, he, h1, h2⟩ := h
  exact ⟨a, b ++ [x], by rw [he]; simp, h1, h2⟩

theorem markedBefore_of_mem (order : List Nat) (u v : Nat) (hu : u ∈ order)
    (hv : v ∉ order) : MarkedBefore order u v := by
  obtain ⟨a, b, he⟩ := List.append_of_mem hu
  refine ⟨a, b, he, fun h => hv ?_, fun h => hv ?_⟩
  · rw [he]; exact List.mem_append_left _ h
  · rw [h]; exact hu

/-- Of two marks in one order, with `u` marked before `v`: the part of the order before
`u` is shorter than the part before any occurrence of `v`, and contains it. -/
theorem markedBefore_prefix (order : List Nat) (u v : Nat) (a b : List Nat)
    (he : order = a ++ v :: b) (h : MarkedBefore order u v) :
    ∃ a' c, a = a' ++ u :: c := by
  obtain ⟨a', b', he', h1, h2⟩ := h
  rw [he] at he'
  rcases List.append_eq_append_iff.mp he' with ⟨c, hc1, hc2⟩ | ⟨c, hc1, hc2⟩
  · cases c with
    | nil =>
      simp only [List.nil_append] at hc2
      exact absurd (List.cons.inj hc2).1 h2
    | cons x c =>
      simp only [List.cons_append] at hc2
      have hx : v = x := (List.cons.inj hc2).1
      exfalso
      apply h1
      rw [hc1, hx]
      simp
  · cases c with
    | nil =>
      simp only [List.nil_append] at hc2
      exact absurd (List.cons.inj hc2).1.symm h2
    | cons x c =>
      simp only [List.cons_append] at hc2
      have hx : u = x := (List.cons.inj hc2).1
      exact ⟨a', c, by rw [hc1, hx]⟩

theorem markedBefore_trans (order : List Nat) (w u v : Nat) (h1 : MarkedBefore order w u)
    (h2 : MarkedBefore order u v) : MarkedBefore order w v := by
  obtain ⟨a2, b2, he2, hv2, hvu⟩ := h2
  obtain ⟨a1, c, hc⟩ := markedBefore_prefix order w u a2 b2 he2 h1
  refine ⟨a1, c ++ u :: b2, by rw [he2, hc]; simp, fun h => hv2 ?_, fun h => hv2 ?_⟩
  · rw [hc]; exact List.mem_append_left _ h
  · rw [hc, h]; simp

theorem orderInv_relaxEdge (graph : Matrix) (src : Nat) (t : LSRState) (u v : Nat)
    (order : List Nat) (hs : src < graph.length) (hr : LSRReach graph src t)
    (hu : u < graph.length) (hv : v < graph.length)
    (huv : t.visited.getD u false = true) (ho : OrderInv graph.length t order) :
    OrderInv graph.length (relaxEdge graph u t v) order := by
  have hinv := lsrInv_of_reach graph src t hs hr
  rcases relaxEdge_cases graph u v t with he | ⟨hvv, _, _, he⟩
  · rw [he]; exact ho
  · rw [he]
    refine ⟨ho.1, fun w hw x hx => ?_⟩
    simp only at hx
    by_cases hwv : w = v
    · subst hwv
      rw [getD_set_of_lt _ _ _ _ _ (by rw [hinv.len_prev]; exact hv), if_pos rfl] at hx
      have hxu : x = u := by exact_mod_cast hx.symm
      rw [hxu]
      refine markedBefore_of_mem order u w ((ho.1 u).mpr ⟨hu, huv⟩) (fun hmem => ?_)
      have := ((ho.1 w).mp hmem).2
      rw [hvv] at this
      exact Bool.noConfusion this
    · rw [getD_set_ne _ _ _ _ _ hwv] at hx
      exact ho.2 w hw x hx

/-- A whole iteration appends the selected node to the marking order. -/
theorem orderInv_visit (graph : Matrix) (src : Nat) (s : LSRState) (order : List Nat)
    (hs : src < graph.length) (hr : LSRReach graph src s)
    (ho : OrderInv graph.length s order) (hsel : selectMin graph.length s ≠ -1)
    (hfin : s.dist.getD (selectMin graph.length s).toNat 0 ≠ INF) :
    OrderInv graph.length (visit graph graph.length (selectMin graph.length s).toNat s)
      (order ++ [(selectMin graph.length s).toNat]) := by
  have hreach1 := LSRReach.mark s hr hsel hfin
  have hinv := lsrInv_of_reach graph src s hs hr
  rcases selectMin_spec s graph.length with ⟨he, _⟩ | ⟨u, he, hu, _, _, _⟩
  · exact absurd he hsel
  · rw [he, Int.toNat_ofNat] at hreach1 ⊢
    have hlv : u < s.visited.length := by rw [hinv.len_vis]; exact hu
    have hu1 : (markVisited u s).visited.getD u false = true := by
      simp only [markVisited]
      rw [getD_set_of_lt _ _ _ _ _ hlv, if_pos rfl]
    have ho1 : OrderInv graph.length (markVisited u s) (order ++ [u]) := by
      refine ⟨fun x => ?_, fun v hv x hx => markedBefore_append _ _ _ _ (ho.2 v hv x hx)⟩
      simp only [markVisited, List.mem_append, List.mem_singleton]
      rw [getD_set_of_lt _ _ _ _ _ hlv]
      constructor
      · rintro (h | h)
        · have := (ho.1 x).mp h
          exact ⟨this.1, by split; rfl; exact this.2⟩
        · rw [h]; exact ⟨hu, by rw [if_pos rfl]⟩
      · rintro ⟨h1, h2⟩
        by_cases hxu : x = u
        · exact Or.inr hxu
        · rw [if_neg hxu] at h2
          exact Or.inl ((ho.1 x).mpr ⟨h1, h2⟩)
    have := foldl_inv
      (fun t => LSRReach graph src t ∧ t.visited.getD u false = true ∧
        OrderInv graph.length t (order ++ [u]))
      (relaxEdge graph u) (List.range graph.length)
      (fun t v hv ht => ⟨LSRReach.edge t u v ht.1 hu (List.mem_range.mp hv) ht.2.1,
        by show (relaxEdge graph u t v).visited.getD u false = true
           rw [relaxEdge_visited]; exact ht.2.1,
        orderInv_relaxEdge graph src t u v _ hs ht.1 hu (List.mem_range.mp hv) ht.2.1 ht.2.2⟩)
      (markVisited u s) ⟨hreach1, hu1, ho1⟩
    exact this.2.2

/-- The marking order stays faithful through the search loop. -/
theorem orderInv_loop (graph : Matrix) (src : Nat) (hs : src < graph.length) (iters : Nat) :
    ∀ s order, LSRReach graph src s → OrderInv graph.length s order →
      OrderInv graph.length (dijkstraLoop graph graph.length iters s)
        (order ++ visitOrder graph graph.length iters s) := by
  induction iters with
  | zero =>
    intro s order _ ho
    simpa [dijkstraLoop, visitOrder] using ho
  | succ iters ih =>
    intro s order hr ho
    simp only [dijkstraLoop, visitOrder]
    split
    · simpa using ho
    · rename_i hbrk
      have hsel : selectMin graph.length s ≠ -1 := fun h => hbrk (Or.inl h)
      have hfin : s.dist.getD (selectMin graph.length s).toNat 0 ≠ INF :=
        fun h => hbrk (Or.inr h)
      have := ih _ _ (visit_reach graph src s hs hr hsel hfin)
        (orderInv_visit graph src s order hs hr ho hsel hfin)
      rw [List.append_assoc] at this
      exact this

theorem orderInv_init (n src : Nat) : OrderInv n (lsrInit n src) [] := by
  refine ⟨fun x => ?_, fun v hv u hu => ?_⟩
  · rw [lsrInit_visited]
    simp
  · have : (lsrInit n src).prev.getD v 0 = -1 := getD_replicate _ _ _ _ hv
    rw [this] at hu
    exact absurd hu.symm (natCast_ne_neg_one u)

/-- Final arrays of `simulateLSR` against the order in which nodes were marked. -/
theorem simulateLSR_order (graph : Matrix) (src : Nat) (hs : src < graph.length) :
    OrderInv graph.length (simulateLSR graph src)
      (visitOrder graph graph.length graph.length (lsrInit graph.length src)) := by
  have := orderInv_loop graph src hs graph.length _ [] LSRReach.init
    (orderInv_init graph.length src)
  simpa using this

theorem visitOrder_length (graph : Matrix) (n iters : Nat) :
    ∀ s, (visitOrder graph n iters s).length ≤ iters := by
  induction iters with
  | zero => intro s; simp [visitOrder]
  | succ iters ih =>
    intro s
    simp only [visitOrder]
    split
    · simp
    · simp only [List.length_cons]
      exact Nat.succ_le_succ (ih _)

/-- The source is the first node the search marks. -/
theorem visitOrder_head (graph : Matrix) (src : Nat) (hs : src < graph.length) :
    ∃ rest, visitOrder graph graph.length graph.length (lsrInit graph.length src) =
      src :: rest := by
  obtain ⟨m, hm⟩ : ∃ m, graph.length = m + 1 := ⟨graph.length - 1, by omega⟩
  have hsel := selectMin_init graph.length src hs
  have hd : (lsrInit graph.length src).dist.getD src 0 = 0 := by
    rw [lsrInit_dist _ _ _ hs hs, if_pos rfl]
  generalize hn : graph.length = n at *
  subst hm
  simp only [visitOrder]
  rw [hsel, Int.toNat_ofNat, hd, if_neg]
  · exact ⟨_, rfl⟩
  · rintro (h | h)
    · exact natCast_ne_neg_one src h
    · rw [INF_eq] at h; omega

/-! ## Final link-state arrays for any cost matrix -/

/-- For any cost matrix, when the search loop ends every node still unvisited holds the
sentinel. -/
theorem dijkstraLoop_done_any (graph : Matrix) (src : Nat) (hs : src < graph.length)
    (iters : Nat) :
    ∀ s, LSRReach graph src s → s.visited.count false ≤ iters →
      ∀ v < graph.length,
        (dijkstraLoop graph graph.length iters s).visited.getD v false = false →
        (dijkstraLoop graph graph.length iters s).dist.getD v 0 = INF := by
  induction iters with
  | zero =>
    intro s hr hc v hv hvv
    have hinv := lsrInv_of_reach graph src s hs hr
    have := all_visited_of_count s.visited (Nat.le_zero.mp hc) v (by rw [hinv.len_vis]; exact hv)
    simp only [dijkstraLoop] at hvv
    rw [this] at hvv
    exact Bool.noConfusion hvv
  | succ iters ih =>
    intro s hr hc
    have hinv := lsrInv_of_reach graph src s hs hr
    simp only [dijkstraLoop]
    split
    · rename_i hbrk
      intro v hv hvv
      rcases selectMin_spec s graph.length with ⟨_, hall⟩ | ⟨u, he, hu, _, hmin, _⟩
      · rw [hall v hv] at hvv; exact Bool.noConfusion hvv
      · rw [he, Int.toNat_ofNat] at hbrk
        rcases hbrk with h | h
        · exact absurd h (natCast_ne_neg_one u)
        · have h1 := hmin v hv hvv
          have h2 := hinv.dist_le v hv
          rw [h] at h1
          exact le_antisymm h2 h1
    · rename_i hbrk
      have hsel : selectMin graph.length s ≠ -1 := fun h => hbrk (Or.inl h)
      have hfin : s.dist.getD (selectMin graph.length s).toNat 0 ≠ INF :=
        fun h => hbrk (Or.inr h)
      refine ih _ (visit_reach graph src s hs hr hsel hfin) ?_
      rw [visit_visited]
      rcases selectMin_spec s graph.length with ⟨he, _⟩ | ⟨u, he, hu, huv, _, _⟩
      · exact absurd he hsel
      · rw [he, Int.toNat_ofNat]
        have := count_false_set s.visited u (by rw [hinv.len_vis]; exact hu) huv
        omega

theorem simulateLSR_done_any (graph : Matrix) (src : Nat) (hs : src < graph.length) :
    ∀ v < graph.length, (simulateLSR graph src).visited.getD v false = false →
      (simulateLSR graph src).dist.getD v 0 = INF :=
  dijkstraLoop_done_any graph src hs graph.length _ LSRReach.init
    (by simp [lsrInit, List.count_replicate])

/-- In the final arrays a recorded predecessor `u` of `v` was marked before `v` was. -/
theorem simulateLSR_prev_order (graph : Matrix) (src v u : Nat) (hs : src < graph.length)
    (hv : v < graph.length) (hp : (simulateLSR graph src).prev.getD v 0 = (u : Int)) :
    ∃ a b c, visitOrder graph graph.length graph.length (lsrInit graph.length src) =
      a ++ u :: (b ++ v :: c) := by
  have hinv := lsrInv_of_reach graph src _ hs (simulateLSR_reach graph src hs)
  have ho := simulateLSR_order graph src hs
  obtain ⟨a, b', he, hva, hvu⟩ := ho.2 v hv u hp
  have hfin : (simulateLSR graph src).dist.getD v 0 ≠ INF := by
    intro h
    have := (hinv.prev_none v hv).mpr (Or.inr h)
    rw [hp] at this
    exact natCast_ne_neg_one u this
  have hvis : (simulateLSR graph src).visited.getD v false = true := by
    by_contra hc
    exact hfin (simulateLSR_done_any graph src hs v hv (by simpa using hc))
  have hmem := (ho.1 v).mpr ⟨hv, hvis⟩
  rw [he] at hmem
  rcases List.mem_append.mp hmem with h | h
  · exact absurd h hva
  · rcases List.mem_cons.mp h with h | h
    · exact absurd h hvu
    · obtain ⟨b, c, hb⟩ := List.append_of_mem h
      exact ⟨a, b, c, by rw [he, hb]⟩

/-! ## Claim C16 -/

/-- C16 (LSR predecessor-array invariant). For every square cost matrix with entries in
`0..9999` and every source `s`, the arrays `dist` and `prev` that `simulateLSR` ends
with satisfy, for every node `v`: `prev[v] = -1` if and only if `v = s` or
`dist[v] = 9999`; and whenever `prev[v] = u ≠ -1`, `u` is a node that was marked visited
before `v`, `graph[u][v] ≠ 9999`, and `dist[v] = dist[u] + graph[u][v]`. The order of
marking is `visitOrder`, which lists exactly the nodes whose `visited` flag is set. -/
theorem lsr_prev_invariant (graph : Matrix) (_hsq : Square graph graph.length)
    (hb : EntriesIn graph graph.length 0 9999) (s : Nat) (hs : s < graph.length) :
    (∀ x, x ∈ visitOrder graph graph.length graph.length (lsrInit graph.length s) ↔
      (x < graph.length ∧ (simulateLSR graph s).visited.getD x false = true)) ∧
    ∀ v < graph.length,
      ((simulateLSR graph s).prev.getD v 0 = -1 ↔
        (v = s ∨ (simulateLSR graph s).dist.getD v 0 = INF)) ∧
      ((simulateLSR graph s).prev.getD v 0 ≠ -1 →
        ∃ u : Nat, (simulateLSR graph s).prev.getD v 0 = (u : Int) ∧ u < graph.length ∧
          (∃ a b c, visitOrder graph graph.length graph.length (lsrInit graph.length s) =
            a ++ u :: (b ++ v :: c)) ∧
          get2 graph u v ≠ INF ∧
          (simulateLSR graph s).dist.getD v 0 =
            (simulateLSR graph s).dist.getD u 0 + get2 graph u v) := by
  refine ⟨(simulateLSR_order graph s hs).1, fun v hv => ?_⟩
  have hr := simulateLSR_reach graph s hs
  have hinv := lsrInv_of_reach graph s _ hs hr
  have hcost := lsrCost_of_reach graph s _ hs hb hr
  refine ⟨hinv.prev_none v hv, fun hp => ?_⟩
  obtain ⟨u, hu, hpu, _⟩ := hinv.prev_node v hv hp
  obtain ⟨hg, hd⟩ := hcost.prev_edge v hv u hu hpu
  exact ⟨u, hpu, hu, simulateLSR_prev_order graph s v u hs hv hpu, hg, hd⟩

set_option maxRecDepth 100000 in
/-- C16 on the four-node line with source 0, for node 3: its predecessor is node 2, and
the marking order is 0, 1, 2, 3. -/
theorem lsr_prev_invariant_witness :
    Square lineGraph lineGraph.length ∧ EntriesIn lineGraph lineGraph.length 0 9999 ∧
    (simulateLSR lineGraph 0).prev.getD 3 0 = 2 ∧
    visitOrder lineGraph 4 4 (lsrInit 4 0) = [0, 1, 2, 3] ∧
    ∃ u : Nat, (2 : Int) = (u : Int) ∧ u < lineGraph.length ∧
      (∃ a b c, visitOrder lineGraph lineGraph.length lineGraph.length
        (lsrInit lineGraph.length 0) = a ++ u :: (b ++ 3 :: c)) ∧
      get2 lineGraph u 3 ≠ INF ∧
      (simulateLSR lineGraph 0).dist.getD 3 0 =
        (simulateLSR lineGraph 0).dist.getD u 0 + get2 lineGraph u 3 :=
  ⟨by decide, by decide, by decide, by decide,
    ((lsr_prev_invariant lineGraph (by decide) (by decide) 0 (by decide)).2 3 (by decide)).2
      (by decide)⟩

/-! ## Claim C17 -/

/-- For `d ≠ s` with a final distance other than the sentinel, the walk of `printLSRTable`
ends at a node whose predecessor is the source. -/
theorem hopWalk_reaches (graph : Matrix) (s d : Nat) (hs : s < graph.length)
    (hd : d < graph.length) (hne : d ≠ s)
    (hfin : (simulateLSR graph s).dist.getD d 0 ≠ INF) :
    ∃ h : Nat, ∃ fuel,
      hopWalk (simulateLSR graph s).prev (s : Int) fuel (d : Int) = some (h : Int) ∧
      (simulateLSR graph s).prev.getD h 0 = (s : Int) := by
  have hinv := lsrInv_of_reach graph s _ hs (simulateLSR_reach graph s hs)
  have hpd : (simulateLSR graph s).prev.getD d 0 ≠ -1 := by
    intro h
    rcases (hinv.prev_none d hd).mp h with h1 | h1
    · exact hne h1
    · exact hfin h1
  obtain ⟨h, _, hc⟩ := hinv.chain d hd hpd
  obtain ⟨fuel, hf⟩ := hopWalk_of_hopTo _ _ _ _ _ hc
  exact ⟨h, fuel, hf, hopTo_prev _ _ _ _ _ hc⟩

/-- C17 (LSR reports none exactly for unreachable destinations). For every square cost
matrix with entries in `0..9999`, every source `s` and every destination `d ≠ s`, the
walk of `printLSRTable` ends, and the next hop it reports for `d` is `-1` if and only if
the final `dist[d]` is the sentinel 9999; when it is `-1`, the walk ended at a `hop` with
`prev[hop] = -1`, and that `hop` is not what is reported. -/
theorem lsr_none_iff_unreachable (graph : Matrix) (_hsq : Square graph graph.length)
    (_hb : EntriesIn graph graph.length 0 9999) (s d : Nat) (hs : s < graph.length)
    (hd : d < graph.length) (hne : d ≠ s) :
    (∃ fuel r, printLSRTable s (simulateLSR graph s).prev fuel d = some r) ∧
    ∀ fuel r, printLSRTable s (simulateLSR graph s).prev fuel d = some r →
      (r = -1 ↔ (simulateLSR graph s).dist.getD d 0 = INF) ∧
      (r = -1 → ∃ hop, hopWalk (simulateLSR graph s).prev (s : Int) fuel (d : Int) = some hop ∧
        (simulateLSR graph s).prev.getD hop.toNat 0 = -1 ∧ hop ≠ r) := by
  have hinv := lsrInv_of_reach graph s _ hs (simulateLSR_reach graph s hs)
  by_cases hfin : (simulateLSR graph s).dist.getD d 0 = INF
  · have hpd : (simulateLSR graph s).prev.getD d 0 = -1 :=
      (hinv.prev_none d hd).mpr (Or.inr hfin)
    refine ⟨⟨1, -1, printLSRTable_none s _ 0 d hpd⟩, fun fuel r hr => ?_⟩
    cases fuel with
    | zero => simp [printLSRTable, hopWalk] at hr
    | succ f =>
      rw [printLSRTable_none s _ f d hpd] at hr
      have hr' : r = -1 := (Option.some.inj hr).symm
      have hw : hopWalk (simulateLSR graph s).prev (s : Int) (f + 1) (d : Int) =
          some (d : Int) := by
        simp only [hopWalk, Int.toNat_ofNat]
        rw [if_neg (fun hc => hc.2 hpd)]
      refine ⟨⟨fun _ => hfin, fun _ => hr'⟩, fun _ => ⟨(d : Int), hw, ?_, ?_⟩⟩
      · rw [Int.toNat_ofNat]; exact hpd
      · rw [hr']; exact natCast_ne_neg_one d
  · obtain ⟨h, fuel0, hf, hprev⟩ := hopWalk_reaches graph s d hs hd hne hfin
    have hval : ∀ fuel r, printLSRTable s (simulateLSR graph s).prev fuel d = some r →
        r = (h : Int) := by
      intro fuel r hr
      unfold printLSRTable at hr
      cases hw : hopWalk (simulateLSR graph s).prev (s : Int) fuel (d : Int) with
      | none => rw [hw] at hr; simp at hr
      | some x =>
        have hx : x = (h : Int) := hopWalk_unique _ _ _ _ _ _ _ hw hf
        rw [hw, hx] at hr
        have : (if (simulateLSR graph s).prev.getD ((h : Int)).toNat 0 = -1 then (-1 : Int)
            else (h : Int)) = r := Option.some.inj hr
        rw [Int.toNat_ofNat, hprev, if_neg (natCast_ne_neg_one s)] at this
        exact this.symm
    refine ⟨⟨fuel0, (h : Int), ?_⟩, fun fuel r hr => ?_⟩
    · unfold printLSRTable
      rw [hf]
      show some (if (simulateLSR graph s).prev.getD ((h : Int)).toNat 0 = -1 then (-1 : Int)
        else (h : Int)) = some (h : Int)
      rw [Int.toNat_ofNat, hprev, if_neg (natCast_ne_neg_one s)]
    · have hrh := hval fuel r hr
      have hr1 : r ≠ -1 := by rw [hrh]; exact natCast_ne_neg_one h
      exact ⟨⟨fun h1 => absurd h1 hr1, fun h1 => absurd h1 hfin⟩, fun h1 => absurd h1 hr1⟩

set_option maxRecDepth 100000 in
/-- C17 on the three-node matrix without edges, source 0 and destination 1. -/
theorem lsr_none_iff_unreachable_witness :
    Square isolatedGraph isolatedGraph.length ∧
    EntriesIn isolatedGraph isolatedGraph.length 0 9999 ∧
    printLSRTable 0 (simulateLSR isolatedGraph 0).prev 1 1 = some (-1) ∧
    ((-1 : Int) = -1 ↔ (simulateLSR isolatedGraph 0).dist.getD 1 0 = INF) :=
  ⟨by decide, by decide, by decide,
    ((lsr_none_iff_unreachable isolatedGraph (by decide) (by decide) 0 1 (by decide)
      (by decide) (by decide)).2 1 (-1) (by decide)).1⟩

/-! ## Claim C18 -/

/-- C18 (LSR selection and tie-break). For every `dist` array and `visited` array of
length `n`: the selection scan yields `-1` exactly when no node is unvisited; otherwise it
yields an unvisited node `u` whose `dist` is least among the unvisited nodes, with a
strictly smaller `dist` than every unvisited node of lower index, hence the lowest index
among those of equal least `dist`; an iteration of the search loop leaves the state as it
is when `u = -1` or `dist[u] = 9999`, and otherwise marks exactly `u` as visited; so nodes
once visited stay visited through the loop. -/
theorem lsr_selection (graph : Matrix) (n : Nat) (s : LSRState)
    (hlen : s.visited.length = n) :
    (selectMin n s = -1 ↔ ∀ j < n, s.visited.getD j false = true) ∧
    (selectMin n s ≠ -1 → ∃ u : Nat, selectMin n s = (u : Int) ∧ u < n ∧
      s.visited.getD u false = false ∧
      (∀ j < n, s.visited.getD j false = false → s.dist.getD u 0 ≤ s.dist.getD j 0) ∧
      (∀ j < u, s.visited.getD j false = false → s.dist.getD u 0 < s.dist.getD j 0) ∧
      (∀ j < n, s.visited.getD j false = false → s.dist.getD j 0 = s.dist.getD u 0 →
        u ≤ j)) ∧
    (∀ iters, (selectMin n s = -1 ∨ s.dist.getD (selectMin n s).toNat 0 = INF) →
      dijkstraLoop graph n (iters + 1) s = s) ∧
    (∀ iters, ¬ (selectMin n s = -1 ∨ s.dist.getD (selectMin n s).toNat 0 = INF) →
      dijkstraLoop graph n (iters + 1) s =
        dijkstraLoop graph n iters (visit graph n (selectMin n s).toNat s) ∧
      ∀ x, (visit graph n (selectMin n s).toNat s).visited.getD x false =
        if x = (selectMin n s).toNat then true else s.visited.getD x false) ∧
    (∀ iters x, s.visited.getD x false = true →
      (dijkstraLoop graph n iters s).visited.getD x false = true) := by
  refine ⟨?_, fun hsel => ?_, fun iters hbrk => ?_, fun iters hbrk => ⟨?_, fun x => ?_⟩,
    fun iters x hx => dijkstraLoop_visited_mono graph n iters s x hx⟩
  · rcases selectMin_spec s n with ⟨he, hall⟩ | ⟨u, he, hu, huv, _, _⟩
    · exact ⟨fun _ => hall, fun _ => he⟩
    · constructor
      · intro h; rw [he] at h; exact absurd h (natCast_ne_neg_one u)
      · intro h; rw [h u hu] at huv; exact Bool.noConfusion huv
  · rcases selectMin_spec s n with ⟨he, _⟩ | ⟨u, he, hu, huv, hmin, htie⟩
    · exact absurd he hsel
    · refine ⟨u, he, hu, huv, hmin, htie, fun j _ hjv hje => ?_⟩
      by_contra hc
      have := htie j (not_le.mp hc) hjv
      rw [hje] at this
      exact lt_irrefl _ this
  · simp only [dijkstraLoop]
    rw [if_pos hbrk]
  · simp only [dijkstraLoop]
    rw [if_neg hbrk]
  · rw [visit_visited]
    rcases selectMin_spec s n with ⟨he, _⟩ | ⟨u, he, hu, _, _, _⟩
    · exact absurd (Or.inl he) hbrk
    · rw [he, Int.toNat_ofNat]
      exact getD_set_of_lt _ _ _ _ _ (by rw [hlen]; exact hu)

set_option maxRecDepth 100000 in
/-- C18 on arrays with a tie: nodes 1 and 2 are unvisited with the same least `dist` 4,
and the scan yields node 1. -/
theorem lsr_selection_witness :
    tieState.visited.length = 4 ∧ selectMin 4 tieState = 1 ∧
    ∃ u : Nat, (1 : Int) = (u : Int) ∧ u < 4 ∧ ∀ j < 4,
      tieState.visited.getD j false = false →
      tieState.dist.getD j 0 = tieState.dist.getD u 0 → u ≤ j := by
  obtain ⟨u, h1, h2, _, _, _, h6⟩ :=
    (lsr_selection lineGraph 4 tieState (by decide)).2.1 (by decide)
  exact ⟨by decide, by decide, u, h1, h2, h6⟩

/-! ## Claim C19 -/

/-- A walk that starts at a marked node other than the source, with at most `k` nodes
marked before it, ends within `k` loop tests. -/
theorem hopWalk_fuel (graph : Matrix) (src : Nat) (hs : src < graph.length) (k : Nat) :
    ∀ v a b, v < graph.length → v ≠ src →
      visitOrder graph graph.length graph.length (lsrInit graph.length src) = a ++ v :: b →
      a.length ≤ k →
      ∃ r, hopWalk (simulateLSR graph src).prev (src : Int) k (v : Int) = some r := by
  have hinv := lsrInv_of_reach graph src _ hs (simulateLSR_reach graph src hs)
  have ho := simulateLSR_order graph src hs
  induction k with
  | zero =>
    intro v a b _ hne he hlen
    exfalso
    obtain ⟨rest, hh⟩ := visitOrder_head graph src hs
    have ha : a = [] := List.length_eq_zero.mp (Nat.le_zero.mp hlen)
    rw [ha, hh] at he
    exact hne (List.cons.inj he).1.symm
  | succ k ih =>
    intro v a b hv _ he hlen
    simp only [hopWalk, Int.toNat_ofNat]
    split
    · rename_i hc
      obtain ⟨u, hu, hpu, _⟩ := hinv.prev_node v hv hc.2
      have hus : u ≠ src := by
        rintro rfl
        exact hc.1 hpu
      obtain ⟨a', c, hac⟩ := markedBefore_prefix _ u v a b he (ho.2 v hv u hpu)
      rw [hpu]
      refine ih u a' (c ++ v :: b) hu hus (by rw [he, hac]; simp) ?_
      rw [hac] at hlen
      simp only [List.length_append, List.length_cons] at hlen
      omega
    · exact ⟨_, rfl⟩

/-- Every value the walk gives to `hop` is a node index. -/
theorem hopTrail_bounds (graph : Matrix) (src : Nat) (hs : src < graph.length) (fuel : Nat) :
    ∀ v < graph.length, ∀ x ∈ hopTrail (simulateLSR graph src).prev (src : Int) fuel (v : Int),
      ∃ m : Nat, x = (m : Int) ∧ m < graph.length := by
  have hinv := lsrInv_of_reach graph src _ hs (simulateLSR_reach graph src hs)
  induction fuel with
  | zero => intro v _ x hx; simp [hopTrail] at hx
  | succ fuel ih =>
    intro v hv x hx
    simp only [hopTrail, Int.toNat_ofNat, List.mem_cons] at hx
    rcases hx with hx | hx
    · exact ⟨v, hx, hv⟩
    · split at hx
      · rename_i hc
        obtain ⟨u, hu, hpu, _⟩ := hinv.prev_node v hv hc.2
        rw [hpu] at hx
        exact ih u hu x hx
      · simp at hx

/-- The node the walk returns is the last value of `hop`. -/
theorem hopWalk_last (prev : List Int) (src : Int) (fuel : Nat) :
    ∀ hop r, hopWalk prev src fuel hop = some r →
      (hopTrail prev src fuel hop).getLast? = some r := by
  induction fuel with
  | zero => intro hop r h; simp [hopWalk] at h
  | succ fuel ih =>
    intro hop r h
    simp only [hopWalk] at h
    simp only [hopTrail]
    split
    · rename_i hc
      rw [if_pos hc] at h
      have h1 := ih _ r h
      cases ht : hopTrail prev src fuel (prev.getD hop.toNat 0) with
      | nil => rw [ht] at h1; simp at h1
      | cons y ys =>
        rw [ht] at h1
        rw [List.getLast?_cons_cons]
        exact h1
    · rename_i hc
      rw [if_neg hc] at h
      simpa using h

/-- Steps along `prev` lead to nodes marked earlier. -/
theorem prevIter_before (graph : Matrix) (src : Nat) (hs : src < graph.length) (k : Nat) :
    ∀ v w, v < graph.length → prevIter (simulateLSR graph src).prev (k + 1) v = some w →
      w < graph.length ∧
      MarkedBefore (visitOrder graph graph.length graph.length (lsrInit graph.length src))
        w v := by
  have hinv := lsrInv_of_reach graph src _ hs (simulateLSR_reach graph src hs)
  have ho := simulateLSR_order graph src hs
  induction k with
  | zero =>
    intro v w hv h
    simp only [prevIter] at h
    split at h
    · exact absurd h (by simp)
    · rename_i hc
      obtain ⟨u, hu, hpu, _⟩ := hinv.prev_node v hv hc
      rw [hpu, Int.toNat_ofNat] at h
      have hw : u = w := Option.some.inj h
      rw [← hw]
      exact ⟨hu, ho.2 v hv u hpu⟩
  | succ k ih =>
    intro v w hv h
    rw [prevIter] at h
    split at h
    · exact absurd h (by simp)
    · rename_i hc
      obtain ⟨u, hu, hpu, _⟩ := hinv.prev_node v hv hc
      rw [hpu, Int.toNat_ofNat] at h
      obtain ⟨hw, hb⟩ := ih u w hu h
      exact ⟨hw, markedBefore_trans _ w u v hb (ho.2 v hv u hpu)⟩

/-- C19 (LSR predecessor walk terminates and stays in bounds). For every square matrix of
`int` entries (negative ones included), every source `s` and every destination `d ≠ s`:
the `prev` array `simulateLSR` produces holds only `-1` or node indices; following `prev`
for one or more steps never comes back to the node it started from; the `while` loop of
`printLSRTable` ends within `N` tests of its condition, that is after fewer than `N`
assignments `hop = prev[hop]`; and every value `hop` takes, which is every index the loop
reads `prev` at, is a node index. -/
theorem lsr_walk_terminates (graph : Matrix) (_hsq : Square graph graph.length)
    (_hb : EntriesIn graph graph.length (-2147483648) 2147483647) (s d : Nat)
    (hs : s < graph.length) (hd : d < graph.length) (hne : d ≠ s) :
    (∀ v < graph.length, (simulateLSR graph s).prev.getD v 0 = -1 ∨
      ∃ u < graph.length, (simulateLSR graph s).prev.getD v 0 = (u : Int)) ∧
    (∀ v < graph.length, ∀ k, prevIter (simulateLSR graph s).prev (k + 1) v ≠ some v) ∧
    (∃ r, hopWalk (simulateLSR graph s).prev (s : Int) graph.length (d : Int) = some r ∧
      (hopTrail (simulateLSR graph s).prev (s : Int) graph.length (d : Int)).getLast? =
        some r) ∧
    (∀ fuel, ∀ x ∈ hopTrail (simulateLSR graph s).prev (s : Int) fuel (d : Int),
      ∃ m : Nat, x = (m : Int) ∧ m < graph.length) := by
  have hinv := lsrInv_of_reach graph s _ hs (simulateLSR_reach graph s hs)
  have ho := simulateLSR_order graph s hs
  refine ⟨fun v hv => ?_, fun v hv k h => ?_, ?_, fun fuel => hopTrail_bounds graph s hs fuel d hd⟩
  · by_cases hp : (simulateLSR graph s).prev.getD v 0 = -1
    · exact Or.inl hp
    · obtain ⟨u, hu, hpu, _⟩ := hinv.prev_node v hv hp
      exact Or.inr ⟨u, hu, hpu⟩
  · obtain ⟨_, _, _, _, hvv⟩ := (prevIter_before graph s hs k v v hv h).2
    exact hvv rfl
  · have hex : ∃ r, hopWalk (simulateLSR graph s).prev (s : Int) graph.length (d : Int) =
        some r := by
      obtain ⟨m, hm⟩ : ∃ m, graph.length = m + 1 := ⟨graph.length - 1, by omega⟩
      by_cases hmem : d ∈ visitOrder graph graph.length graph.length (lsrInit graph.length s)
      · obtain ⟨a, b, he⟩ := List.append_of_mem hmem
        have hlen := visitOrder_length graph graph.length graph.length (lsrInit graph.length s)
        rw [he] at hlen
        simp only [List.length_append, List.length_cons] at hlen
        obtain ⟨r, hr⟩ := hopWalk_fuel graph s hs m d a b hd hne he (by omega)
        refine ⟨r, ?_⟩
        have := hopWalk_mono _ _ m 1 _ r hr
        rw [← hm] at this
        exact this
      · have hvis : (simulateLSR graph s).visited.getD d false = false := by
          by_contra hc
          exact hmem ((ho.1 d).mpr ⟨hd, eq_true_of_ne_false hc⟩)
        have hdist := simulateLSR_done_any graph s hs d hd hvis
        have hpd := (hinv.prev_none d hd).mpr (Or.inr hdist)
        have h1 : hopWalk (simulateLSR graph s).prev (s : Int) 1 (d : Int) = some (d : Int) := by
          simp only [hopWalk, Int.toNat_ofNat]
          rw [if_neg (fun hc => hc.2 hpd)]
        refine ⟨(d : Int), ?_⟩
        have := hopWalk_mono _ _ 1 m _ _ h1
        rw [Nat.add_comm, ← hm] at this
        exact this
    obtain ⟨r, hr⟩ := hex
    exact ⟨r, hr, hopWalk_last _ _ _ _ _ hr⟩

set_option maxRecDepth 100000 in
/-- C19 on a matrix with negative costs, source 0 and destination 2: the walk passes
nodes 2 and 1 and ends within three tests. -/
theorem lsr_walk_terminates_witness :
    Square negGraph negGraph.length ∧
    EntriesIn negGraph negGraph.length (-2147483648) 2147483647 ∧
    (simulateLSR negGraph 0).prev = [-1, 0, 1] ∧
    hopTrail (simulateLSR negGraph 0).prev ((0 : Nat) : Int) 3 ((2 : Nat) : Int) = [2, 1] ∧
    (∃ r, hopWalk (simulateLSR negGraph 0).prev ((0 : Nat) : Int) negGraph.length
        ((2 : Nat) : Int) = some r ∧
      (hopTrail (simulateLSR negGraph 0).prev ((0 : Nat) : Int) negGraph.length
        ((2 : Nat) : Int)).getLast? = some r) :=
  ⟨by decide, by decide, by decide, by decide,
    (lsr_walk_terminates negGraph (by decide) (by decide) 0 2 (by decide) (by decide)
      (by decide)).2.2.1⟩

/-! ## Claim C20 -/

/-- C20 as stated fails: `wrapPairGraph` has non-negative `int` entries, and the first
update of the first scan (cell (0, 0) through node 1) stores `2^30 + 2^30`, which wraps
to `-2147483648 < 0`. -/
theorem dvr_bounded_counterexample :
    Square wrapPairGraph 2 ∧ EntriesIn wrapPairGraph 2 0 INT_MAX ∧
    relax 0 0 0 (dvrInit wrapPairGraph) = dvrInit wrapPairGraph ∧
    relax 0 0 1 (dvrInit wrapPairGraph) =
      { dist := [[-2147483648, 1073741824], [1073741824, 0]],
        nextHop := [[1, 1], [0, -1]], updated := true } := by
  decide

/-- C20, amended. For every square cost matrix with entries in `0..1073741823`, in every
state of the loop of `simulateDVR` and for every triple `(i, j, k)`: after the body of
the innermost loop every entry satisfies `0 ≤ dist[a][b] ≤ graph[a][b]` and no entry is
larger than before; when the test succeeds the entry `dist[i][j]` is strictly lower
and every other entry is unchanged; when it fails the state is unchanged. -/
theorem dvr_bounded_monotone (graph : Matrix) (hsq : Square graph graph.length)
    (hb : EntriesIn graph graph.length 0 1073741823) :
    ∀ s, DVRReach graph s → ∀ i < graph.length, ∀ j < graph.length, ∀ k < graph.length,
      (∀ a < graph.length, ∀ b < graph.length,
        0 ≤ get2 (relax i j k s).dist a b ∧ get2 (relax i j k s).dist a b ≤ get2 graph a b ∧
        get2 (relax i j k s).dist a b ≤ get2 s.dist a b) ∧
      (wrap32 (get2 s.dist i k + get2 s.dist k j) < get2 s.dist i j →
        get2 (relax i j k s).dist i j < get2 s.dist i j ∧
        ∀ a < graph.length, ∀ b < graph.length, ¬ (a = i ∧ b = j) →
          get2 (relax i j k s).dist a b = get2 s.dist a b) ∧
      (¬ wrap32 (get2 s.dist i k + get2 s.dist k j) < get2 s.dist i j →
        relax i j k s = s) := by
  intro s hs i hi j hj k hk
  have hinv := dvrInv_of_reach graph s hsq hb hs
  have hinv' := dvrInv_relax graph s i j k hb hinv hi hj hk
  have hcell : ∀ a b, get2 (relax i j k s).dist a b =
      if wrap32 (get2 s.dist i k + get2 s.dist k j) < get2 s.dist i j ∧ a = i ∧ b = j
      then wrap32 (get2 s.dist i k + get2 s.dist k j) else get2 s.dist a b := by
    intro a b
    unfold relax
    by_cases hlt : wrap32 (get2 s.dist i k + get2 s.dist k j) < get2 s.dist i j
    · rw [if_pos hlt]
      simp only
      rw [get2_set2 _ _ _ _ _ _ _ hinv.1 hi hj]
      by_cases hab : a = i ∧ b = j
      · rw [if_pos hab, if_pos ⟨hlt, hab⟩]
      · rw [if_neg hab, if_neg (fun h => hab h.2)]
    · rw [if_neg hlt, if_neg (fun h => hlt h.1)]
  refine ⟨fun a ha b hb2 => ⟨(hinv'.2.2 a ha b hb2).1, (hinv'.2.2 a ha b hb2).2, ?_⟩,
    fun hlt => ⟨?_, fun a _ b _ hab => ?_⟩, fun hlt => ?_⟩
  · rw [hcell]
    split
    · rename_i h
      rw [h.2.1, h.2.2]
      exact le_of_lt h.1
    · exact le_refl _
  · rw [hcell, if_pos ⟨hlt, rfl, rfl⟩]
    exact hlt
  · rw [hcell, if_neg (fun h => hab h.2)]
  · unfold relax
    rw [if_neg hlt]

set_option maxRecDepth 100000 in
/-- C20, amended, on the four-node line for the first update (cell (0, 2) through
node 1): the entry drops from 9999 to 3. -/
theorem dvr_bounded_monotone_witness :
    Square lineGraph lineGraph.length ∧ EntriesIn lineGraph lineGraph.length 0 1073741823 ∧
    get2 (relax 0 2 1 (dvrInit lineGraph)).dist 0 2 < get2 (dvrInit lineGraph).dist 0 2 ∧
    get2 (relax 0 2 1 (dvrInit lineGraph)).dist 0 2 = 3 :=
  ⟨by decide, by decide,
    ((dvr_bounded_monotone lineGraph (by decide) (by decide) _ DVRReach.init
      0 (by decide) 2 (by decide) 1 (by decide)).2.1 (by decide)).1,
    by decide⟩

end RoutingSim
